import Mathlib

/-!
# enhancetool: repair and validation of tool-call arguments

A shallow embedding of `mcp/tools/enhancetool/enhancetool.go`.

Go strings that reach this package come out of a JSON decoder, so they are valid
UTF-8; they are modelled as Lean strings (sequences of Unicode scalar values).
The functions of the Go standard library that the package calls (`strings`,
`strconv`, `encoding/json`) are modelled by executable definitions in the
namespaces `Strings`, `Strconv` and `Json`; the definitions of the package itself
follow in `EnhanceTool`, one per source function and under the source's names.
-/

namespace EnhanceTool

/-! ## `strings` -/

namespace Strings

/-- Go `unicode.IsSpace`: the Unicode White_Space property. -/
def isSpace (c : Char) : Bool :=
  let n := c.toNat
  n == 0x09 || n == 0x0A || n == 0x0B || n == 0x0C || n == 0x0D || n == 0x20 ||
  n == 0x85 || n == 0xA0 || n == 0x1680 || (0x2000 ≤ n && n ≤ 0x200A) ||
  n == 0x2028 || n == 0x2029 || n == 0x202F || n == 0x205F || n == 0x3000

/-- Drop the leading white space of a character list. -/
def trimLeft : List Char → List Char
  | [] => []
  | c :: cs => if isSpace c then trimLeft cs else c :: cs

/-- Drop the trailing white space of a character list. -/
def trimRight (cs : List Char) : List Char :=
  (trimLeft cs.reverse).reverse

/-- Go `strings.TrimSpace`. -/
def trimSpace (s : String) : String :=
  ⟨trimRight (trimLeft s.data)⟩

/-- Go `unicode.ToLower` as far as this package can observe it: the ASCII capitals
are lowered, and the two non-ASCII runes whose lower case is an ASCII letter
(U+0130 and U+212A, the Kelvin sign) are mapped to it. Every other rune outside
ASCII has a lower case outside ASCII; it is left as it is here, which changes no
comparison with an ASCII literal. -/
def toLowerChar (c : Char) : Char :=
  let n := c.toNat
  if 65 ≤ n ∧ n ≤ 90 then Char.ofNat (n + 32)
  else if n = 0x130 then Char.ofNat 105
  else if n = 0x212A then Char.ofNat 107
  else c

/-- Go `strings.ToLower`. -/
def toLower (s : String) : String :=
  ⟨s.data.map toLowerChar⟩

/-- Remove `p` from the front of `cs` when `cs` starts with it. -/
def dropPrefix : List Char → List Char → Option (List Char)
  | [], cs => some cs
  | _ :: _, [] => none
  | p :: ps, c :: cs => if p = c then dropPrefix ps cs else none

/-- Go `strings.TrimPrefix`. -/
def trimPrefix (s p : String) : String :=
  match dropPrefix p.data s.data with
  | some rest => ⟨rest⟩
  | none => s

/-- Go `strings.TrimSuffix`. -/
def trimSuffix (s p : String) : String :=
  match dropPrefix p.data.reverse s.data.reverse with
  | some rest => ⟨rest.reverse⟩
  | none => s

end Strings

/-! ## `strconv`: integers -/

namespace Strconv

/-- The decimal digit a character stands for, if it is one. -/
def digitVal (c : Char) : Option Nat :=
  if 48 ≤ c.toNat ∧ c.toNat ≤ 57 then some (c.toNat - 48) else none

/-- The number written by a string of decimal digits, read after `acc`; `none`
when some character is not a digit. -/
def readDigits : Nat → List Char → Option Nat
  | acc, [] => some acc
  | acc, c :: cs =>
    match digitVal c with
    | some d => readDigits (acc * 10 + d) cs
    | none => none

/-- Go `strconv.ParseUint(s, 10, 64)` without the range check: one or more decimal
digits and nothing else. -/
def parseDigits (cs : List Char) : Option Nat :=
  match cs with
  | [] => none
  | _ :: _ => readDigits 0 cs

/-- Go `strconv.ParseInt(s, 10, 64)`: an optional sign, then decimal digits only;
`none` stands for every error (`ErrSyntax` and `ErrRange` alike), which is all
the caller looks at. -/
def parseInt (s : String) : Option Int :=
  match s.data with
  | [] => none
  | c :: cs =>
    if c = Char.ofNat 43 then
      match parseDigits cs with
      | some n => if n < 2 ^ 63 then some (Int.ofNat n) else none
      | none => none
    else if c = Char.ofNat 45 then
      match parseDigits cs with
      | some n => if n ≤ 2 ^ 63 then some (-(Int.ofNat n)) else none
      | none => none
    else
      match parseDigits (c :: cs) with
      | some n => if n < 2 ^ 63 then some (Int.ofNat n) else none
      | none => none

/-- The decimal digits of `n`, most significant first, appended in front of `acc`;
`fuel` bounds the number of digits. -/
def digitsAux : Nat → Nat → List Char → List Char
  | 0, _, acc => acc
  | fuel + 1, n, acc =>
    if n < 10 then Char.ofNat (48 + n) :: acc
    else digitsAux fuel (n / 10) (Char.ofNat (48 + n % 10) :: acc)

/-- The decimal digits of a natural number, as `strconv.FormatUint(n, 10)` writes
them. -/
def natDigits (n : Nat) : List Char :=
  digitsAux (n + 1) n []

/-- Go `strconv.FormatInt(n, 10)`, which is also how `%d` prints. -/
def formatInt (n : Int) : String :=
  match n with
  | Int.ofNat k => ⟨natDigits k⟩
  | Int.negSucc k => ⟨Char.ofNat 45 :: natDigits (k + 1)⟩

end Strconv

/-! ## `float64` -/

/-- A Go `float64`: not-a-number, an infinity, or the finite value
`(-1)^neg * m * 2^e`. An IEEE double is the value with `m < 2^53`,
`-1074 ≤ e ≤ 971`, and `e = -1074` whenever `m < 2^52` (see `F64.WF`); the two
zeros are `fin false 0 (-1074)` and `fin true 0 (-1074)`. -/
inductive F64 where
  | nan
  | inf (neg : Bool)
  | fin (neg : Bool) (m : Nat) (e : Int)
deriving DecidableEq, Repr

/-- Powers by repeated multiplication, so that closed terms evaluate. -/
def npow (b : Nat) : Nat → Nat
  | 0 => 1
  | k + 1 => npow b k * b

/-- Number of binary digits of `n`, with `fuel` at least that number; a large `n`
is taken 64 binary digits at a time. -/
def bitLenAux : Nat → Nat → Nat
  | 0, _ => 0
  | fuel + 1, n =>
    if n = 0 then 0
    else if n < 18446744073709551616 then bitLenAux fuel (n / 2) + 1
    else bitLenAux fuel (n / 18446744073709551616) + 64

/-- Number of binary digits of `n` (zero for zero). -/
def bitLen (n : Nat) : Nat :=
  bitLenAux n n

namespace F64

/-- The values that are IEEE doubles. -/
def WF : F64 → Prop
  | nan => True
  | inf _ => True
  | fin _ m e => m < 2 ^ 53 ∧ -1074 ≤ e ∧ e ≤ 971 ∧ (m < 2 ^ 52 → e = -1074)

instance : DecidablePred WF := fun f =>
  match f with
  | nan => isTrue trivial
  | inf _ => isTrue trivial
  | fin _ m e =>
    inferInstanceAs (Decidable (m < 2 ^ 53 ∧ -1074 ≤ e ∧ e ≤ 971 ∧ (m < 2 ^ 52 → e = -1074)))

/-- The zero of the given sign. -/
def zero (neg : Bool) : F64 :=
  fin neg 0 (-1074)

/-- Compare `m1 * 2^e1` with `m2 * 2^e2`: the two magnitudes brought to the
smaller exponent. -/
def scaled (m1 : Nat) (e1 : Int) (m2 : Nat) (e2 : Int) : Nat × Nat :=
  let k := min e1 e2
  (m1 <<< (e1 - k).toNat, m2 <<< (e2 - k).toNat)

/-- Go `==` on `float64`: IEEE equality (a NaN equals nothing, the two zeros are
equal). -/
def eq : F64 → F64 → Bool
  | fin s1 m1 e1, fin s2 m2 e2 =>
    if m1 = 0 ∧ m2 = 0 then true
    else s1 == s2 && (scaled m1 e1 m2 e2).1 == (scaled m1 e1 m2 e2).2
  | inf a, inf b => a == b
  | _, _ => false

/-- Whether `|a| < |b|` for finite `a` and `b`. -/
def absLt : F64 → F64 → Bool
  | fin _ m1 e1, fin _ m2 e2 => (scaled m1 e1 m2 e2).1 < (scaled m1 e1 m2 e2).2
  | _, _ => false

/-- The integer part of the magnitude of a finite value. -/
def truncMag (m : Nat) (e : Int) : Nat :=
  if 0 ≤ e then m <<< e.toNat else m >>> (-e).toNat

/-- Whether a value is finite and has no fractional part. -/
def isIntegral : F64 → Bool
  | fin _ m e => if 0 ≤ e then true else m % (1 <<< (-e).toNat) == 0
  | _ => false

/-- Truncation toward zero of a finite value (zero for the others). -/
def trunc : F64 → Int
  | fin neg m e => if neg then -(Int.ofNat (truncMag m e)) else Int.ofNat (truncMag m e)
  | _ => 0

/-- Go `int(v)` for a `float64` on amd64, where `int` has 64 bits: truncation
toward zero, and the "integer indefinite" value `-2^63` for a NaN, an infinity or
a truncation outside the `int` range (the Go specification leaves that result to
the implementation). -/
def toInt : F64 → Int
  | fin neg m e =>
    let t := trunc (fin neg m e)
    if -(2 : Int) ^ 63 ≤ t ∧ t < (2 : Int) ^ 63 then t else -(2 : Int) ^ 63
  | _ => -(2 : Int) ^ 63

/-- The integer part of `log2 (num / den)` for positive `num` and `den`. -/
def floorLog2 (num den : Nat) : Int :=
  let d : Int := Int.ofNat (bitLen num) - Int.ofNat (bitLen den)
  if den <<< d.toNat ≤ num <<< (-d).toNat then d else d - 1

/-- Round the positive rational `num / den` to the nearest double, ties to even:
the mantissa and exponent of the result, the exponent being above `971` exactly
when the value overflows. -/
def roundPos (num den : Nat) : Nat × Int :=
  let e : Int := max (floorLog2 num den - 52) (-1074)
  let n := num <<< (-e).toNat
  let d := den <<< e.toNat
  let q := n / d
  let r := n % d
  let q1 := if d < 2 * r ∨ (2 * r = d ∧ q % 2 = 1) then q + 1 else q
  if q1 = 1 <<< 53 then (1 <<< 52, e + 1) else (q1, e)

/-- Round the rational `(-1)^neg * num / den` to the nearest double, ties to
even; `none` when the result overflows (where Go reports `ErrRange`). -/
def ofRat (neg : Bool) (num den : Nat) : Option F64 :=
  if num = 0 then some (zero neg)
  else
    let r := roundPos num den
    if 971 < r.2 then none else some (fin neg r.1 r.2)

/-- Go `float64(n)` for an `int`: the nearest double, ties to even. -/
def ofInt (n : Int) : F64 :=
  if n = 0 then zero false
  else fin (decide (n < 0)) (roundPos n.natAbs 1).1 (roundPos n.natAbs 1).2

end F64

/-! ## `strconv`: floating point -/

namespace Strconv

/-- The `lower` helper of `strconv`: the byte with bit `0x20` set. -/
def lower (c : Char) : Nat :=
  c.toNat ||| 0x20

/-- ASCII lower-casing of a capital letter, as in `commonPrefixLenIgnoreCase`. -/
def foldChar (c : Char) : Char :=
  if 65 ≤ c.toNat ∧ c.toNat ≤ 90 then Char.ofNat (c.toNat + 32) else c

/-- Whether `cs` is `lit` up to the case of ASCII letters. -/
def eqFold (cs : List Char) (lit : String) : Bool :=
  cs.map foldChar == lit.data

/-- The `special` function of `strconv`, for a string that must be consumed
whole: `inf` and `infinity` with an optional sign, and `nan` without one, in any
case. -/
def special (cs : List Char) : Option F64 :=
  match cs with
  | [] => none
  | c :: rest =>
    if c = Char.ofNat 43 ∨ c = Char.ofNat 45 then
      if eqFold rest "inf" ∨ eqFold rest "infinity" then some (F64.inf (c = Char.ofNat 45))
      else none
    else if eqFold cs "inf" ∨ eqFold cs "infinity" then some (F64.inf false)
    else if eqFold cs "nan" then some F64.nan
    else none

/-- The value of a hexadecimal digit. -/
def hexVal (c : Char) : Option Nat :=
  if 48 ≤ c.toNat ∧ c.toNat ≤ 57 then some (c.toNat - 48)
  else if 97 ≤ lower c ∧ lower c ≤ 102 then some (lower c - 97 + 10)
  else none

/-- Go `underscoreOK`: underscores only between digits, or between a base prefix
and a digit. `saw` is `0` after a digit, `1` after an underscore and `2` after
anything else. -/
def underscoreScan (hex : Bool) : Nat → List Char → Bool
  | saw, [] => saw != 1
  | saw, c :: cs =>
    if (48 ≤ c.toNat ∧ c.toNat ≤ 57) ∨ (hex = true ∧ 97 ≤ lower c ∧ lower c ≤ 102) then
      underscoreScan hex 0 cs
    else if c = Char.ofNat 95 then
      if saw != 0 then false else underscoreScan hex 1 cs
    else if saw == 1 then false
    else underscoreScan hex 2 cs

/-- Go `underscoreOK` on a whole string. -/
def underscoreOK (cs : List Char) : Bool :=
  let body :=
    match cs with
    | c :: rest => if c = Char.ofNat 43 ∨ c = Char.ofNat 45 then rest else cs
    | [] => cs
  match body with
  | z :: x :: rest =>
    if z = Char.ofNat 48 ∧ (lower x = 98 ∨ lower x = 111 ∨ lower x = 120) then
      underscoreScan (lower x == 120) 0 rest
    else underscoreScan false 2 body
  | _ => underscoreScan false 2 body

/-- What the digit loop of `readFloat` has seen: whether a point and a digit were
met, the number all the digits write in the base, and how many of them follow the
point. Go keeps the first 19 digits and a truncation flag instead; the result it
computes from them is the correctly rounded exact value, which is what these
fields give. -/
structure Mantissa where
  sawdot : Bool
  sawdigits : Bool
  value : Nat
  frac : Nat
deriving DecidableEq, Repr

/-- The digit loop of `readFloat`: digits, underscores and at most one point. -/
def readMantissa (hex : Bool) : Mantissa → List Char → Mantissa × List Char
  | st, [] => (st, [])
  | st, c :: cs =>
    if c = Char.ofNat 95 then readMantissa hex st cs
    else if c = Char.ofNat 46 then
      if st.sawdot then (st, c :: cs)
      else readMantissa hex { st with sawdot := true } cs
    else
      match (if hex then hexVal c else digitVal c) with
      | some d =>
        readMantissa hex
          { st with sawdigits := true
                    value := st.value * (if hex then 16 else 10) + d
                    frac := if st.sawdot then st.frac + 1 else st.frac } cs
      | none => (st, c :: cs)

/-- The exponent loop of `readFloat`: digits and underscores, the value no longer
growing once it has reached `10000`. -/
def readExponent : Nat → List Char → Nat × List Char
  | e, [] => (e, [])
  | e, c :: cs =>
    if c = Char.ofNat 95 then readExponent e cs
    else
      match digitVal c with
      | some d => readExponent (if e < 10000 then e * 10 + d else e) cs
      | none => (e, c :: cs)

/-- The optional exponent part of `readFloat`, for a string that must be consumed
whole: the signed exponent, or `none` on a syntax error. -/
def readExp (hex : Bool) (cs : List Char) : Option Int :=
  match cs with
  | [] => if hex then none else some 0
  | c :: rest =>
    if lower c = (if hex then 112 else 101) then
      let signed : Bool × List Char :=
        match rest with
        | s :: r =>
          if s = Char.ofNat 43 then (false, r)
          else if s = Char.ofNat 45 then (true, r)
          else (false, rest)
        | [] => (false, rest)
      match signed.2 with
      | [] => none
      | d :: _ =>
        if (digitVal d).isSome then
          match readExponent 0 signed.2 with
          | (e, []) => some (if signed.1 then -(Int.ofNat e) else Int.ofNat e)
          | (_, _ :: _) => none
        else none
    else none

/-- The number `readFloat` reads from an unsigned body, rounded to a double. -/
def parseBody (neg : Bool) (body whole : List Char) : Option F64 :=
  let hex : Bool :=
    match body with
    | z :: x :: _ :: _ => z = Char.ofNat 48 ∧ lower x = 120
    | _ => false
  let digits := if hex then body.drop 2 else body
  let r := readMantissa hex ⟨false, false, 0, 0⟩ digits
  if r.1.sawdigits = false then none
  else
    match readExp hex r.2 with
    | none => none
    | some e =>
      if underscoreOK whole = false then none
      else
        let x : Int := if hex then e - 4 * Int.ofNat r.1.frac else e - Int.ofNat r.1.frac
        let b : Nat := if hex then 2 else 10
        if 0 ≤ x then F64.ofRat neg (r.1.value * npow b x.toNat) 1
        else F64.ofRat neg r.1.value (npow b (-x).toNat)

/-- Go `strconv.ParseFloat(s, 64)`: decimal and hexadecimal floating-point
literals with optional underscores, `inf`, `infinity` and `nan`, the value rounded
to the nearest double with ties to even. `none` stands for every error: a syntax
error, and the range error of a value that overflows. -/
def parseFloat (s : String) : Option F64 :=
  match special s.data with
  | some f => some f
  | none =>
    match s.data with
    | [] => none
    | c :: rest =>
      if c = Char.ofNat 43 then parseBody false rest s.data
      else if c = Char.ofNat 45 then parseBody true rest s.data
      else parseBody false s.data s.data

end Strconv

/-! ## Go values -/

/-- The dynamic values an `interface{}` holds in this package: what
`encoding/json` decodes into (`nil`, `bool`, `string`, `float64`,
`[]interface{}`, `map[string]interface{}`) and the two integer kinds the repair
step produces, Go `int` and Go `int64`. No value of another dynamic type can
reach the package, which is why the `int32` case and the `default` case of the
type switch in `fixParameterType` have no counterpart here. A map is kept as the
list of its entries in strictly increasing key order, so that two maps are equal
exactly when they hold the same entries. -/
inductive GoValue where
  | nil
  | bool (b : Bool)
  | str (s : String)
  | float64 (f : F64)
  | int (n : Int)
  | int64 (n : Int)
  | slice (xs : List GoValue)
  | map (kvs : List (String × GoValue))

/-- A `map[string]interface{}` variable: `none` is the nil map, `some kvs` a map
with the entries `kvs` in increasing key order. -/
abbrev GoMap := Option (List (String × GoValue))

namespace GoMap

/-- Lexicographic order of strings by code point, which is the order of their
UTF-8 bytes. -/
def ltChars : List Char → List Char → Bool
  | _, [] => false
  | [], _ :: _ => true
  | a :: as, b :: bs => if a.toNat < b.toNat then true else if a = b then ltChars as bs else false

/-- Store `v` under `k` in a sorted entry list, replacing an entry of that key. -/
def insert (k : String) (v : GoValue) : List (String × GoValue) → List (String × GoValue)
  | [] => [(k, v)]
  | (k1, v1) :: rest =>
    if k = k1 then (k, v) :: rest
    else if ltChars k.data k1.data then (k, v) :: (k1, v1) :: rest
    else (k1, v1) :: insert k v rest

/-- Go `m[k]` with the comma-ok form: the value and whether the key exists. -/
def lookup (k : String) : List (String × GoValue) → Option GoValue
  | [] => none
  | (k1, v1) :: rest => if k = k1 then some v1 else lookup k rest

/-- Go `m[k]` on a map variable, the nil map having no key. -/
def get (m : GoMap) (k : String) : Option GoValue :=
  match m with
  | none => none
  | some kvs => lookup k kvs

end GoMap

/-! ## `encoding/json`: encoding -/

namespace Json

/-- The character of a hexadecimal digit, in lower case. -/
def hexDigit (n : Nat) : Char :=
  if n < 10 then Char.ofNat (48 + n) else Char.ofNat (87 + n)

/-- How `encoding/json` writes one character of a string (Go 1.22 and later, with
the HTML escaping that `json.Marshal` applies): a backslash escape for the quote,
the backslash and the five named control characters, `\u00XX` for the other
control characters and for `<`, `>` and `&`, an escape of the same form for the two line
separators U+2028 and U+2029, and the character itself otherwise. -/
def escapeChar (c : Char) : List Char :=
  let n := c.toNat
  if n = 34 ∨ n = 92 then [Char.ofNat 92, c]
  else if n = 8 then [Char.ofNat 92, 'b']
  else if n = 12 then [Char.ofNat 92, 'f']
  else if n = 10 then [Char.ofNat 92, 'n']
  else if n = 13 then [Char.ofNat 92, 'r']
  else if n = 9 then [Char.ofNat 92, 't']
  else if n < 32 ∨ n = 38 ∨ n = 60 ∨ n = 62 then
    [Char.ofNat 92, 'u', '0', '0', hexDigit (n / 16), hexDigit (n % 16)]
  else if n = 0x2028 ∨ n = 0x2029 then
    [Char.ofNat 92, 'u', '2', '0', '2', hexDigit (n % 16)]
  else [c]

/-- The escaped characters of a string, without the quotes. -/
def escapeChars : List Char → List Char
  | [] => []
  | c :: cs => escapeChar c ++ escapeChars cs

/-- A JSON string literal. -/
def encodeString (s : String) : List Char :=
  Char.ofNat 34 :: (escapeChars s.data ++ [Char.ofNat 34])

/-- Drop the trailing zeros of a digit list given in reverse. -/
def dropZeros : List Char → List Char
  | [] => []
  | c :: cs => if c = '0' then dropZeros cs else c :: cs

/-- The search of `roundShortest`: going down from the unit `10^k`, the first
position at which the exact value `f` can be cut (`t`) or cut and bumped (`u`)
without leaving the interval between `lo` and `hi` of the numbers that round to
the same double; the nearer of the two when both stay inside. The interval
contains its ends when `incl` holds. -/
def shortestSearch (f lo hi : Nat) (incl : Bool) : Nat → Nat
  | 0 => f
  | k + 1 =>
    let unit := npow 10 (k + 1)
    let t := f / unit * unit
    let u := t + unit
    let okdown : Bool := lo < t ∨ (incl = true ∧ t = lo)
    let okup : Bool := u < hi ∨ (incl = true ∧ u = hi)
    if okdown ∧ okup then
      let rem := f - t
      if unit < 2 * rem ∨ (2 * rem = unit ∧ (t / unit) % 2 = 1) then u else t
    else if okdown then t
    else if okup then u
    else shortestSearch f lo hi incl k

/-- The shortest decimal that rounds to the positive double `m * 2^e`, as
`strconv` computes it for precision `-1`: its digits without trailing zeros, and
the position of the decimal point counted from the first digit. -/
def shortest (m : Nat) (e : Int) : List Char × Int :=
  let g : Int := e - 2
  let p : Nat := (-g).toNat
  let scale : Nat := (1 <<< g.toNat) * npow 5 p
  let f := 4 * m * scale
  let hi := (4 * m + 2) * scale
  let lo := (if m = 1 <<< 52 ∧ -1074 < e then 4 * m - 1 else 4 * m - 2) * scale
  let r := shortestSearch f lo hi (m % 2 == 0) ((Strconv.natDigits hi).length - 1)
  let ds := Strconv.natDigits r
  ((dropZeros ds.reverse).reverse, Int.ofNat ds.length - Int.ofNat p)

/-- The `%e` layout of `strconv.FormatFloat(f, 'e', -1, 64)` after the clean-up
of `encoding/json`, which turns a two-digit exponent with a leading zero into one
digit. -/
def layoutE (ds : List Char) (dp : Int) : List Char :=
  let x : Int := dp - 1
  let mant : List Char :=
    match ds with
    | [] => ['0']
    | [d] => [d]
    | d :: rest => d :: '.' :: rest
  mant ++ 'e' :: (if x < 0 then '-' else '+') :: Strconv.natDigits x.natAbs

/-- The `%f` layout of `strconv.FormatFloat(f, 'f', -1, 64)`: the digits with the
point in place, zeros filling the positions the digits do not reach. -/
def layoutF (ds : List Char) (dp : Int) : List Char :=
  if 0 < dp then
    let whole := (ds.take dp.toNat) ++ List.replicate (dp.toNat - ds.length) '0'
    let frac := ds.drop dp.toNat
    if frac = [] then whole else whole ++ '.' :: frac
  else
    '0' :: '.' :: (List.replicate (-dp).toNat '0' ++ ds)

/-- The double nearest to `1e-6`, below which `encoding/json` switches to the
exponent layout. -/
def small : F64 :=
  F64.fin false (F64.roundPos 1 1000000).1 (F64.roundPos 1 1000000).2

/-- The double `1e21`, from which on `encoding/json` switches to the exponent
layout. -/
def large : F64 :=
  F64.fin false (F64.roundPos 1000000000000000000000 1).1
    (F64.roundPos 1000000000000000000000 1).2

/-- How `encoding/json` writes a `float64`; a NaN or an infinity is the
`UnsupportedValueError`, given by its message. -/
def encodeFloat : F64 → Except String (List Char)
  | F64.nan => .error "json: unsupported value: NaN"
  | F64.inf neg => .error (if neg then "json: unsupported value: -Inf"
      else "json: unsupported value: +Inf")
  | F64.fin neg m e =>
    let sign : List Char := if neg then ['-'] else []
    if m = 0 then .ok (sign ++ ['0'])
    else
      let d := shortest m e
      if F64.absLt (F64.fin neg m e) small ∨ ¬ F64.absLt (F64.fin neg m e) large then
        .ok (sign ++ layoutE d.1 d.2)
      else .ok (sign ++ layoutF d.1 d.2)

mutual
/-- How `encoding/json` writes a value. -/
def encodeValue : GoValue → Except String (List Char)
  | GoValue.nil => .ok "null".data
  | GoValue.bool b => .ok (if b then "true".data else "false".data)
  | GoValue.str s => .ok (encodeString s)
  | GoValue.float64 f => encodeFloat f
  | GoValue.int n => .ok (Strconv.formatInt n).data
  | GoValue.int64 n => .ok (Strconv.formatInt n).data
  | GoValue.slice xs =>
    match encodeElems xs with
    | .ok body => .ok ('[' :: (body ++ [']']))
    | .error err => .error err
  | GoValue.map kvs =>
    match encodeFields kvs with
    | .ok body => .ok (Char.ofNat 123 :: (body ++ [Char.ofNat 125]))
    | .error err => .error err
/-- The elements of an array, separated by commas. -/
def encodeElems : List GoValue → Except String (List Char)
  | [] => .ok []
  | x :: xs =>
    match encodeValue x with
    | .error err => .error err
    | .ok a =>
      match xs with
      | [] => .ok a
      | _ :: _ =>
        match encodeElems xs with
        | .ok rest => .ok (a ++ ',' :: rest)
        | .error err => .error err
/-- The members of an object in key order, separated by commas. -/
def encodeFields : List (String × GoValue) → Except String (List Char)
  | [] => .ok []
  | (k, x) :: xs =>
    match encodeValue x with
    | .error err => .error err
    | .ok a =>
      match xs with
      | [] => .ok (encodeString k ++ ':' :: a)
      | _ :: _ =>
        match encodeFields xs with
        | .ok rest => .ok (encodeString k ++ ':' :: a ++ ',' :: rest)
        | .error err => .error err
end

/-- Go `json.Marshal` of a `map[string]interface{}`: `null` for the nil map, and
otherwise the object with its keys in increasing order and no white space. The
only failure is a NaN or an infinity among the values. -/
def marshal (m : GoMap) : Except String String :=
  match m with
  | none => .ok "null"
  | some kvs =>
    match encodeValue (GoValue.map kvs) with
    | .ok cs => .ok ⟨cs⟩
    | .error err => .error err

end Json

/-! ## `encoding/json`: decoding -/

namespace Json

/-- The errors of `json.Unmarshal`: a `*json.SyntaxError` with its message, and a
`*json.UnmarshalTypeError` with the JSON value and the Go type it names. The
wording of a syntax error is indicative only (Go also quotes the offending
character); nothing in the package looks at it. -/
inductive JsonError where
  | badSyntax (msg : String)
  | unmarshalType (value : String) (type : String)
deriving DecidableEq, Repr

/-- The text `%v` prints for a decoding error. -/
def JsonError.message : JsonError → String
  | badSyntax msg => msg
  | unmarshalType value type =>
    "json: cannot unmarshal " ++ value ++ " into Go value of type " ++ type

/-- The error for input that ends too early, or for a decoder out of fuel. -/
def eof : JsonError :=
  JsonError.badSyntax "unexpected end of JSON input"

/-- The error for a character that cannot stand where it does. -/
def invalid (context : String) : JsonError :=
  JsonError.badSyntax ("invalid character " ++ context)

/-- JSON white space: space, tab, carriage return, line feed. -/
def isWS (c : Char) : Bool :=
  c.toNat == 32 || c.toNat == 9 || c.toNat == 13 || c.toNat == 10

/-- Skip JSON white space. -/
def skipWS : List Char → List Char
  | [] => []
  | c :: cs => if isWS c then skipWS cs else c :: cs

/-- Whether a character is a decimal digit. -/
def isDigit (c : Char) : Bool :=
  48 ≤ c.toNat && c.toNat ≤ 57

/-- The longest run of digits at the front, and what follows it. -/
def takeDigits : List Char → List Char × List Char
  | [] => ([], [])
  | c :: cs => if isDigit c then ((c :: (takeDigits cs).1), (takeDigits cs).2) else ([], c :: cs)

/-- The exponent part of a number literal, if there is one. -/
def scanExp (cs : List Char) : Except JsonError (List Char × List Char) :=
  match cs with
  | c :: rest =>
    if c = 'e' ∨ c = 'E' then
      let signed : List Char × List Char :=
        match rest with
        | s :: r => if s = '+' ∨ s = '-' then ([s], r) else ([], rest)
        | [] => ([], rest)
      let d := takeDigits signed.2
      if d.1 = [] then
        .error (if signed.2 = [] then eof else invalid "in exponent of numeric literal")
      else .ok (c :: (signed.1 ++ d.1), d.2)
    else .ok ([], cs)
  | [] => .ok ([], cs)

/-- The fraction part of a number literal, if there is one. -/
def scanFrac (cs : List Char) : Except JsonError (List Char × List Char) :=
  match cs with
  | c :: rest =>
    if c = '.' then
      let d := takeDigits rest
      if d.1 = [] then
        .error (if rest = [] then eof else invalid "after decimal point in numeric literal")
      else .ok (c :: d.1, d.2)
    else .ok ([], cs)
  | [] => .ok ([], cs)

/-- The integer part of a number literal after its sign: a single zero, or a
nonzero digit followed by digits. -/
def scanInt (cs : List Char) : Except JsonError (List Char × List Char) :=
  match cs with
  | [] => .error eof
  | c :: rest =>
    if c = '0' then .ok ([c], rest)
    else if isDigit c then .ok (c :: (takeDigits rest).1, (takeDigits rest).2)
    else .error (invalid "in numeric literal")

/-- A JSON number literal at the front of the input: its text and what follows. -/
def scanNumber (cs : List Char) : Except JsonError (List Char × List Char) :=
  let signed : List Char × List Char :=
    match cs with
    | c :: rest => if c = '-' then ([c], rest) else ([], cs)
    | [] => ([], cs)
  match scanInt signed.2 with
  | .error err => .error err
  | .ok (ip, r1) =>
    match scanFrac r1 with
    | .error err => .error err
    | .ok (fp, r2) =>
      match scanExp r2 with
      | .error err => .error err
      | .ok (ep, r3) => .ok (signed.1 ++ ip ++ fp ++ ep, r3)

/-- Four hexadecimal digits at the front of the input, as a number. -/
def hex4 (cs : List Char) : Option (Nat × List Char) :=
  match cs with
  | a :: b :: c :: d :: rest =>
    match Strconv.hexVal a, Strconv.hexVal b, Strconv.hexVal c, Strconv.hexVal d with
    | some x, some y, some z, some w => some (((x * 16 + y) * 16 + z) * 16 + w, rest)
    | _, _, _, _ => none
  | _ => none

/-- A `\uXXXX` escape at the front of the input (Go `getu4`). -/
def getu4 (cs : List Char) : Option (Nat × List Char) :=
  match cs with
  | b :: u :: rest => if b = Char.ofNat 92 ∧ u = 'u' then hex4 rest else none
  | _ => none

/-- The character of a one-letter escape. -/
def unescape (c : Char) : Option Char :=
  if c = Char.ofNat 34 ∨ c = Char.ofNat 92 ∨ c = '/' then some c
  else if c = 'b' then some (Char.ofNat 8)
  else if c = 'f' then some (Char.ofNat 12)
  else if c = 'n' then some (Char.ofNat 10)
  else if c = 'r' then some (Char.ofNat 13)
  else if c = 't' then some (Char.ofNat 9)
  else none

/-- The rest of a string literal after its opening quote: the decoded string and
what follows the closing quote. A surrogate escape that does not start a valid
pair decodes to U+FFFD. -/
def parseString : Nat → List Char → List Char → Except JsonError (String × List Char)
  | 0, _, _ => .error eof
  | _ + 1, _, [] => .error eof
  | fuel + 1, acc, c :: cs =>
    if c = Char.ofNat 34 then .ok (⟨acc.reverse⟩, cs)
    else if c = Char.ofNat 92 then
      match cs with
      | [] => .error eof
      | e :: rest =>
        if e = 'u' then
          match hex4 rest with
          | none => .error (invalid "in \\u hexadecimal character escape")
          | some (n, rest1) =>
            if 0xD800 ≤ n ∧ n < 0xE000 then
              match getu4 rest1 with
              | some (n2, rest2) =>
                if n < 0xDC00 ∧ 0xDC00 ≤ n2 ∧ n2 < 0xE000 then
                  parseString fuel
                    (Char.ofNat (0x10000 + (n - 0xD800) * 0x400 + (n2 - 0xDC00)) :: acc) rest2
                else parseString fuel (Char.ofNat 0xFFFD :: acc) rest1
              | none => parseString fuel (Char.ofNat 0xFFFD :: acc) rest1
            else parseString fuel (Char.ofNat n :: acc) rest1
        else
          match unescape e with
          | some ch => parseString fuel (ch :: acc) rest
          | none => .error (invalid "in string escape code")
    else if c.toNat < 32 then .error (invalid "in string literal")
    else parseString fuel (c :: acc) cs

/-- The rest of a literal name (`true`, `false`, `null`) after its first letter. -/
def expectWord (word : String) (v : GoValue) (cs : List Char) :
    Except JsonError (GoValue × List Char) :=
  match Strings.dropPrefix word.data cs with
  | some rest => .ok (v, rest)
  | none => .error (if cs.length < word.length then eof else invalid "in literal")

/-- The value of a number literal: the `float64` that `strconv.ParseFloat` gives,
or Go's nil together with the type error when the number is out of range. -/
def convertNumber (text : List Char) (saved : Option JsonError) : GoValue × Option JsonError :=
  match Strconv.parseFloat ⟨text⟩ with
  | some f => (GoValue.float64 f, saved)
  | none =>
    (GoValue.nil,
      match saved with
      | some err => some err
      | none => some (JsonError.unmarshalType ("number " ++ ⟨text⟩) "float64"))

mutual
/-- Decode one JSON value into an `interface{}`. `depth` counts the arrays and
objects around it, `saved` is the first type error met so far (decoding goes on
after one, as in Go, so that a later syntax error is still reported in its
place), and `fuel` bounds the recursion. -/
def parseValue : Nat → Nat → List Char → Option JsonError →
    Except JsonError (GoValue × List Char × Option JsonError)
  | 0, _, _, _ => .error eof
  | fuel + 1, depth, cs, saved =>
    match skipWS cs with
    | [] => .error eof
    | c :: rest =>
      if c = Char.ofNat 123 then
        if 10000 ≤ depth then .error (JsonError.badSyntax "exceeded max depth")
        else
          match skipWS rest with
          | [] => .error eof
          | d :: rest1 =>
            if d = Char.ofNat 125 then .ok (GoValue.map [], rest1, saved)
            else
              match parseMembers fuel (depth + 1) (d :: rest1) [] saved with
              | .ok (kvs, rest2, saved1) => .ok (GoValue.map kvs, rest2, saved1)
              | .error err => .error err
      else if c = '[' then
        if 10000 ≤ depth then .error (JsonError.badSyntax "exceeded max depth")
        else
          match skipWS rest with
          | [] => .error eof
          | d :: rest1 =>
            if d = ']' then .ok (GoValue.slice [], rest1, saved)
            else
              match parseElems fuel (depth + 1) (d :: rest1) [] saved with
              | .ok (xs, rest2, saved1) => .ok (GoValue.slice xs, rest2, saved1)
              | .error err => .error err
      else if c = Char.ofNat 34 then
        match parseString fuel [] rest with
        | .ok (s, rest1) => .ok (GoValue.str s, rest1, saved)
        | .error err => .error err
      else if c = 't' then
        match expectWord "rue" (GoValue.bool true) rest with
        | .ok (v, rest1) => .ok (v, rest1, saved)
        | .error err => .error err
      else if c = 'f' then
        match expectWord "alse" (GoValue.bool false) rest with
        | .ok (v, rest1) => .ok (v, rest1, saved)
        | .error err => .error err
      else if c = 'n' then
        match expectWord "ull" GoValue.nil rest with
        | .ok (v, rest1) => .ok (v, rest1, saved)
        | .error err => .error err
      else if c = '-' ∨ isDigit c = true then
        match scanNumber (c :: rest) with
        | .ok (text, rest1) => .ok ((convertNumber text saved).1, rest1, (convertNumber text saved).2)
        | .error err => .error err
      else .error (invalid "looking for beginning of value")
/-- Decode the elements of an array up to its closing bracket; `acc` holds the
elements already read, last first. -/
def parseElems : Nat → Nat → List Char → List GoValue → Option JsonError →
    Except JsonError (List GoValue × List Char × Option JsonError)
  | 0, _, _, _, _ => .error eof
  | fuel + 1, depth, cs, acc, saved =>
    match parseValue fuel depth cs saved with
    | .error err => .error err
    | .ok (v, rest, saved1) =>
      match skipWS rest with
      | [] => .error eof
      | c :: rest1 =>
        if c = ',' then parseElems fuel depth rest1 (v :: acc) saved1
        else if c = ']' then .ok ((v :: acc).reverse, rest1, saved1)
        else .error (invalid "after array element")
/-- Decode the members of an object up to its closing brace; `acc` is the map
built so far, a repeated key replacing the earlier entry. -/
def parseMembers : Nat → Nat → List Char → List (String × GoValue) → Option JsonError →
    Except JsonError (List (String × GoValue) × List Char × Option JsonError)
  | 0, _, _, _, _ => .error eof
  | fuel + 1, depth, cs, acc, saved =>
    match skipWS cs with
    | [] => .error eof
    | q :: rest =>
      if q = Char.ofNat 34 then
        match parseString fuel [] rest with
        | .error err => .error err
        | .ok (k, rest1) =>
          match skipWS rest1 with
          | [] => .error eof
          | c :: rest2 =>
            if c = ':' then
              match parseValue fuel depth rest2 saved with
              | .error err => .error err
              | .ok (v, rest3, saved1) =>
                match skipWS rest3 with
                | [] => .error eof
                | d :: rest4 =>
                  if d = ',' then parseMembers fuel depth rest4 (GoMap.insert k v acc) saved1
                  else if d = Char.ofNat 125 then .ok (GoMap.insert k v acc, rest4, saved1)
                  else .error (invalid "after object key:value pair")
            else .error (invalid "after object key")
      else .error (invalid "looking for beginning of object key string")
end

/-- Go `json.Unmarshal(data, &args)` for a nil `args` of type
`map[string]interface{}`: the input must be one JSON value with nothing but
white space around it; an object gives the map of its members, `null` leaves the
map nil without an error, and any other value is a type error, as is a number
too large for a `float64` anywhere inside the object. -/
def unmarshal (s : String) : Except JsonError GoMap :=
  match parseValue (2 * s.data.length + 2) 0 s.data none with
  | .error err => .error err
  | .ok (v, rest, saved) =>
    match skipWS rest with
    | _ :: _ => .error (invalid "after top-level value")
    | [] =>
      match v, saved with
      | GoValue.map kvs, none => .ok (some kvs)
      | GoValue.map _, some err => .error err
      | GoValue.nil, none => .ok none
      | GoValue.slice _, _ => .error (JsonError.unmarshalType "array" "map[string]interface \x7b\x7d")
      | GoValue.str _, _ => .error (JsonError.unmarshalType "string" "map[string]interface \x7b\x7d")
      | GoValue.bool _, _ => .error (JsonError.unmarshalType "bool" "map[string]interface \x7b\x7d")
      | _, _ => .error (JsonError.unmarshalType "number" "map[string]interface \x7b\x7d")

end Json

/-! ## The package `enhancetool` -/

/-- Go `FunctionCall`: the function name and its arguments as JSON text. -/
structure FunctionCall where
  Name : String
  Arguments : String

/-- Go `ToolCall`. The field `Type` of the source is `callType` here. -/
structure ToolCall where
  callType : String
  Function : FunctionCall
  ID : String
  Parameters : GoMap

/-- Go `ToolCallParam`: the decoded request. -/
structure ToolCallParam where
  ToolCalls : List ToolCall
  StrictMode : Bool

/-- The errors `validateAndFixParameters` and the validators build with
`fmt.Errorf`, one constructor for each call site. -/
inductive ValidationError where
  | typeFixFailed (key : String) (err : String)
  | missingRequired (key : String)
  | invalidOperation (op : String)
  | notNumber (key : String)
deriving DecidableEq, Repr

/-- The text of a validation error, as the format strings of the source give it. -/
def ValidationError.message : ValidationError → String
  | typeFixFailed key err => "参数\x27" ++ key ++ "\x27类型修复失败: " ++ err
  | missingRequired key => "缺少必需参数: " ++ key
  | invalidOperation op => "无效的operation参数: " ++ op
  | notNumber key => "参数\x27" ++ key ++ "\x27必须是数字"

/-- The errors `processToolCall` returns, one constructor for each `fmt.Errorf` in
it: the arguments are not a JSON object (strict mode), they are not one even
after the repair attempt, they fail validation (strict mode), and they cannot be
encoded again. -/
inductive ProcessError where
  | malformedJSON (err : Json.JsonError)
  | unrecoverableJSON (err : Json.JsonError)
  | validationFailed (err : ValidationError)
  | reencodeFailed (err : String)
deriving DecidableEq, Repr

/-- The text of a processing error, as the format strings of the source give it. -/
def ProcessError.message : ProcessError → String
  | malformedJSON err => "参数JSON解析失败: " ++ err.message
  | unrecoverableJSON err => "参数JSON解析失败且无法修复: " ++ err.message
  | validationFailed err => "参数验证失败: " ++ err.message
  | reencodeFailed err => "参数重新序列化失败: " ++ err

/-- Go `tryConvertString`: the string with the surrounding white space removed,
read as a boolean, else as a base-10 `int64`, else as a `float64`, else kept. The
error it returns is always nil. -/
def tryConvertString (str : String) : Except String GoValue :=
  let str := Strings.trimSpace str
  if Strings.toLower str = "true" then .ok (GoValue.bool true)
  else if Strings.toLower str = "false" then .ok (GoValue.bool false)
  else
    match Strconv.parseInt str with
    | some num => .ok (GoValue.int64 num)
    | none =>
      match Strconv.parseFloat str with
      | some num => .ok (GoValue.float64 num)
      | none => .ok (GoValue.str str)

/-- Go `fixParameterType`. -/
def fixParameterType (value : GoValue) : Except String GoValue :=
  match value with
  | GoValue.nil => .ok GoValue.nil
  | GoValue.str v => tryConvertString v
  | GoValue.float64 v =>
    if F64.eq v (F64.ofInt (F64.toInt v)) = true then .ok (GoValue.int (F64.toInt v))
    else .ok (GoValue.float64 v)
  | GoValue.int v => .ok (GoValue.int v)
  | GoValue.int64 v => .ok (GoValue.int64 v)
  | GoValue.bool v => .ok (GoValue.bool v)
  | GoValue.map v => .ok (GoValue.map v)
  | GoValue.slice v => .ok (GoValue.slice v)

/-- The required-key loop of `validateCalculatorParams`: the first key of the
list that the map lacks. -/
def firstMissing (args : GoMap) : List String → Option String
  | [] => none
  | key :: rest => if (GoMap.get args key).isNone then some key else firstMissing args rest

/-- The number loop of `validateCalculatorParams`: the first key of the list
whose value is neither a `float64` nor an `int`. -/
def firstNonNumber (args : GoMap) : List String → Option String
  | [] => none
  | key :: rest =>
    match GoMap.get args key with
    | some (GoValue.float64 _) => firstNonNumber args rest
    | some (GoValue.int _) => firstNonNumber args rest
    | _ => some key

/-- Go `validateCalculatorParams`. -/
def validateCalculatorParams (args : GoMap) : Except ValidationError GoMap :=
  match firstMissing args ["operation", "x", "y"] with
  | some key => .error (ValidationError.missingRequired key)
  | none =>
    let opOk : Except ValidationError Unit :=
      match GoMap.get args "operation" with
      | some (GoValue.str op) =>
        if op ∈ ["add", "subtract", "multiply", "divide"] then .ok ()
        else .error (ValidationError.invalidOperation op)
      | _ => .ok ()
    match opOk with
    | .error err => .error err
    | .ok _ =>
      match firstNonNumber args ["x", "y"] with
      | some key => .error (ValidationError.notNumber key)
      | none => .ok args

/-- Go `validateAvailableModelParams`. -/
def validateAvailableModelParams (args : GoMap) : Except ValidationError GoMap :=
  .ok args

/-- The loop of `validateAndFixParameters` over the entries of `args`: every
value repaired and stored under its key. Each key is visited once, so the result
has the entries of `args` with the repaired values. -/
def fixEntries : List (String × GoValue) → Except ValidationError (List (String × GoValue))
  | [] => .ok []
  | (key, value) :: rest =>
    match fixParameterType value with
    | .error err => .error (ValidationError.typeFixFailed key err)
    | .ok fixedValue =>
      match fixEntries rest with
      | .error err => .error err
      | .ok fixedRest => .ok ((key, fixedValue) :: fixedRest)

/-- Go `validateAndFixParameters`. Ranging over a nil map runs no iteration, so
`fixedArgs` is then the empty map. -/
def validateAndFixParameters (args : GoMap) (functionName : String) :
    Except ValidationError GoMap :=
  match fixEntries (args.getD []) with
  | .error err => .error err
  | .ok fixedArgs =>
    if functionName = "calculator" then validateCalculatorParams (some fixedArgs)
    else if functionName = "available_model" then validateAvailableModelParams (some fixedArgs)
    else .ok (some fixedArgs)

/-- Go `tryFixJSON`. -/
def tryFixJSON (jsonStr : String) : Except Json.JsonError GoMap :=
  let fixedStr := Strings.trimSpace jsonStr
  let fixedStr := Strings.trimPrefix fixedStr "```json"
  let fixedStr := Strings.trimSuffix fixedStr "```"
  let fixedStr := Strings.trimSpace fixedStr
  Json.unmarshal fixedStr

/-- The first half of `processToolCall`: the arguments decoded, with the repair
attempt after a failure outside strict mode. -/
def parseArguments (arguments : String) (strictMode : Bool) : Except ProcessError GoMap :=
  match Json.unmarshal arguments with
  | .ok args => .ok args
  | .error err =>
    if strictMode then .error (ProcessError.malformedJSON err)
    else
      match tryFixJSON arguments with
      | .ok args => .ok args
      | .error err1 => .error (ProcessError.unrecoverableJSON err1)

/-- The middle of `processToolCall`: the decoded arguments validated and repaired;
outside strict mode a validation failure leaves `enhancedArgs = args`. -/
def enhanceArguments (args : GoMap) (name : String) (strictMode : Bool) :
    Except ProcessError GoMap :=
  match validateAndFixParameters args name with
  | .ok enhancedArgs => .ok enhancedArgs
  | .error err =>
    if strictMode then .error (ProcessError.validationFailed err)
    else .ok args

/-- Go `processToolCall`: the call it returns and the error it returns with it
(`none` for a nil error). -/
def processToolCall (toolCall : ToolCall) (strictMode : Bool) : ToolCall × Option ProcessError :=
  if toolCall.Function.Arguments ≠ "" then
    match parseArguments toolCall.Function.Arguments strictMode with
    | .error err => (toolCall, some err)
    | .ok args =>
      match enhanceArguments args toolCall.Function.Name strictMode with
      | .error err => (toolCall, some err)
      | .ok enhancedArgs =>
        match Json.marshal enhancedArgs with
        | .error err => (toolCall, some (ProcessError.reencodeFailed err))
        | .ok argsJSON =>
          ({ toolCall with
              Function := { toolCall.Function with Arguments := argsJSON }
              Parameters := enhancedArgs }, none)
  else (toolCall, none)

/-- The message the loop of `HandleRequest` records for the call at index `i`. -/
def errorMessage (i : Nat) (err : ProcessError) : String :=
  "工具调用[" ++ Strconv.formatInt (Int.ofNat i) ++ "]处理失败: " ++ err.message

/-- One iteration of the loop of `HandleRequest`, on the call at index `i`: the
new values of `enhancedCalls` and `errorMessages`. -/
def loopStep (strictMode : Bool) (st : List ToolCall × List String) (i : Nat)
    (toolCall : ToolCall) : List ToolCall × List String :=
  match processToolCall toolCall strictMode with
  | (_, some err) =>
    if strictMode then (st.1, st.2 ++ [errorMessage i err])
    else (st.1 ++ [toolCall], st.2 ++ [errorMessage i err])
  | (enhancedCall, none) => (st.1 ++ [enhancedCall], st.2)

/-- The loop of `HandleRequest` from index `i` on. -/
def loopFrom (strictMode : Bool) :
    Nat → List ToolCall → List ToolCall × List String → List ToolCall × List String
  | _, [], st => st
  | i, toolCall :: rest, st => loopFrom strictMode (i + 1) rest (loopStep strictMode st i toolCall)

/-- The loop of `HandleRequest` over a whole batch, from empty `enhancedCalls` and
`errorMessages`. -/
def runLoop (strictMode : Bool) (calls : List ToolCall) : List ToolCall × List String :=
  loopFrom strictMode 0 calls ([], [])

/-- Go `HandleRequest` from the decoded request to the two sequences it hands to
`buildResponseContent`: `enhancedCalls` and `errorMessages`. An empty batch is
the error of the source. -/
def HandleRequest (param : ToolCallParam) : Except String (List ToolCall × List String) :=
  if param.ToolCalls.length = 0 then .error "tool_calls参数不能为空"
  else .ok (runLoop param.StrictMode param.ToolCalls)

/-! ## Specification-side definitions -/

/-- What one call adds to the output sequence: the repaired call when processing
succeeds, and after a failure nothing in strict mode, the original call
otherwise. -/
def emitted (strictMode : Bool) (c : ToolCall) : List ToolCall :=
  match processToolCall c strictMode with
  | (repaired, none) => [repaired]
  | (_, some _) => if strictMode then [] else [c]

/-- What the calls of a batch add to the output sequence, in order. -/
def emittedAll (strictMode : Bool) : List ToolCall → List ToolCall
  | [] => []
  | c :: rest => emitted strictMode c ++ emittedAll strictMode rest

/-- What the calls of a batch add to the error sequence, the first of them being
at index `i`: one message for each call whose processing fails. -/
def recorded (strictMode : Bool) : Nat → List ToolCall → List String
  | _, [] => []
  | i, c :: rest =>
    match (processToolCall c strictMode).2 with
    | some err => errorMessage i err :: recorded strictMode (i + 1) rest
    | none => recorded strictMode (i + 1) rest

/-- The repaired call of a call whose processing succeeds. -/
def repairedOf (strictMode : Bool) (c : ToolCall) : Option ToolCall :=
  match processToolCall c strictMode with
  | (repaired, none) => some repaired
  | (_, some _) => none

/-- The call the lenient loop emits for `c`: the repaired call, or `c` itself
when processing fails. -/
def repairedOrOriginal (c : ToolCall) : ToolCall :=
  match processToolCall c false with
  | (repaired, none) => repaired
  | (_, some _) => c

/-- A call of the kind used in the examples: type `function`, no id, no
parameters. -/
def mkCall (name arguments : String) : ToolCall :=
  ⟨"function", ⟨name, arguments⟩, "", none⟩

/-- Whether the characters `t` are the lower-case ASCII word `word` up to the case
of each letter. -/
def equalsIgnoringCase : List Char → List Char → Bool
  | [], [] => true
  | c :: cs, w :: ws => (c = w ∨ c.toNat + 32 = w.toNat) && equalsIgnoringCase cs ws
  | _, _ => false

/-- The value the specification gives for the coercion of a string: a boolean for
`true` and `false` in any letter case, else the base-10 `int64` the trimmed string
parses as, else the `float64` it parses as, else the trimmed string. -/
def coerceStringSpec (s : String) : GoValue :=
  let t := Strings.trimSpace s
  if equalsIgnoringCase t.data "true".data then GoValue.bool true
  else if equalsIgnoringCase t.data "false".data then GoValue.bool false
  else
    match Strconv.parseInt t with
    | some n => GoValue.int64 n
    | none =>
      match Strconv.parseFloat t with
      | some f => GoValue.float64 f
      | none => GoValue.str t

/-- The entries are in strictly increasing key order. -/
def SortedKeys (kvs : List (String × GoValue)) : Prop :=
  kvs.Pairwise (fun p q => GoMap.ltChars p.1.data q.1.data = true)

/-- The input after a number does not continue the number. -/
def endsNumber : List Char → Prop
  | [] => True
  | c :: _ => Json.isDigit c = false ∧ c ≠ '.' ∧ c ≠ 'e' ∧ c ≠ 'E'

/-- A decimal digit character. -/
def IsDigitChar (c : Char) : Prop := 48 ≤ c.toNat ∧ c.toNat ≤ 57

/-- Whether the encoder writes the `float64` as text that the decoder takes as one
number literal and reads back as the same `float64`. -/
def floatReadsBack (f : F64) : Bool :=
  match Json.encodeFloat f with
  | .ok text =>
    (match Json.scanNumber text with
      | .ok (t, r) => t == text && r.isEmpty
      | .error _ => false) && (Strconv.parseFloat ⟨text⟩ == some f)
  | .error _ => false

mutual
/-- Whether every `float64` inside a value reads back from its own encoding. -/
def readsBack : GoValue → Bool
  | GoValue.float64 f => floatReadsBack f
  | GoValue.slice xs => readsBackList xs
  | GoValue.map kvs => readsBackFields kvs
  | _ => true
/-- The same for the elements of an array. -/
def readsBackList : List GoValue → Bool
  | [] => true
  | x :: xs => readsBack x && readsBackList xs
/-- The same for the members of an object. -/
def readsBackFields : List (String × GoValue) → Bool
  | [] => true
  | (_, x) :: xs => readsBack x && readsBackFields xs
end

mutual
/-- What `encoding/json` decodes the encoding of a value into: the value with
every integer replaced by the `float64` nearest to it. -/
def jsonImage : GoValue → GoValue
  | GoValue.int n => GoValue.float64 (F64.ofInt n)
  | GoValue.int64 n => GoValue.float64 (F64.ofInt n)
  | GoValue.slice xs => GoValue.slice (jsonImageList xs)
  | GoValue.map kvs => GoValue.map (jsonImageFields kvs)
  | GoValue.nil => GoValue.nil
  | GoValue.bool b => GoValue.bool b
  | GoValue.str s => GoValue.str s
  | GoValue.float64 f => GoValue.float64 f
/-- The image of the elements of an array. -/
def jsonImageList : List GoValue → List GoValue
  | [] => []
  | x :: xs => jsonImage x :: jsonImageList xs
/-- The image of the members of an object. -/
def jsonImageFields : List (String × GoValue) → List (String × GoValue)
  | [] => []
  | (k, x) :: xs => (k, jsonImage x) :: jsonImageFields xs
end

mutual
/-- How many arrays and objects are nested in a value, the value included. -/
def depth : GoValue → Nat
  | GoValue.slice xs => depthList xs + 1
  | GoValue.map kvs => depthFields kvs + 1
  | _ => 0
/-- The largest depth among the elements of an array. -/
def depthList : List GoValue → Nat
  | [] => 0
  | x :: xs => max (depth x) (depthList xs)
/-- The largest depth among the members of an object. -/
def depthFields : List (String × GoValue) → Nat
  | [] => 0
  | (_, x) :: xs => max (depth x) (depthFields xs)
end

mutual
/-- A value as the package builds it: every object has its keys in strictly
increasing order, every integer is in the 64-bit range and every `float64` is an
IEEE double. -/
def WellFormed : GoValue → Prop
  | GoValue.float64 f => F64.WF f
  | GoValue.int n => n.natAbs ≤ 2 ^ 63
  | GoValue.int64 n => n.natAbs ≤ 2 ^ 63
  | GoValue.slice xs => WellFormedList xs
  | GoValue.map kvs => SortedKeys kvs ∧ WellFormedFields kvs
  | _ => True
/-- The same for the elements of an array. -/
def WellFormedList : List GoValue → Prop
  | [] => True
  | x :: xs => WellFormed x ∧ WellFormedList xs
/-- The same for the members of an object. -/
def WellFormedFields : List (String × GoValue) → Prop
  | [] => True
  | (_, x) :: xs => WellFormed x ∧ WellFormedFields xs
end

mutual
/-- A value without integers, as the decoder builds it. -/
def NoInts : GoValue → Prop
  | GoValue.int _ => False
  | GoValue.int64 _ => False
  | GoValue.slice xs => NoIntsList xs
  | GoValue.map kvs => NoIntsFields kvs
  | _ => True
/-- The same for the elements of an array. -/
def NoIntsList : List GoValue → Prop
  | [] => True
  | x :: xs => NoInts x ∧ NoIntsList xs
/-- The same for the members of an object. -/
def NoIntsFields : List (String × GoValue) → Prop
  | [] => True
  | (_, x) :: xs => NoInts x ∧ NoIntsFields xs
end

/-- The first character of an encoded value: not white space and not a closing
bracket or brace. -/
def ValueHead (c : Char) : Prop :=
  Json.isWS c = false ∧ c ≠ ']' ∧ c ≠ Char.ofNat 125

/-- A value as the decoder builds it at nesting depth `d`. -/
def Good (d : Nat) (v : GoValue) : Prop :=
  WellFormed v ∧ NoInts v ∧ d + depth v ≤ 10000

/-- The three decoder functions build good values when run with `fuel`. -/
def DecoderGood (fuel : Nat) : Prop :=
  (∀ d cs saved v rest saved1, d ≤ 10000 →
    Json.parseValue fuel d cs saved = .ok (v, rest, saved1) → Good d v) ∧
  (∀ d cs acc saved xs rest saved1, d ≤ 10000 → (∀ x ∈ acc, Good d x) →
    Json.parseElems fuel d cs acc saved = .ok (xs, rest, saved1) → ∀ x ∈ xs, Good d x) ∧
  (∀ d cs acc saved kvs rest saved1, d ≤ 10000 → SortedKeys acc → (∀ p ∈ acc, Good d p.2) →
    Json.parseMembers fuel d cs acc saved = .ok (kvs, rest, saved1) →
    SortedKeys kvs ∧ ∀ p ∈ kvs, Good d p.2)

/-- A map variable as a value: the nil map is what `encoding/json` writes as
`null`. -/
def mapValue (m : GoMap) : GoValue :=
  match m with
  | none => GoValue.nil
  | some kvs => GoValue.map kvs

/-- What `encoding/json` decodes the encoding of a map into: every integer
replaced by the `float64` nearest to it. -/
def jsonImageMap (m : GoMap) : GoMap :=
  match m with
  | none => none
  | some kvs => some (jsonImageFields kvs)

/-- A value that the calculator check takes as a number. -/
def IsNumber : GoValue → Prop
  | GoValue.float64 _ => True
  | GoValue.int _ => True
  | _ => False

/-- A character of a decimal number literal as the encoder writes it. -/
def NumberChar (c : Char) : Prop :=
  IsDigitChar c ∨ c = '.' ∨ c = 'e' ∨ c = '+' ∨ c = '-'

/-- A decimal literal: the integer digits `ip`, the fraction digits `fd` after a
point when there are any, and the exponent part `ex`. -/
def decimalText (ip fd ex : List Char) : List Char :=
  ip ++ (if fd = [] then ex else '.' :: (fd ++ ex))

instance : Inhabited GoValue := ⟨GoValue.nil⟩

/-- The first of the keys `operation`, `x`, `y`, in that order, that the map
lacks (`y` when it lacks none of the first two). -/
def firstAbsentKey (args : GoMap) : String :=
  if (GoMap.get args "operation").isNone then "operation"
  else if (GoMap.get args "x").isNone then "x"
  else "y"

/-- The operation names the calculator check accepts. -/
def validOperations : List String :=
  ["add", "subtract", "multiply", "divide"]

/-- What the specification asks of calculator arguments, with "Int64 or Float64"
read as the source reads it: the three keys exist, an operation that is a string
is one of the four names, and `x` and `y` are each a `float64` or a Go `int`. -/
def CalculatorAccepts (args : GoMap) : Prop :=
  (∃ v, GoMap.get args "operation" = some v ∧
    ∀ op, v = GoValue.str op → op ∈ validOperations) ∧
  (∃ v, GoMap.get args "x" = some v ∧ IsNumber v) ∧
  (∃ v, GoMap.get args "y" = some v ∧ IsNumber v)


/-- The entries `fixed` are the entries `kvs` with every value repaired: the same
keys in the same order, each with the result of `fixParameterType` on the value
it had. -/
def CoercedEntries (kvs fixed : List (String × GoValue)) : Prop :=
  List.Forall₂ (fun p q => q.1 = p.1 ∧ fixParameterType p.2 = .ok q.2) kvs fixed


/-- The calls of a batch whose processing fails, each with its index and its
error, in input order; the first call of the list has index `i`. -/
def failedCalls (strictMode : Bool) (i : Nat) (calls : List ToolCall) :
    List (Nat × ProcessError) :=
  (List.enumFrom i calls).filterMap
    (fun p => ((processToolCall p.2 strictMode).2).map (fun err => (p.1, err)))

/-- The messages of a list of failures. -/
def messagesOf (failures : List (Nat × ProcessError)) : List String :=
  failures.map (fun p => errorMessage p.1 p.2)

/-- Whether processing of a call fails. -/
def fails (strictMode : Bool) (c : ToolCall) : Bool :=
  ((processToolCall c strictMode).2).isSome


/-- Whether a parameters map is populated: not nil and not empty. -/
def populated (m : GoMap) : Bool :=
  match m with
  | some (_ :: _) => true
  | _ => false

/-- A call whose parameters, when populated, are what its arguments text
encodes: the text is `json.Marshal` of the parameters. -/
def Consistent (c : ToolCall) : Prop :=
  populated c.Parameters = true → Json.marshal c.Parameters = .ok c.Function.Arguments


/-- A value that `encoding/json` can write: the encoder returns a text for it. -/
def Encodable (v : GoValue) : Prop :=
  ∃ enc, Json.encodeValue v = .ok enc

/-- The three decoder functions build encodable values when run with `fuel`. -/
def DecoderEncodable (fuel : Nat) : Prop :=
  (∀ d cs saved v rest saved1,
    Json.parseValue fuel d cs saved = .ok (v, rest, saved1) → Encodable v) ∧
  (∀ d cs acc saved xs rest saved1, (∀ x ∈ acc, Encodable x) →
    Json.parseElems fuel d cs acc saved = .ok (xs, rest, saved1) → ∀ x ∈ xs, Encodable x) ∧
  (∀ d cs acc saved kvs rest saved1, (∀ p ∈ acc, Encodable p.2) →
    Json.parseMembers fuel d cs acc saved = .ok (kvs, rest, saved1) →
    ∀ p ∈ kvs, Encodable p.2)


/-! ## The batch loop -/

theorem loopStep_eq (strictMode : Bool) (st : List ToolCall × List String) (i : Nat)
    (c : ToolCall) :
    loopStep strictMode st i c
      = (st.1 ++ emitted strictMode c, st.2 ++ recorded strictMode i [c]) := by
  unfold loopStep emitted recorded
  rcases h : processToolCall c strictMode with ⟨r, _ | err⟩
  · simp [recorded]
  · cases strictMode <;> simp [recorded]

theorem recorded_cons (strictMode : Bool) (i : Nat) (c : ToolCall) (rest : List ToolCall) :
    recorded strictMode i (c :: rest)
      = recorded strictMode i [c] ++ recorded strictMode (i + 1) rest := by
  simp only [recorded]
  cases (processToolCall c strictMode).2 <;> simp

theorem loopFrom_eq (strictMode : Bool) (calls : List ToolCall) :
    ∀ (i : Nat) (st : List ToolCall × List String),
      loopFrom strictMode i calls st
        = (st.1 ++ emittedAll strictMode calls, st.2 ++ recorded strictMode i calls) := by
  induction calls with
  | nil => intro i st; simp [loopFrom, recorded, emittedAll]
  | cons c rest ih =>
    intro i st
    rw [loopFrom, ih, loopStep_eq, recorded_cons strictMode i c rest]
    simp only [emittedAll, List.append_assoc]

theorem runLoop_eq (strictMode : Bool) (calls : List ToolCall) :
    runLoop strictMode calls
      = (emittedAll strictMode calls, recorded strictMode 0 calls) := by
  simp [runLoop, loopFrom_eq]

theorem strict_emittedAll_eq (calls : List ToolCall) :
    emittedAll true calls = calls.filterMap (repairedOf true) := by
  induction calls with
  | nil => rfl
  | cons c rest ih =>
    rw [emittedAll, ih, List.filterMap_cons]
    unfold emitted repairedOf
    rcases processToolCall c true with ⟨r, _ | err⟩ <;> simp

theorem lenient_emittedAll_eq (calls : List ToolCall) :
    emittedAll false calls = calls.map repairedOrOriginal := by
  induction calls with
  | nil => rfl
  | cons c rest ih =>
    rw [emittedAll, ih, List.map_cons]
    unfold emitted repairedOrOriginal
    rcases processToolCall c false with ⟨r, _ | err⟩ <;> simp

theorem emitted_length_le (strictMode : Bool) (c : ToolCall) :
    (emitted strictMode c).length ≤ 1 := by
  unfold emitted
  rcases processToolCall c strictMode with ⟨r, _ | err⟩
  · simp
  · cases strictMode <;> simp

theorem emittedAll_length_le (strictMode : Bool) (calls : List ToolCall) :
    (emittedAll strictMode calls).length ≤ calls.length := by
  induction calls with
  | nil => simp [emittedAll]
  | cons c rest ih =>
    simp only [emittedAll, List.length_append, List.length_cons]
    have := emitted_length_le strictMode c
    omega

/-- C2. In strict mode the output sequence of the batch loop is the list, in
input order, of the repaired calls of those calls whose processing succeeds; a
call whose processing fails adds nothing. For the batch of the two calculator
calls `add 10 20` and `operation: multiply` (not JSON) the output is the repaired
first call alone. -/
theorem strict_output_is_repaired_successes :
    (∀ calls : List ToolCall,
      (runLoop true calls).1 = calls.filterMap (repairedOf true)) ∧
    (runLoop true
        [mkCall "calculator" "\x7b\"operation\": \"add\", \"x\": 10, \"y\": 20\x7d",
         mkCall "calculator" "\x7boperation: multiply\x7d"]).1
      = [{ callType := "function"
           Function := ⟨"calculator", "\x7b\"operation\":\"add\",\"x\":10,\"y\":20\x7d"⟩
           ID := ""
           Parameters := some [("operation", GoValue.str "add"), ("x", GoValue.int 10),
             ("y", GoValue.int 20)] }] := by
  refine ⟨?_, rfl⟩
  intro calls
  rw [runLoop_eq, strict_emittedAll_eq]

/-- C3. In lenient mode the output sequence has, at every index, the repaired
call when processing of the input call at that index succeeds, and the original
input call, unmodified, when it fails. -/
theorem lenient_output_is_repaired_or_original (calls : List ToolCall) :
    (runLoop false calls).1 = calls.map repairedOrOriginal ∧
    ∀ i : Nat, (runLoop false calls).1[i]? = (calls[i]?).map repairedOrOriginal := by
  have h : (runLoop false calls).1 = calls.map repairedOrOriginal := by
    rw [runLoop_eq, lenient_emittedAll_eq]
  refine ⟨h, fun i => ?_⟩
  rw [h, List.getElem?_map]

/-- C4. For a non-empty batch `HandleRequest` returns an output sequence that is
no longer than the input, and exactly as long as the input in lenient mode. -/
theorem output_length_le_input (calls : List ToolCall) (strictMode : Bool)
    (hne : calls ≠ []) :
    ∃ out errs, HandleRequest ⟨calls, strictMode⟩ = .ok (out, errs) ∧
      out.length ≤ calls.length ∧ (strictMode = false → out.length = calls.length) := by
  refine ⟨(runLoop strictMode calls).1, (runLoop strictMode calls).2, ?_, ?_, ?_⟩
  · have : calls.length ≠ 0 := by simpa using hne
    simp [HandleRequest, this]
  · rw [runLoop_eq]
    exact emittedAll_length_le strictMode calls
  · intro hs
    subst hs
    rw [runLoop_eq, lenient_emittedAll_eq, List.length_map]

/-- C4 at the batch of the two calculator calls `add 10 20` and
`operation: multiply`, in strict mode. -/
theorem output_length_le_input_witness :
    [mkCall "calculator" "\x7b\"operation\": \"add\", \"x\": 10, \"y\": 20\x7d",
      mkCall "calculator" "\x7boperation: multiply\x7d"] ≠ [] ∧
    ∃ out errs,
      HandleRequest
        ⟨[mkCall "calculator" "\x7b\"operation\": \"add\", \"x\": 10, \"y\": 20\x7d",
          mkCall "calculator" "\x7boperation: multiply\x7d"], true⟩ = .ok (out, errs) ∧
      out.length ≤ 2 ∧ (true = false → out.length = 2) :=
  ⟨by simp, output_length_le_input _ true (by simp)⟩

/-! ## The scenario of the specification -/

/-- C1 (the code at the scenario of the specification). In lenient mode the
batch of the calculator calls `add 10 20` and `multiply "5" "3"` is processed
without an error message, but the second call keeps `x` and `y` as the strings
`"5"` and `"3"`: the repair turns them into `int64` values, the calculator check
accepts only `int` and `float64` and rejects them, and the lenient branch then
adopts the arguments as they were decoded. -/
theorem calculator_string_numbers_stay_strings :
    runLoop false
        [mkCall "calculator" "\x7b\"operation\": \"add\", \"x\": 10, \"y\": 20\x7d",
         mkCall "calculator"
           "\x7b\"operation\": \"multiply\", \"x\": \"5\", \"y\": \"3\"\x7d"]
      = ([{ callType := "function"
            Function := ⟨"calculator", "\x7b\"operation\":\"add\",\"x\":10,\"y\":20\x7d"⟩
            ID := ""
            Parameters := some [("operation", GoValue.str "add"), ("x", GoValue.int 10),
              ("y", GoValue.int 20)] },
          { callType := "function"
            Function :=
              ⟨"calculator", "\x7b\"operation\":\"multiply\",\"x\":\"5\",\"y\":\"3\"\x7d"⟩
            ID := ""
            Parameters := some [("operation", GoValue.str "multiply"), ("x", GoValue.str "5"),
              ("y", GoValue.str "3")] }], []) ∧
    fixEntries [("operation", GoValue.str "multiply"), ("x", GoValue.str "5"),
        ("y", GoValue.str "3")]
      = .ok [("operation", GoValue.str "multiply"), ("x", GoValue.int64 5),
          ("y", GoValue.int64 3)] ∧
    validateCalculatorParams (some [("operation", GoValue.str "multiply"),
        ("x", GoValue.int64 5), ("y", GoValue.int64 3)])
      = .error (ValidationError.notNumber "x") :=
  ⟨rfl, rfl, rfl⟩

/-- C5 (the code at the example of the claim). In lenient mode the calculator
call with arguments `operation: "pow", x: "1", y: 2` fails validation and ends
with the arguments as they were decoded, `x` still the string `"1"` and `y` still
the `float64` 2, not with the repaired mapping, in which `x` is the `int64` 1
and `y` the `int` 2. -/
theorem lenient_validation_failure_keeps_decoded_arguments :
    processToolCall
        (mkCall "calculator" "\x7b\"operation\":\"pow\",\"x\":\"1\",\"y\":2\x7d") false
      = ({ callType := "function"
           Function := ⟨"calculator", "\x7b\"operation\":\"pow\",\"x\":\"1\",\"y\":2\x7d"⟩
           ID := ""
           Parameters := some [("operation", GoValue.str "pow"), ("x", GoValue.str "1"),
             ("y", GoValue.float64 (F64.ofInt 2))] }, none) ∧
    fixEntries [("operation", GoValue.str "pow"), ("x", GoValue.str "1"),
        ("y", GoValue.float64 (F64.ofInt 2))]
      = .ok [("operation", GoValue.str "pow"), ("x", GoValue.int64 1),
          ("y", GoValue.int 2)] ∧
    validateAndFixParameters (some [("operation", GoValue.str "pow"), ("x", GoValue.str "1"),
        ("y", GoValue.float64 (F64.ofInt 2))]) "calculator"
      = .error (ValidationError.invalidOperation "pow") :=
  ⟨rfl, rfl, rfl⟩

/-! ## Coercion of strings -/

theorem char_eq_of_toNat_eq {c w : Char} (h : c.toNat = w.toNat) : c = w := by
  rw [← Char.ofNat_toNat c, h, Char.ofNat_toNat]

theorem toNat_ofNat_of_lt {n : Nat} (h : n < 55296) : (Char.ofNat n).toNat = n := by
  have hv : n.isValidChar := Or.inl h
  unfold Char.ofNat
  rw [dif_pos hv]
  simp [Char.ofNatAux, Char.toNat, UInt32.toNat]

theorem toLowerChar_eq_iff (c w : Char) (hw : 97 ≤ w.toNat ∧ w.toNat ≤ 122)
    (hi : w.toNat ≠ 105) (hk : w.toNat ≠ 107) :
    Strings.toLowerChar c = w ↔ (c = w ∨ c.toNat + 32 = w.toNat) := by
  unfold Strings.toLowerChar
  simp only
  split_ifs with h1 h2 h3
  · have : (Char.ofNat (c.toNat + 32)).toNat = c.toNat + 32 := toNat_ofNat_of_lt (by omega)
    constructor
    · intro h; right; rw [← h, this]
    · rintro (h | h)
      · subst h; omega
      · exact char_eq_of_toNat_eq (by rw [this, h])
  · constructor
    · intro h; subst h; rw [toNat_ofNat_of_lt (by omega)] at hi; omega
    · rintro (h | h)
      · subst h; omega
      · omega
  · constructor
    · intro h; subst h; rw [toNat_ofNat_of_lt (by omega)] at hk; omega
    · rintro (h | h)
      · subst h; omega
      · omega
  · constructor
    · intro h; exact Or.inl h
    · rintro (h | h)
      · exact h
      · omega

/-- A word of lower-case ASCII letters other than `i` and `k`. -/
theorem map_toLowerChar_eq_iff (word : List Char)
    (hword : ∀ w ∈ word, (97 ≤ w.toNat ∧ w.toNat ≤ 122) ∧ w.toNat ≠ 105 ∧ w.toNat ≠ 107) :
    ∀ t : List Char, t.map Strings.toLowerChar = word ↔ equalsIgnoringCase t word = true := by
  induction word with
  | nil =>
    intro t
    cases t <;> simp [equalsIgnoringCase]
  | cons w ws ih =>
    intro t
    cases t with
    | nil => simp [equalsIgnoringCase]
    | cons c cs =>
      have hw := hword w (List.mem_cons_self w ws)
      have ih' := ih (fun x hx => hword x (List.mem_cons_of_mem w hx)) cs
      simp only [List.map_cons, List.cons.injEq, equalsIgnoringCase, Bool.and_eq_true,
        decide_eq_true_eq]
      rw [toLowerChar_eq_iff c w hw.1 hw.2.1 hw.2.2, ih']

theorem toLower_eq_true_iff (t : String) :
    Strings.toLower t = "true" ↔ equalsIgnoringCase t.data "true".data = true := by
  rw [← map_toLowerChar_eq_iff "true".data (by decide) t.data]
  simp [Strings.toLower, String.ext_iff]

theorem toLower_eq_false_iff (t : String) :
    Strings.toLower t = "false" ↔ equalsIgnoringCase t.data "false".data = true := by
  rw [← map_toLowerChar_eq_iff "false".data (by decide) t.data]
  simp [Strings.toLower, String.ext_iff]

/-- C9. The coercion of a string never fails, and its value is the one the
specification gives: with `t` the string without its surrounding white space,
the boolean when `t` is `true` or `false` in any letter case, else the `int64`
that the whole of `t` parses as in base 10, else the `float64` that the whole of
`t` parses as, else `t`. So `TRUE`, `True` and `true` give the boolean true, `3`
the integer 3, `3.5` the float 3.5 (which is `7 * 2^-1`) and `abc` the string
itself. -/
theorem string_coercion_follows_specification :
    (∀ s : String, tryConvertString s = .ok (coerceStringSpec s)) ∧
    tryConvertString "TRUE" = .ok (GoValue.bool true) ∧
    tryConvertString "True" = .ok (GoValue.bool true) ∧
    tryConvertString "true" = .ok (GoValue.bool true) ∧
    tryConvertString "3" = .ok (GoValue.int64 3) ∧
    tryConvertString "3.5" = .ok (GoValue.float64 (F64.fin false (7 * 2 ^ 50) (-51))) ∧
    tryConvertString "abc" = .ok (GoValue.str "abc") := by
  refine ⟨?_, rfl, rfl, rfl, rfl, rfl, rfl⟩
  intro s
  unfold tryConvertString coerceStringSpec
  simp only
  by_cases h1 : Strings.toLower (Strings.trimSpace s) = "true"
  · rw [if_pos h1, if_pos ((toLower_eq_true_iff _).1 h1)]
  · rw [if_neg h1, if_neg (fun h => h1 ((toLower_eq_true_iff _).2 h))]
    by_cases h2 : Strings.toLower (Strings.trimSpace s) = "false"
    · rw [if_pos h2, if_pos ((toLower_eq_false_iff _).1 h2)]
    · rw [if_neg h2, if_neg (fun h => h2 ((toLower_eq_false_iff _).2 h))]
      cases Strconv.parseInt (Strings.trimSpace s) with
      | some n => rfl
      | none => cases Strconv.parseFloat (Strings.trimSpace s) <;> rfl

/-! ## Coercion of floats -/

theorem bitLenAux_spec : ∀ (fuel n : Nat), n ≤ fuel → n ≠ 0 →
    2 ^ (bitLenAux fuel n - 1) ≤ n ∧ n < 2 ^ bitLenAux fuel n ∧ 0 < bitLenAux fuel n := by
  intro fuel
  induction fuel with
  | zero => intro n h h0; omega
  | succ k ih =>
    intro n h h0
    rw [bitLenAux, if_neg h0]
    by_cases hs : n < 18446744073709551616
    · rw [if_pos hs]
      by_cases h1 : n / 2 = 0
      · have : n = 1 := by omega
        subst this
        cases k <;> simp [bitLenAux]
      · obtain ⟨ha, hb, hc⟩ := ih (n / 2) (by omega) h1
        refine ⟨?_, ?_, by omega⟩
        · have : bitLenAux k (n / 2) + 1 - 1 = (bitLenAux k (n / 2) - 1) + 1 := by omega
          rw [this, pow_succ]
          omega
        · rw [pow_succ]; omega
    · rw [if_neg hs]
      have h1 : n / 18446744073709551616 ≠ 0 := by omega
      obtain ⟨ha, hb, hc⟩ := ih (n / 18446744073709551616) (by omega) h1
      have e64 : (18446744073709551616 : Nat) = 2 ^ 64 := by norm_num
      refine ⟨?_, ?_, by omega⟩
      · have : bitLenAux k (n / 18446744073709551616) + 64 - 1
            = (bitLenAux k (n / 18446744073709551616) - 1) + 64 := by omega
        rw [this, pow_add, ← e64]
        have := Nat.div_mul_le_self n 18446744073709551616
        nlinarith
      · rw [pow_add, ← e64]
        have := Nat.lt_mul_div_succ n (show 0 < 18446744073709551616 by norm_num)
        nlinarith

theorem bitLen_spec (n : Nat) (h0 : n ≠ 0) :
    2 ^ (bitLen n - 1) ≤ n ∧ n < 2 ^ bitLen n ∧ 0 < bitLen n :=
  bitLenAux_spec n n (le_refl n) h0

theorem floorLog2_one (n : Nat) (h0 : n ≠ 0) :
    F64.floorLog2 n 1 = (bitLen n : Int) - 1 := by
  obtain ⟨ha, hb, hc⟩ := bitLen_spec n h0
  have h1 : bitLen 1 = 1 := by decide
  unfold F64.floorLog2
  simp only [h1]
  have hd : (Int.ofNat (bitLen n) - Int.ofNat 1).toNat = bitLen n - 1 := by
    simp only [Int.ofNat_eq_coe]; omega
  have hd' : (-(Int.ofNat (bitLen n) - Int.ofNat 1)).toNat = 0 := by
    simp only [Int.ofNat_eq_coe]; omega
  rw [hd, hd']
  simp only [Nat.shiftLeft_eq, one_mul, Nat.pow_zero, mul_one]
  rw [if_pos ha]
  simp

theorem roundPos_eq (num den q : Nat) (e : Int)
    (he : max (F64.floorLog2 num den - 52) (-1074) = e)
    (hq : num <<< (-e).toNat = q * (den <<< e.toNat)) (hd : 0 < den <<< e.toNat)
    (hlt : q ≠ 1 <<< 53) : F64.roundPos num den = (q, e) := by
  unfold F64.roundPos
  simp only [he, hq]
  rw [Nat.mul_div_cancel _ hd, Nat.mul_mod_left]
  have h1 : ¬ (den <<< e.toNat < 2 * 0 ∨ 2 * 0 = den <<< e.toNat ∧ q % 2 = 1) := by omega
  rw [if_neg h1, if_neg hlt]

theorem roundPos_exact (n a b : Nat) (h0 : n ≠ 0) (hn : n = a * 2 ^ b) (ha : a < 2 ^ 53) :
    ((F64.roundPos n 1).1 : ℚ) * (2 : ℚ) ^ (F64.roundPos n 1).2 = (n : ℚ) ∧
    (F64.roundPos n 1).1 ≠ 0 := by
  obtain ⟨hlo, hhi, hpos⟩ := bitLen_spec n h0
  have hE : max (F64.floorLog2 n 1 - 52) (-1074) = (bitLen n : Int) - 53 := by
    rw [floorLog2_one n h0]; omega
  by_cases hc : bitLen n ≤ 53
  · have h1 : (-((bitLen n : Int) - 53)).toNat = 53 - bitLen n := by omega
    have h2 : ((bitLen n : Int) - 53).toNat = 0 := by omega
    have hq : n * 2 ^ (53 - bitLen n) < 2 ^ 53 := by
      calc n * 2 ^ (53 - bitLen n) < 2 ^ bitLen n * 2 ^ (53 - bitLen n) :=
            Nat.mul_lt_mul_of_pos_right hhi (by positivity)
        _ = 2 ^ 53 := by rw [← pow_add]; congr 1; omega
    rw [roundPos_eq n 1 (n * 2 ^ (53 - bitLen n)) _ hE
      (by simp [h1, h2, Nat.shiftLeft_eq]) (by simp [h2])
      (by simp only [Nat.shiftLeft_eq, one_mul]; omega)]
    refine ⟨?_, ?_⟩
    · simp only [Nat.cast_mul, Nat.cast_pow, Nat.cast_ofNat]
      have : ((bitLen n : Int) - 53) = -((53 - bitLen n : Nat) : Int) := by omega
      rw [this, zpow_neg, zpow_natCast, mul_assoc, mul_inv_cancel₀ (by positivity), mul_one]
    · simp only
      have : 0 < 2 ^ (53 - bitLen n) := by positivity
      have : 0 < n := Nat.pos_of_ne_zero h0
      positivity
  · have h1 : (-((bitLen n : Int) - 53)).toNat = 0 := by omega
    have h2 : ((bitLen n : Int) - 53).toNat = bitLen n - 53 := by omega
    have hb : bitLen n - 53 ≤ b := by
      by_contra hcon
      have hb' : b + 54 ≤ bitLen n := by omega
      have : a * 2 ^ b < 2 ^ 53 * 2 ^ b := Nat.mul_lt_mul_of_pos_right ha (by positivity)
      have h3 : 2 ^ 53 * 2 ^ b ≤ 2 ^ (bitLen n - 1) := by
        rw [← pow_add]; exact Nat.pow_le_pow_right (by norm_num) (by omega)
      omega
    have hsplit : n = a * 2 ^ (b - (bitLen n - 53)) * 2 ^ (bitLen n - 53) := by
      have hbb : b = (b - (bitLen n - 53)) + (bitLen n - 53) := by omega
      calc n = a * 2 ^ b := hn
        _ = a * 2 ^ ((b - (bitLen n - 53)) + (bitLen n - 53)) := by rw [← hbb]
        _ = a * 2 ^ (b - (bitLen n - 53)) * 2 ^ (bitLen n - 53) := by rw [pow_add, mul_assoc]
    have hq : a * 2 ^ (b - (bitLen n - 53)) < 2 ^ 53 := by
      have h4 : a * 2 ^ (b - (bitLen n - 53)) * 2 ^ (bitLen n - 53)
          < 2 ^ 53 * 2 ^ (bitLen n - 53) := by
        rw [← hsplit, ← pow_add]
        have : 53 + (bitLen n - 53) = bitLen n := by omega
        rw [this]; exact hhi
      exact Nat.lt_of_mul_lt_mul_right h4
    rw [roundPos_eq n 1 (a * 2 ^ (b - (bitLen n - 53))) _ hE
      (by simp only [h1, h2, Nat.shiftLeft_eq, pow_zero, mul_one, one_mul]; exact hsplit)
      (by simp [h2, Nat.shiftLeft_eq])
      (by simp only [Nat.shiftLeft_eq, one_mul]; omega)]
    refine ⟨?_, ?_⟩
    · simp only
      have : ((bitLen n : Int) - 53) = ((bitLen n - 53 : Nat) : Int) := by omega
      rw [this, zpow_natCast]
      conv_rhs => rw [hsplit]
      push_cast
      ring
    · simp only
      intro h
      rw [h] at hsplit
      simp at hsplit
      exact h0 hsplit

theorem scaled_eq_iff (m1 : Nat) (e1 : Int) (m2 : Nat) (e2 : Int) :
    (F64.scaled m1 e1 m2 e2).1 = (F64.scaled m1 e1 m2 e2).2
      ↔ (m1 : ℚ) * (2 : ℚ) ^ e1 = (m2 : ℚ) * (2 : ℚ) ^ e2 := by
  unfold F64.scaled
  simp only [Nat.shiftLeft_eq]
  have ha : ((e1 - min e1 e2).toNat : Int) = e1 - min e1 e2 := by omega
  have hb : ((e2 - min e1 e2).toNat : Int) = e2 - min e1 e2 := by omega
  have h2 : (2 : ℚ) ≠ 0 := by norm_num
  have e1eq : (2 : ℚ) ^ e1 = (2 : ℚ) ^ ((e1 - min e1 e2).toNat) * (2 : ℚ) ^ (min e1 e2) := by
    rw [← zpow_natCast, ha, ← zpow_add₀ h2]; congr 1; omega
  have e2eq : (2 : ℚ) ^ e2 = (2 : ℚ) ^ ((e2 - min e1 e2).toNat) * (2 : ℚ) ^ (min e1 e2) := by
    rw [← zpow_natCast, hb, ← zpow_add₀ h2]; congr 1; omega
  rw [e1eq, e2eq, ← mul_assoc, ← mul_assoc]
  have hk : (2 : ℚ) ^ (min e1 e2) ≠ 0 := zpow_ne_zero _ h2
  rw [mul_left_inj' hk]
  constructor
  · intro h
    have := congrArg (Nat.cast : ℕ → ℚ) h
    push_cast at this
    exact this
  · intro h
    have : ((m1 * 2 ^ (e1 - min e1 e2).toNat : ℕ) : ℚ) = ((m2 * 2 ^ (e2 - min e1 e2).toNat : ℕ) : ℚ) := by
      push_cast; exact h
    exact Nat.cast_injective this

theorem truncMag_cast (m : Nat) (e : Int) :
    ((F64.truncMag m e : ℕ) : ℚ) = (m : ℚ) * (2 : ℚ) ^ e
      ↔ F64.isIntegral (F64.fin false m e) = true := by
  unfold F64.truncMag F64.isIntegral
  by_cases he : 0 ≤ e
  · simp only [he, if_true, Nat.shiftLeft_eq, iff_true]
    push_cast
    congr 1
    rw [← zpow_natCast]; congr 1; omega
  · simp only [he, if_false, Nat.shiftRight_eq_div_pow, Nat.shiftLeft_eq, one_mul, beq_iff_eq]
    have hk : e = -(((-e).toNat : ℕ) : Int) := by omega
    have h2 : (2 : ℚ) ^ e = ((2 : ℚ) ^ (-e).toNat)⁻¹ := by
      conv_lhs => rw [hk]
      rw [zpow_neg, zpow_natCast]
    rw [h2]
    set k := (-e).toNat
    have hpos : (0 : ℚ) < (2 : ℚ) ^ k := by positivity
    constructor
    · intro h
      have h3 : ((m / 2 ^ k : ℕ) : ℚ) * (2 : ℚ) ^ k = (m : ℚ) := by
        rw [h, mul_assoc, inv_mul_cancel₀ (ne_of_gt hpos), mul_one]
      have h4 : m / 2 ^ k * 2 ^ k = m := by
        have : ((m / 2 ^ k * 2 ^ k : ℕ) : ℚ) = (m : ℚ) := by push_cast; exact h3
        exact Nat.cast_injective this
      have := Nat.div_add_mod m (2 ^ k)
      rw [mul_comm] at this
      omega
    · intro h
      have h4 : m / 2 ^ k * 2 ^ k = m := by
        have := Nat.div_add_mod m (2 ^ k)
        rw [mul_comm] at this
        omega
      have : ((m / 2 ^ k * 2 ^ k : ℕ) : ℚ) = (m : ℚ) := by rw [h4]
      push_cast at this
      rw [← this, mul_assoc, mul_inv_cancel₀ (ne_of_gt hpos), mul_one]

theorem truncMag_short (m : Nat) (e : Int) (hm : m < 2 ^ 53) :
    ∃ a b, F64.truncMag m e = a * 2 ^ b ∧ a < 2 ^ 53 := by
  unfold F64.truncMag
  by_cases he : 0 ≤ e
  · exact ⟨m, e.toNat, by simp [he, Nat.shiftLeft_eq], hm⟩
  · refine ⟨m >>> (-e).toNat, 0, by simp [he], ?_⟩
    rw [Nat.shiftRight_eq_div_pow]
    exact lt_of_le_of_lt (Nat.div_le_self _ _) hm

theorem truncMag_eq_zero (m : Nat) (e : Int) (h : F64.truncMag m e = 0) :
    F64.isIntegral (F64.fin false m e) = decide (m = 0) := by
  unfold F64.truncMag at h
  unfold F64.isIntegral
  by_cases he : 0 ≤ e
  · simp only [he, if_true, Nat.shiftLeft_eq] at h ⊢
    have : m = 0 := by
      rcases Nat.mul_eq_zero.1 h with h | h
      · exact h
      · exact absurd h (by positivity)
    simp [this]
  · simp only [he, if_false, Nat.shiftRight_eq_div_pow, Nat.shiftLeft_eq, one_mul] at h ⊢
    have hlt : m < 2 ^ (-e).toNat := by
      by_contra hc
      have := Nat.div_pos (not_lt.1 hc) (by positivity : 0 < 2 ^ (-e).toNat)
      omega
    rw [Nat.mod_eq_of_lt hlt]
    by_cases hm : m = 0 <;> simp [hm]

theorem eq_ofInt_trunc (neg : Bool) (m : Nat) (e : Int) (hm : m < 2 ^ 53) :
    F64.eq (F64.fin neg m e) (F64.ofInt (F64.trunc (F64.fin neg m e)))
      = F64.isIntegral (F64.fin neg m e) := by
  have hint : F64.isIntegral (F64.fin neg m e) = F64.isIntegral (F64.fin false m e) := rfl
  rw [hint]
  by_cases h0 : F64.truncMag m e = 0
  · have ht : F64.trunc (F64.fin neg m e) = 0 := by
      simp only [F64.trunc, h0]; cases neg <;> simp
    rw [ht, truncMag_eq_zero m e h0]
    unfold F64.ofInt F64.zero F64.eq
    by_cases hm0 : m = 0
    · simp [hm0]
    · simp [hm0, F64.scaled, Nat.shiftLeft_eq]
  · have hpos : 0 < F64.truncMag m e := Nat.pos_of_ne_zero h0
    have hm0 : m ≠ 0 := by
      intro h
      apply h0
      unfold F64.truncMag
      subst h
      split_ifs <;> simp
    have ht0 : F64.trunc (F64.fin neg m e) ≠ 0 := by
      unfold F64.trunc; cases neg <;> simp <;> omega
    have habs : (F64.trunc (F64.fin neg m e)).natAbs = F64.truncMag m e := by
      unfold F64.trunc; cases neg <;> simp
    have hneg : decide (F64.trunc (F64.fin neg m e) < 0) = neg := by
      unfold F64.trunc
      cases neg
      · simp
      · simp; omega
    obtain ⟨a, b, hab, ha⟩ := truncMag_short m e hm
    obtain ⟨hval, hq0⟩ := roundPos_exact (F64.truncMag m e) a b h0 hab ha
    unfold F64.ofInt
    rw [if_neg ht0, habs, hneg]
    unfold F64.eq
    simp only [hm0, false_and, if_false, beq_self_eq_true, Bool.true_and]
    by_cases hI : F64.isIntegral (F64.fin false m e) = true
    · rw [hI]
      rw [beq_iff_eq, scaled_eq_iff, hval]
      exact ((truncMag_cast m e).2 hI).symm
    · have hI' : F64.isIntegral (F64.fin false m e) = false := by simpa using hI
      rw [hI']
      rw [beq_eq_false_iff_ne, ne_eq, scaled_eq_iff, hval]
      intro h
      exact hI ((truncMag_cast m e).1 h.symm)

theorem ofInt_minInt : F64.ofInt (-(2 : Int) ^ 63) = F64.fin true (2 ^ 52) 11 := by decide

theorem eq_minInt_false (neg : Bool) (m : Nat) (e : Int) (hm : m < 2 ^ 53)
    (hr : ¬ (-(2 : Int) ^ 63 ≤ F64.trunc (F64.fin neg m e)
      ∧ F64.trunc (F64.fin neg m e) < (2 : Int) ^ 63)) :
    F64.eq (F64.fin neg m e) (F64.fin true (2 ^ 52) 11) = false := by
  by_contra hcon
  have htrue : F64.eq (F64.fin neg m e) (F64.fin true (2 ^ 52) 11) = true := by simpa using hcon
  unfold F64.eq at htrue
  simp only [show ¬ ((2 : Nat) ^ 52 = 0) by norm_num, and_false, if_false, Bool.and_eq_true,
    beq_iff_eq] at htrue
  obtain ⟨hneg, hs⟩ := htrue
  rw [scaled_eq_iff] at hs
  have hval : (m : ℚ) * (2 : ℚ) ^ e = (2 : ℚ) ^ (63 : ℕ) := by
    rw [hs]; norm_num
  have he : 0 ≤ e := by
    by_contra hlt
    have h1 : (2 : ℚ) ^ e ≤ 1 := zpow_le_one_of_nonpos₀ (by norm_num) (by omega)
    have h2 : (m : ℚ) * (2 : ℚ) ^ e ≤ (m : ℚ) := by
      have : (0 : ℚ) ≤ (m : ℚ) := Nat.cast_nonneg m
      nlinarith
    have h3 : (m : ℚ) < (2 : ℚ) ^ (53 : ℕ) := by exact_mod_cast hm
    rw [hval] at h2
    have : (2 : ℚ) ^ (53 : ℕ) < (2 : ℚ) ^ (63 : ℕ) := by norm_num
    linarith
  have hI : F64.isIntegral (F64.fin false m e) = true := by simp [F64.isIntegral, he]
  have hc := (truncMag_cast m e).2 hI
  rw [hval] at hc
  have htm : F64.truncMag m e = 2 ^ 63 := by exact_mod_cast hc
  apply hr
  subst hneg
  simp only [F64.trunc, htm, if_true]
  constructor <;> norm_num

/-- C10 (amended). For every double `f`, the repair of the `float64` value `f` is
the integer `trunc f`, of Go kind `int`, when `f` is finite, has no fractional
part and lies in the `int` range `-2^63 ≤ f < 2^63`, and is `f` unchanged
otherwise (`int(v)` being the amd64 conversion of
`F64.toInt`). -/
theorem float_coercion_within_int_range (f : F64) (hwf : F64.WF f) :
    fixParameterType (GoValue.float64 f)
      = .ok (if F64.isIntegral f = true ∧ -(2 : Int) ^ 63 ≤ F64.trunc f
              ∧ F64.trunc f < (2 : Int) ^ 63
            then GoValue.int (F64.trunc f) else GoValue.float64 f) := by
  cases f with
  | nan => simp [fixParameterType, F64.eq, F64.isIntegral]
  | inf neg =>
    have h : F64.eq (F64.inf neg) (F64.ofInt (F64.toInt (F64.inf neg))) = false := by
      cases neg <;> decide
    simp [fixParameterType, h, F64.isIntegral]
  | fin neg m e =>
    have hm : m < 2 ^ 53 := hwf.1
    show (if F64.eq (F64.fin neg m e) (F64.ofInt (F64.toInt (F64.fin neg m e))) = true
        then Except.ok (GoValue.int (F64.toInt (F64.fin neg m e)))
        else Except.ok (GoValue.float64 (F64.fin neg m e))) = _
    by_cases hr : -(2 : Int) ^ 63 ≤ F64.trunc (F64.fin neg m e)
        ∧ F64.trunc (F64.fin neg m e) < (2 : Int) ^ 63
    · have hti : F64.toInt (F64.fin neg m e) = F64.trunc (F64.fin neg m e) := by
        simp only [F64.toInt]; rw [if_pos hr]
      rw [hti, eq_ofInt_trunc neg m e hm]
      by_cases hI : F64.isIntegral (F64.fin neg m e) = true
      · rw [if_pos hI, if_pos ⟨hI, hr⟩]
      · rw [if_neg hI, if_neg (fun h => hI h.1)]
    · have hti : F64.toInt (F64.fin neg m e) = -(2 : Int) ^ 63 := by
        simp only [F64.toInt]; rw [if_neg hr]
      rw [hti, ofInt_minInt, eq_minInt_false neg m e hm hr, if_neg Bool.false_ne_true,
        if_neg (fun h => hr h.2)]

/-- C10 (amended) at the double 4.0, which is repaired to the integer 4, with 4.5,
which is left as it is. -/
theorem float_coercion_within_int_range_witness :
    F64.WF (F64.fin false (2 ^ 52) (-50)) ∧
    fixParameterType (GoValue.float64 (F64.fin false (2 ^ 52) (-50))) = .ok (GoValue.int 4) ∧
    fixParameterType (GoValue.float64 (F64.fin false (9 * 2 ^ 49) (-50)))
      = .ok (GoValue.float64 (F64.fin false (9 * 2 ^ 49) (-50))) :=
  ⟨by decide,
    (float_coercion_within_int_range (F64.fin false (2 ^ 52) (-50)) (by decide)).trans rfl,
    (float_coercion_within_int_range (F64.fin false (9 * 2 ^ 49) (-50)) (by decide)).trans rfl⟩

/-- C10 (as stated, refuted). The double `2^64` has no fractional part, yet its
repair is the `float64` itself and not an integer; and the repair of the double
4.0 is the Go `int` 4 while the repair of the string `4` is the Go `int64` 4,
two different values. -/
theorem float_coercion_counterexample :
    F64.WF (F64.fin false (2 ^ 52) 12) ∧
    F64.isIntegral (F64.fin false (2 ^ 52) 12) = true ∧
    F64.trunc (F64.fin false (2 ^ 52) 12) = 2 ^ 64 ∧
    fixParameterType (GoValue.float64 (F64.fin false (2 ^ 52) 12))
      = .ok (GoValue.float64 (F64.fin false (2 ^ 52) 12)) ∧
    fixParameterType (GoValue.float64 (F64.fin false (2 ^ 52) (-50))) = .ok (GoValue.int 4) ∧
    fixParameterType (GoValue.str "4") = .ok (GoValue.int64 4) ∧
    GoValue.int 4 ≠ GoValue.int64 4 :=
  ⟨by decide, by decide, by decide, rfl, rfl, rfl, by simp⟩

/-! ## Decoding what the encoder writes -/

theorem hexVal_hexDigit (d : Nat) (h : d < 16) : Strconv.hexVal (Json.hexDigit d) = some d := by
  interval_cases d <;> decide

theorem parseString_named (c : Char) (k : Nat) (l : Char) (hk : c.toNat = k) (hkl : k < 55296)
    (hl : l ≠ 'u') (hun : Json.unescape l = some (Char.ofNat k))
    (fuel : Nat) (acc rest : List Char) :
    Json.parseString (fuel + 1) acc (Char.ofNat 92 :: l :: rest)
      = Json.parseString fuel (c :: acc) rest := by
  have hc : c = Char.ofNat k := char_eq_of_toNat_eq (by rw [hk, toNat_ofNat_of_lt hkl])
  have hq : ¬ (Char.ofNat 92 = Char.ofNat 34) := by decide
  simp [Json.parseString, hq, hl, hun, hc]

theorem parseString_u00 (c : Char) (h : c.toNat < 256) (fuel : Nat) (acc rest : List Char) :
    Json.parseString (fuel + 1) acc
        (Char.ofNat 92 :: 'u' :: '0' :: '0' :: Json.hexDigit (c.toNat / 16) ::
          Json.hexDigit (c.toNat % 16) :: rest)
      = Json.parseString fuel (c :: acc) rest := by
  have hq : ¬ (Char.ofNat 92 = Char.ofNat 34) := by decide
  have h0 : Strconv.hexVal '0' = some 0 := by decide
  have h1 := hexVal_hexDigit (c.toNat / 16) (by omega)
  have h2 := hexVal_hexDigit (c.toNat % 16) (by omega)
  have hv : ((0 * 16 + 0) * 16 + c.toNat / 16) * 16 + c.toNat % 16 = c.toNat := by omega
  have hs : ¬ (0xD800 ≤ c.toNat ∧ c.toNat < 0xE000) := by omega
  simp only [Json.parseString, hq, if_false, if_true,
    Json.hex4, h0, h1, h2, hv, hs, Char.ofNat_toNat]

theorem parseString_u202 (c : Char) (h : c.toNat = 0x2028 ∨ c.toNat = 0x2029) (fuel : Nat)
    (acc rest : List Char) :
    Json.parseString (fuel + 1) acc
        (Char.ofNat 92 :: 'u' :: '2' :: '0' :: '2' :: Json.hexDigit (c.toNat % 16) :: rest)
      = Json.parseString fuel (c :: acc) rest := by
  have hq : ¬ (Char.ofNat 92 = Char.ofNat 34) := by decide
  have h0 : Strconv.hexVal '0' = some 0 := by decide
  have h2 : Strconv.hexVal '2' = some 2 := by decide
  have h3 := hexVal_hexDigit (c.toNat % 16) (by omega)
  have hv : ((2 * 16 + 0) * 16 + 2) * 16 + c.toNat % 16 = c.toNat := by omega
  have hs : ¬ (0xD800 ≤ c.toNat ∧ c.toNat < 0xE000) := by omega
  simp only [Json.parseString, hq, if_false, if_true,
    Json.hex4, h0, h2, h3, hv, hs, Char.ofNat_toNat]

theorem parseString_escapeChar (c : Char) (fuel : Nat) (acc rest : List Char) :
    Json.parseString (fuel + 1) acc (Json.escapeChar c ++ rest)
      = Json.parseString fuel (c :: acc) rest := by
  unfold Json.escapeChar
  simp only
  split_ifs with h1 h2 h3 h4 h5 h6 h7 h8 <;> simp only [List.cons_append, List.nil_append]
  · have hq : ¬ (Char.ofNat 92 = Char.ofNat 34) := by decide
    have hu : ¬ (c = 'u') := by
      intro h; subst h; revert h1; decide
    have hun : Json.unescape c = some c := by
      rcases h1 with h | h
      · have : c = Char.ofNat 34 := char_eq_of_toNat_eq (by rw [h]; decide)
        subst this; decide
      · have : c = Char.ofNat 92 := char_eq_of_toNat_eq (by rw [h]; decide)
        subst this; decide
    simp [Json.parseString, hq, hu, hun]
  · exact parseString_named c 8 'b' h2 (by norm_num) (by decide) (by decide) fuel acc rest
  · exact parseString_named c 12 'f' h3 (by norm_num) (by decide) (by decide) fuel acc rest
  · exact parseString_named c 10 'n' h4 (by norm_num) (by decide) (by decide) fuel acc rest
  · exact parseString_named c 13 'r' h5 (by norm_num) (by decide) (by decide) fuel acc rest
  · exact parseString_named c 9 't' h6 (by norm_num) (by decide) (by decide) fuel acc rest
  · exact parseString_u00 c (by omega) fuel acc rest
  · exact parseString_u202 c h8 fuel acc rest
  · have hq : ¬ (c = Char.ofNat 34) := by
      intro h; subst h; exact h1 (Or.inl (by decide))
    have hb : ¬ (c = Char.ofNat 92) := by
      intro h; subst h; exact h1 (Or.inr (by decide))
    have hlt : ¬ (c.toNat < 32) := fun h => h7 (Or.inl h)
    simp [Json.parseString, hq, hb, hlt]

theorem parseString_escapeChars (s : List Char) :
    ∀ (fuel : Nat) (acc rest : List Char), s.length < fuel →
      Json.parseString fuel acc (Json.escapeChars s ++ Char.ofNat 34 :: rest)
        = .ok (⟨acc.reverse ++ s⟩, rest) := by
  induction s with
  | nil =>
    intro fuel acc rest h
    cases fuel with
    | zero => simp at h
    | succ k => simp [Json.escapeChars, Json.parseString]
  | cons c cs ih =>
    intro fuel acc rest h
    cases fuel with
    | zero => simp at h
    | succ k =>
      rw [Json.escapeChars, List.append_assoc, parseString_escapeChar,
        ih k (c :: acc) rest (by simpa using h)]
      simp

theorem parseString_encodeString (s : String) (fuel : Nat) (rest : List Char)
    (h : s.data.length < fuel) :
    Json.parseString fuel [] ((Json.encodeString s).tail ++ rest) = .ok (s, rest) := by
  have := parseString_escapeChars s.data fuel [] rest h
  simpa [Json.encodeString, List.append_assoc] using this


theorem ltChars_irrefl : ∀ a : List Char, GoMap.ltChars a a = false
  | [] => rfl
  | c :: cs => by simp [GoMap.ltChars, ltChars_irrefl cs]

theorem ltChars_asymm : ∀ a b : List Char, GoMap.ltChars a b = true → GoMap.ltChars b a = false
  | _, [] => by simp [GoMap.ltChars]
  | [], _ :: _ => by simp [GoMap.ltChars]
  | a :: as, b :: bs => by
    simp only [GoMap.ltChars]
    intro h
    by_cases h1 : a.toNat < b.toNat
    · have h2 : ¬ b.toNat < a.toNat := by omega
      have h3 : ¬ b = a := by intro h; subst h; omega
      simp [h2, h3]
    · rw [if_neg h1] at h
      by_cases h2 : a = b
      · subst h2
        simp only [if_true] at h
        simp [h1, ltChars_asymm as bs h]
      · simp [h2] at h

theorem ltChars_trans : ∀ a b c : List Char, GoMap.ltChars a b = true →
    GoMap.ltChars b c = true → GoMap.ltChars a c = true
  | _, [], _ => by simp [GoMap.ltChars]
  | _, _ :: _, [] => by simp [GoMap.ltChars]
  | [], _ :: _, _ :: _ => by simp [GoMap.ltChars]
  | a :: as, b :: bs, c :: cs => by
    simp only [GoMap.ltChars]
    intro h1 h2
    by_cases hab : a.toNat < b.toNat
    · by_cases hbc : b.toNat < c.toNat
      · have : a.toNat < c.toNat := by omega
        simp [this]
      · rw [if_neg hbc] at h2
        by_cases hbc' : b = c
        · subst hbc'; simp [hab]
        · simp [hbc'] at h2
    · rw [if_neg hab] at h1
      by_cases hab' : a = b
      · subst hab'
        simp only [if_true] at h1
        by_cases hbc : a.toNat < c.toNat
        · simp [hbc]
        · rw [if_neg hbc] at h2 ⊢
          by_cases hbc' : a = c
          · subst hbc'
            simp only [if_true] at h2 ⊢
            exact ltChars_trans as bs cs h1 h2
          · simp [hbc'] at h2
      · simp [hab'] at h1

theorem ltChars_total : ∀ a b : List Char, GoMap.ltChars a b = false →
    GoMap.ltChars b a = false → a = b
  | [], [] => by simp
  | [], _ :: _ => by simp [GoMap.ltChars]
  | _ :: _, [] => by simp [GoMap.ltChars]
  | a :: as, b :: bs => by
    simp only [GoMap.ltChars]
    intro h1 h2
    by_cases hab : a.toNat < b.toNat
    · simp [hab] at h1
    · by_cases hba : b.toNat < a.toNat
      · simp [hba] at h2
      · have : a = b := char_eq_of_toNat_eq (by omega)
        subst this
        simp only [hab, if_false, if_true] at h1 h2
        rw [ltChars_total as bs h1 h2]


theorem insert_of_below (k : String) (v : GoValue) :
    ∀ acc : List (String × GoValue),
      (∀ p ∈ acc, GoMap.ltChars p.1.data k.data = true) →
      GoMap.insert k v acc = acc ++ [(k, v)]
  | [], _ => rfl
  | (k1, v1) :: rest, h => by
    have h1 : GoMap.ltChars k1.data k.data = true := h (k1, v1) (List.mem_cons_self _ _)
    have hne : ¬ k = k1 := by
      intro he; subst he
      rw [ltChars_irrefl] at h1
      exact Bool.false_ne_true h1
    have h2 : GoMap.ltChars k.data k1.data = false := ltChars_asymm _ _ h1
    simp only [GoMap.insert, hne, if_false, h2, Bool.false_eq_true, List.cons_append]
    rw [insert_of_below k v rest (fun p hp => h p (List.mem_cons_of_mem _ hp))]

theorem mem_insert (k : String) (v : GoValue) :
    ∀ (acc : List (String × GoValue)) (p : String × GoValue),
      p ∈ GoMap.insert k v acc → p = (k, v) ∨ p ∈ acc
  | [], p => by simp [GoMap.insert]
  | (k1, v1) :: rest, p => by
    simp only [GoMap.insert]
    split_ifs with h1 h2
    · intro hp
      rcases List.mem_cons.1 hp with h | h
      · exact Or.inl h
      · exact Or.inr (List.mem_cons_of_mem _ h)
    · intro hp
      rcases List.mem_cons.1 hp with h | h
      · exact Or.inl h
      · exact Or.inr h
    · intro hp
      rcases List.mem_cons.1 hp with h | h
      · exact Or.inr (h ▸ List.mem_cons_self _ _)
      · rcases mem_insert k v rest p h with h' | h'
        · exact Or.inl h'
        · exact Or.inr (List.mem_cons_of_mem _ h')

theorem sortedKeys_insert (k : String) (v : GoValue) :
    ∀ acc : List (String × GoValue), SortedKeys acc → SortedKeys (GoMap.insert k v acc)
  | [], _ => by simp [GoMap.insert, SortedKeys]
  | (k1, v1) :: rest, h => by
    unfold SortedKeys at h ⊢
    rw [List.pairwise_cons] at h
    simp only [GoMap.insert]
    split_ifs with h1 h2
    · subst h1
      exact List.pairwise_cons.2 ⟨h.1, h.2⟩
    · refine List.pairwise_cons.2 ⟨?_, List.pairwise_cons.2 h⟩
      intro q hq
      rcases List.mem_cons.1 hq with hq | hq
      · subst hq; exact h2
      · exact ltChars_trans _ _ _ h2 (h.1 q hq)
    · refine List.pairwise_cons.2 ⟨?_, sortedKeys_insert k v rest h.2⟩
      intro q hq
      rcases mem_insert k v rest q hq with hq | hq
      · subst hq
        have h3 : GoMap.ltChars k.data k1.data = false := by simpa using h2
        by_contra hcon
        have h4 : GoMap.ltChars k1.data k.data = false := by simpa using hcon
        have := ltChars_total _ _ h3 h4
        exact h1 (String.ext this)
      · exact h.1 q hq


theorem takeDigits_append (rest : List Char) (h : endsNumber rest) :
    ∀ xs : List Char,
      Json.takeDigits (xs ++ rest) = ((Json.takeDigits xs).1, (Json.takeDigits xs).2 ++ rest)
  | [] => by
    cases rest with
    | nil => rfl
    | cons c cs => simp [Json.takeDigits, h.1]
  | x :: xs => by
    simp only [List.cons_append, Json.takeDigits]
    by_cases hx : Json.isDigit x = true
    · simp [hx, takeDigits_append rest h xs]
    · simp [hx]

theorem scanInt_append (rest : List Char) (h : endsNumber rest) (xs ip r : List Char)
    (hs : Json.scanInt xs = .ok (ip, r)) :
    Json.scanInt (xs ++ rest) = .ok (ip, r ++ rest) := by
  cases xs with
  | nil => simp [Json.scanInt] at hs
  | cons c cs =>
    simp only [Json.scanInt, List.cons_append] at hs ⊢
    by_cases h0 : c = '0'
    · simp only [h0, if_true] at hs ⊢
      cases hs
      rfl
    · simp only [h0, if_false] at hs ⊢
      by_cases hd : Json.isDigit c = true
      · simp only [hd, if_true] at hs ⊢
        cases hs
        rw [takeDigits_append rest h cs]
      · simp [hd] at hs

theorem scanFrac_append (rest : List Char) (h : endsNumber rest) (xs fp r : List Char)
    (hs : Json.scanFrac xs = .ok (fp, r)) :
    Json.scanFrac (xs ++ rest) = .ok (fp, r ++ rest) := by
  cases xs with
  | nil =>
    simp only [Json.scanFrac] at hs
    cases hs
    cases rest with
    | nil => rfl
    | cons c cs => simp [Json.scanFrac, h.2.1]
  | cons c cs =>
    simp only [Json.scanFrac, List.cons_append] at hs ⊢
    by_cases hc : c = '.'
    · simp only [hc, if_true] at hs ⊢
      rw [takeDigits_append rest h cs]
      by_cases hd : (Json.takeDigits cs).1 = []
      · simp [hd] at hs
      · simp only [hd, if_false] at hs ⊢
        cases hs
        rfl
    · simp only [hc, if_false] at hs ⊢
      cases hs
      rfl

theorem scanExp_append (rest : List Char) (h : endsNumber rest) (xs ep r : List Char)
    (hs : Json.scanExp xs = .ok (ep, r)) :
    Json.scanExp (xs ++ rest) = .ok (ep, r ++ rest) := by
  cases xs with
  | nil =>
    simp only [Json.scanExp] at hs
    cases hs
    cases rest with
    | nil => rfl
    | cons c cs => simp [Json.scanExp, h.2.2.1, h.2.2.2]
  | cons c cs =>
    simp only [Json.scanExp, List.cons_append] at hs ⊢
    by_cases hc : c = 'e' ∨ c = 'E'
    · simp only [hc, if_true] at hs ⊢
      cases cs with
      | nil => simp [Json.takeDigits] at hs
      | cons s r1 =>
        simp only [List.cons_append] at hs ⊢
        by_cases hsg : s = '+' ∨ s = '-'
        · simp only [hsg, if_true] at hs ⊢
          rw [takeDigits_append rest h r1]
          by_cases hd : (Json.takeDigits r1).1 = []
          · simp [hd] at hs
          · simp only [hd, if_false] at hs ⊢
            cases hs
            rfl
        · simp only [hsg, if_false] at hs ⊢
          have := takeDigits_append rest h (s :: r1)
          simp only [List.cons_append] at this
          rw [this]
          by_cases hd : (Json.takeDigits (s :: r1)).1 = []
          · simp [hd] at hs
          · simp only [hd, if_false] at hs ⊢
            cases hs
            rfl
    · simp only [hc, if_false] at hs ⊢
      cases hs
      rfl

theorem endsNumber_of_append (r rest : List Char) (h : endsNumber rest)
    (hr : r = [] ∨ endsNumber r) : endsNumber (r ++ rest) := by
  cases r with
  | nil => simpa using h
  | cons c cs =>
    rcases hr with hr | hr
    · cases hr
    · exact hr

theorem scanNumber_append (rest : List Char) (h : endsNumber rest) (xs text r : List Char)
    (hs : Json.scanNumber xs = .ok (text, r)) :
    Json.scanNumber (xs ++ rest) = .ok (text, r ++ rest) := by
  cases xs with
  | nil => simp [Json.scanNumber, Json.scanInt] at hs
  | cons c cs =>
    unfold Json.scanNumber at hs ⊢
    simp only [List.cons_append] at hs ⊢
    by_cases hc : c = '-'
    · simp only [hc, if_true] at hs ⊢
      cases h1 : Json.scanInt cs with
      | error err => simp [h1] at hs
      | ok p1 =>
        obtain ⟨ip, r1⟩ := p1
        rw [h1] at hs
        simp only at hs
        rw [scanInt_append rest h cs ip r1 h1]
        simp only
        cases h2 : Json.scanFrac r1 with
        | error err => simp [h2] at hs
        | ok p2 =>
          obtain ⟨fp, r2⟩ := p2
          rw [h2] at hs
          simp only at hs
          rw [scanFrac_append rest h r1 fp r2 h2]
          simp only
          cases h3 : Json.scanExp r2 with
          | error err => simp [h3] at hs
          | ok p3 =>
            obtain ⟨ep, r3⟩ := p3
            rw [h3] at hs
            simp only at hs
            rw [scanExp_append rest h r2 ep r3 h3]
            simp only [Except.ok.injEq, Prod.mk.injEq] at hs ⊢
            exact ⟨hs.1, by rw [hs.2]⟩
    · simp only [hc, if_false] at hs ⊢
      cases h1 : Json.scanInt (c :: cs) with
      | error err => simp [h1] at hs
      | ok p1 =>
        obtain ⟨ip, r1⟩ := p1
        rw [h1] at hs
        simp only at hs
        have h1' := scanInt_append rest h (c :: cs) ip r1 h1
        simp only [List.cons_append] at h1'
        rw [h1']
        simp only
        cases h2 : Json.scanFrac r1 with
        | error err => simp [h2] at hs
        | ok p2 =>
          obtain ⟨fp, r2⟩ := p2
          rw [h2] at hs
          simp only at hs
          rw [scanFrac_append rest h r1 fp r2 h2]
          simp only
          cases h3 : Json.scanExp r2 with
          | error err => simp [h3] at hs
          | ok p3 =>
            obtain ⟨ep, r3⟩ := p3
            rw [h3] at hs
            simp only at hs
            rw [scanExp_append rest h r2 ep r3 h3]
            simp only [Except.ok.injEq, Prod.mk.injEq] at hs ⊢
            exact ⟨hs.1, by rw [hs.2]⟩


theorem digitChar_toNat (n : Nat) (h : n < 10) : (Char.ofNat (48 + n)).toNat = 48 + n :=
  toNat_ofNat_of_lt (by omega)

theorem digitVal_digitChar (n : Nat) (h : n < 10) :
    Strconv.digitVal (Char.ofNat (48 + n)) = some n := by
  unfold Strconv.digitVal
  rw [digitChar_toNat n h, if_pos ⟨by omega, by omega⟩]
  simp

theorem digitsAux_value : ∀ (fuel n : Nat) (acc : List Char), n < fuel →
    Strconv.readDigits 0 (Strconv.digitsAux fuel n acc) = Strconv.readDigits n acc := by
  intro fuel
  induction fuel with
  | zero => intro n acc h; omega
  | succ k ih =>
    intro n acc h
    by_cases hn : n < 10
    · have e1 : Strconv.digitsAux (k + 1) n acc = Char.ofNat (48 + n) :: acc := by
        rw [Strconv.digitsAux, if_pos hn]
      rw [e1, Strconv.readDigits, digitVal_digitChar n hn]
      simp
    · have e1 : Strconv.digitsAux (k + 1) n acc
          = Strconv.digitsAux k (n / 10) (Char.ofNat (48 + n % 10) :: acc) := by
        rw [Strconv.digitsAux, if_neg hn]
      rw [e1, ih (n / 10) _ (by omega), Strconv.readDigits,
        digitVal_digitChar (n % 10) (Nat.mod_lt _ (by norm_num))]
      simp only
      congr 1
      omega

theorem natDigits_value (n : Nat) : Strconv.readDigits 0 (Strconv.natDigits n) = some n := by
  have := digitsAux_value (n + 1) n [] (by omega)
  simpa [Strconv.natDigits, Strconv.readDigits] using this

theorem digitsAux_shape : ∀ (fuel n : Nat) (acc : List Char), n < fuel →
    ∃ d ds, Strconv.digitsAux fuel n acc = d :: ds ++ acc ∧ (∀ c ∈ d :: ds, IsDigitChar c) ∧
      (n ≠ 0 → d ≠ '0') ∧ (n = 0 → ds = []) := by
  intro fuel
  induction fuel with
  | zero => intro n acc h; omega
  | succ k ih =>
    intro n acc h
    by_cases hn : n < 10
    · have e1 : Strconv.digitsAux (k + 1) n acc = Char.ofNat (48 + n) :: acc := by
        rw [Strconv.digitsAux, if_pos hn]
      rw [e1]
      refine ⟨Char.ofNat (48 + n), [], rfl, ?_, ?_, fun _ => rfl⟩
      · intro c hc
        simp only [List.mem_singleton] at hc
        subst hc
        unfold IsDigitChar
        rw [digitChar_toNat n hn]
        omega
      · intro h0 hc
        have := congrArg Char.toNat hc
        rw [digitChar_toNat n hn] at this
        have h48 : ('0' : Char).toNat = 48 := by decide
        omega
    · have e1 : Strconv.digitsAux (k + 1) n acc
          = Strconv.digitsAux k (n / 10) (Char.ofNat (48 + n % 10) :: acc) := by
        rw [Strconv.digitsAux, if_neg hn]
      rw [e1]
      obtain ⟨d, ds, heq, hdig, hnz, _⟩ := ih (n / 10) (Char.ofNat (48 + n % 10) :: acc) (by omega)
      refine ⟨d, ds ++ [Char.ofNat (48 + n % 10)], ?_, ?_, ?_, ?_⟩
      · rw [heq]; simp
      · intro c hc
        rw [← List.cons_append, List.mem_append] at hc
        rcases hc with hc | hc
        · exact hdig c hc
        · simp only [List.mem_singleton] at hc
          subst hc
          unfold IsDigitChar
          rw [digitChar_toNat _ (Nat.mod_lt _ (by norm_num))]
          have := Nat.mod_lt n (show 0 < 10 by norm_num)
          omega
      · intro _
        exact hnz (by omega)
      · intro h0; omega

theorem natDigits_shape (n : Nat) :
    ∃ d ds, Strconv.natDigits n = d :: ds ∧ (∀ c ∈ d :: ds, IsDigitChar c) ∧
      (n ≠ 0 → d ≠ '0') ∧ (n = 0 → ds = []) := by
  obtain ⟨d, ds, h1, h2, h3, h4⟩ := digitsAux_shape (n + 1) n [] (by omega)
  exact ⟨d, ds, by simpa [Strconv.natDigits] using h1, h2, h3, h4⟩

theorem isDigit_of (c : Char) (h : IsDigitChar c) : Json.isDigit c = true := by
  unfold Json.isDigit; unfold IsDigitChar at h; simp [h.1, h.2]

theorem takeDigits_all : ∀ ds : List Char, (∀ c ∈ ds, IsDigitChar c) →
    Json.takeDigits ds = (ds, [])
  | [], _ => rfl
  | c :: cs, h => by
    have hc := isDigit_of c (h c (List.mem_cons_self _ _))
    have := takeDigits_all cs (fun x hx => h x (List.mem_cons_of_mem _ hx))
    simp [Json.takeDigits, hc, this]

theorem scanNumber_digits (d : Char) (ds : List Char) (hall : ∀ c ∈ d :: ds, IsDigitChar c)
    (h0 : d = '0' → ds = []) :
    Json.scanNumber (d :: ds) = .ok (d :: ds, []) := by
  have hd := hall d (List.mem_cons_self _ _)
  have hne : ¬ d = '-' := by
    intro h; subst h; revert hd; unfold IsDigitChar; decide
  have htd := takeDigits_all ds (fun x hx => hall x (List.mem_cons_of_mem _ hx))
  unfold Json.scanNumber
  simp only [hne, if_false, Json.scanInt]
  by_cases hz : d = '0'
  · have := h0 hz
    subst this
    simp [hz, Json.scanFrac, Json.scanExp]
  · simp [hz, isDigit_of d hd, htd, Json.scanFrac, Json.scanExp]

theorem scanNumber_natDigits (n : Nat) :
    Json.scanNumber (Strconv.natDigits n) = .ok (Strconv.natDigits n, []) := by
  obtain ⟨d, ds, h1, h2, h3, h4⟩ := natDigits_shape n
  rw [h1]
  refine scanNumber_digits d ds h2 ?_
  intro hd
  by_cases hn : n = 0
  · exact h4 hn
  · exact absurd hd (h3 hn)

theorem scanNumber_neg_natDigits (n : Nat) :
    Json.scanNumber ('-' :: Strconv.natDigits n) = .ok ('-' :: Strconv.natDigits n, []) := by
  have h := scanNumber_natDigits n
  obtain ⟨d, ds, h1, h2, h3, h4⟩ := natDigits_shape n
  rw [h1] at h ⊢
  have hd := h2 d (List.mem_cons_self _ _)
  have hne : ¬ d = '-' := by
    intro h; subst h; revert hd; unfold IsDigitChar; decide
  unfold Json.scanNumber at h ⊢
  simp only [hne, if_false, if_true] at h ⊢
  cases h1' : Json.scanInt (d :: ds) with
  | error err => simp [h1'] at h
  | ok p1 =>
    rw [h1'] at h
    simp only at h ⊢
    cases h2' : Json.scanFrac p1.2 with
    | error err => simp [h2'] at h
    | ok p2 =>
      rw [h2'] at h
      simp only at h ⊢
      cases h3' : Json.scanExp p2.2 with
      | error err => simp [h3'] at h
      | ok p3 =>
        rw [h3'] at h
        simp only [Except.ok.injEq, Prod.mk.injEq] at h ⊢
        refine ⟨?_, h.2⟩
        simp only [List.nil_append] at h
        simp [h.1]

theorem scanNumber_formatInt (n : Int) :
    Json.scanNumber (Strconv.formatInt n).data = .ok ((Strconv.formatInt n).data, []) := by
  cases n with
  | ofNat k => exact scanNumber_natDigits k
  | negSucc k =>
    have := scanNumber_neg_natDigits (k + 1)
    simpa [Strconv.formatInt] using this


theorem digitVal_of (c : Char) (h : IsDigitChar c) : Strconv.digitVal c = some (c.toNat - 48) := by
  unfold Strconv.digitVal; unfold IsDigitChar at h; simp [h.1, h.2]

theorem digit_ne (c : Char) (h : IsDigitChar c) (k : Nat) (hk : k < 48 ∨ 57 < k)
    (hv : k < 55296) : c ≠ Char.ofNat k := by
  intro he
  have := congrArg Char.toNat he
  rw [toNat_ofNat_of_lt hv] at this
  unfold IsDigitChar at h
  omega

theorem readMantissa_digits : ∀ (ds : List Char) (st : Strconv.Mantissa) (v : Nat),
    st.sawdot = false → ds ≠ [] → Strconv.readDigits st.value ds = some v →
    Strconv.readMantissa false st ds = (⟨false, true, v, st.frac⟩, [])
  | [], _, _, _, hne, _ => absurd rfl hne
  | c :: cs, st, v, hdot, _, hv => by
    rw [Strconv.readDigits] at hv
    cases hd : Strconv.digitVal c with
    | none => simp [hd] at hv
    | some d =>
      rw [hd] at hv
      simp only at hv
      have hc : IsDigitChar c := by
        unfold Strconv.digitVal at hd
        unfold IsDigitChar
        by_contra hcon
        simp [hcon] at hd
      have h95 : ¬ c = Char.ofNat 95 := digit_ne c hc 95 (by omega) (by omega)
      have h46 : ¬ c = Char.ofNat 46 := digit_ne c hc 46 (by omega) (by omega)
      rw [Strconv.readMantissa]
      simp only [h95, h46, if_false, hd, Bool.false_eq_true, hdot]
      cases cs with
      | nil =>
        simp only [Strconv.readDigits, Option.some.injEq] at hv
        simp [Strconv.readMantissa, hv]
      | cons c2 cs2 =>
        exact readMantissa_digits (c2 :: cs2) ⟨false, true, st.value * 10 + d, st.frac⟩ v rfl
          (by simp) hv

theorem underscoreScan_digits : ∀ (ds : List Char) (saw : Nat),
    (∀ c ∈ ds, IsDigitChar c) → saw ≠ 1 → Strconv.underscoreScan false saw ds = true
  | [], saw, _, h => by simp [Strconv.underscoreScan, h]
  | c :: cs, saw, hall, _ => by
    have hc := hall c (List.mem_cons_self _ _)
    rw [Strconv.underscoreScan]
    have : (48 ≤ c.toNat ∧ c.toNat ≤ 57) ∨ (false = true ∧ 97 ≤ Strconv.lower c ∧ Strconv.lower c ≤ 102) :=
      Or.inl hc
    rw [if_pos this]
    exact underscoreScan_digits cs 0 (fun x hx => hall x (List.mem_cons_of_mem _ hx)) (by omega)

theorem underscoreOK_digits (d : Char) (ds : List Char) (hall : ∀ c ∈ d :: ds, IsDigitChar c)
    (h0 : d = '0' → ds = []) : Strconv.underscoreOK (d :: ds) = true := by
  have hd := hall d (List.mem_cons_self _ _)
  have h43 : ¬ d = Char.ofNat 43 := digit_ne d hd 43 (by omega) (by omega)
  have h45 : ¬ d = Char.ofNat 45 := digit_ne d hd 45 (by omega) (by omega)
  unfold Strconv.underscoreOK
  simp only [h43, h45, or_self, if_false]
  cases ds with
  | nil => exact underscoreScan_digits [d] 2 hall (by omega)
  | cons x xs =>
    have hz : ¬ d = Char.ofNat 48 := by
      intro h
      have := h0 (by rw [h])
      cases this
    simp only [hz, false_and, if_false]
    exact underscoreScan_digits (d :: x :: xs) 2 hall (by omega)

theorem underscoreOK_neg_digits (d : Char) (ds : List Char)
    (hall : ∀ c ∈ d :: ds, IsDigitChar c) (h0 : d = '0' → ds = []) :
    Strconv.underscoreOK (Char.ofNat 45 :: d :: ds) = true := by
  have hd := hall d (List.mem_cons_self _ _)
  unfold Strconv.underscoreOK
  simp only [or_true, if_true]
  cases ds with
  | nil => exact underscoreScan_digits [d] 2 hall (by omega)
  | cons x xs =>
    have hz : ¬ d = Char.ofNat 48 := by
      intro h
      have := h0 (by rw [h])
      cases this
    simp only [hz, false_and, if_false]
    exact underscoreScan_digits (d :: x :: xs) 2 hall (by omega)

theorem parseBody_digits (neg : Bool) (d : Char) (ds whole : List Char)
    (v : Nat) (hv : Strconv.readDigits 0 (d :: ds) = some v) (h0 : d = '0' → ds = [])
    (hu : Strconv.underscoreOK whole = true) :
    Strconv.parseBody neg (d :: ds) whole = F64.ofRat neg v 1 := by
  have hm := readMantissa_digits (d :: ds) ⟨false, false, 0, 0⟩ v rfl (by simp) hv
  have hz : ds ≠ [] → ¬ d = Char.ofNat 48 := by
    intro hne h
    exact hne (h0 (by rw [h]))
  unfold Strconv.parseBody
  cases ds with
  | nil =>
    simp only [Bool.false_eq_true, if_false]
    rw [hm]
    simp [Strconv.readExp, hu, npow]
  | cons x xs =>
    cases xs with
    | nil =>
      simp only [Bool.false_eq_true, if_false]
      rw [hm]
      simp [Strconv.readExp, hu, npow]
    | cons y ys =>
      simp only [hz (by simp), false_and, decide_False, Bool.false_eq_true, if_false]
      rw [hm]
      simp [Strconv.readExp, hu, npow]


theorem eqFold_digit (d : Char) (ds : List Char) (hd : IsDigitChar d) (l : Char) (ls : List Char)
    (hl : 97 ≤ l.toNat) : Strconv.eqFold (d :: ds) ⟨l :: ls⟩ = false := by
  unfold Strconv.eqFold
  have hf : Strconv.foldChar d = d := by
    unfold Strconv.foldChar
    unfold IsDigitChar at hd
    rw [if_neg (by omega)]
  have hne : d ≠ l := by
    intro h; subst h; unfold IsDigitChar at hd; omega
  simp [hf, hne]

theorem special_digits (d : Char) (ds : List Char) (hd : IsDigitChar d) :
    Strconv.special (d :: ds) = none := by
  have h43 : ¬ d = Char.ofNat 43 := digit_ne d hd 43 (by omega) (by omega)
  have h45 : ¬ d = Char.ofNat 45 := digit_ne d hd 45 (by omega) (by omega)
  have e1 : Strconv.eqFold (d :: ds) "inf" = false := eqFold_digit d ds hd 'i' _ (by decide)
  have e2 : Strconv.eqFold (d :: ds) "infinity" = false := eqFold_digit d ds hd 'i' _ (by decide)
  have e3 : Strconv.eqFold (d :: ds) "nan" = false := eqFold_digit d ds hd 'n' _ (by decide)
  simp [Strconv.special, h43, h45, e1, e2, e3]

theorem special_neg_digits (d : Char) (ds : List Char) (hd : IsDigitChar d) :
    Strconv.special (Char.ofNat 45 :: d :: ds) = none := by
  have e1 : Strconv.eqFold (d :: ds) "inf" = false := eqFold_digit d ds hd 'i' _ (by decide)
  have e2 : Strconv.eqFold (d :: ds) "infinity" = false := eqFold_digit d ds hd 'i' _ (by decide)
  simp [Strconv.special, e1, e2]

theorem roundPos_exp_le (n : Nat) (h0 : n ≠ 0) :
    (F64.roundPos n 1).2 ≤ (bitLen n : Int) - 52 := by
  have hE : max (F64.floorLog2 n 1 - 52) (-1074) = (bitLen n : Int) - 53 := by
    rw [floorLog2_one n h0]
    have := (bitLen_spec n h0).2.2
    omega
  unfold F64.roundPos
  simp only [hE]
  split_ifs <;> simp only <;> omega

theorem bitLen_le (n k : Nat) (h0 : n ≠ 0) (h : n < 2 ^ k) : bitLen n ≤ k := by
  obtain ⟨hlo, _, hpos⟩ := bitLen_spec n h0
  by_contra hc
  have : 2 ^ k ≤ 2 ^ (bitLen n - 1) := Nat.pow_le_pow_right (by norm_num) (by omega)
  omega

theorem ofRat_eq_ofInt (n : Int) (h : n.natAbs < 2 ^ 1000) (h0 : n ≠ 0) :
    F64.ofRat (decide (n < 0)) n.natAbs 1 = some (F64.ofInt n) := by
  have hn : n.natAbs ≠ 0 := by omega
  have hb := bitLen_le n.natAbs 1000 hn h
  have he := roundPos_exp_le n.natAbs hn
  unfold F64.ofRat F64.ofInt
  rw [if_neg hn, if_neg h0]
  simp only
  rw [if_neg (by omega)]

theorem parseFloat_formatInt (n : Int) (h : n.natAbs < 2 ^ 1000) :
    Strconv.parseFloat (Strconv.formatInt n) = some (F64.ofInt n) := by
  cases n with
  | ofNat k =>
    obtain ⟨d, ds, h1, h2, h3, h4⟩ := natDigits_shape k
    have hv := natDigits_value k
    rw [h1] at hv
    have hd := h2 d (List.mem_cons_self _ _)
    have h43 : ¬ d = Char.ofNat 43 := digit_ne d hd 43 (by omega) (by omega)
    have h45 : ¬ d = Char.ofNat 45 := digit_ne d hd 45 (by omega) (by omega)
    have hz : d = '0' → ds = [] := by
      intro hd0
      by_cases hk : k = 0
      · exact h4 hk
      · exact absurd hd0 (h3 hk)
    have hdata : (Strconv.formatInt (Int.ofNat k)).data = d :: ds := by
      simp [Strconv.formatInt, h1]
    unfold Strconv.parseFloat
    rw [hdata, special_digits d ds hd]
    simp only [h43, h45, if_false]
    rw [parseBody_digits false d ds (d :: ds) k hv hz (underscoreOK_digits d ds h2 hz)]
    by_cases hk : k = 0
    · subst hk; rfl
    · have h5 := ofRat_eq_ofInt (Int.ofNat k) h (by simpa using hk)
      have : decide (Int.ofNat k < 0) = false := by simp
      rw [this] at h5
      simpa using h5
  | negSucc k =>
    obtain ⟨d, ds, h1, h2, h3, h4⟩ := natDigits_shape (k + 1)
    have hv := natDigits_value (k + 1)
    rw [h1] at hv
    have hd := h2 d (List.mem_cons_self _ _)
    have hz : d = '0' → ds = [] := by
      intro hd0
      exact absurd hd0 (h3 (by omega))
    have hdata : (Strconv.formatInt (Int.negSucc k)).data = Char.ofNat 45 :: d :: ds := by
      simp [Strconv.formatInt, h1]
    unfold Strconv.parseFloat
    rw [hdata, special_neg_digits d ds hd]
    have h4543 : ¬ (Char.ofNat 45 = Char.ofNat 43) := by decide
    simp only [h4543, if_false, if_true]
    rw [parseBody_digits true d ds _ (k + 1) hv hz (underscoreOK_neg_digits d ds h2 hz)]
    have h5 := ofRat_eq_ofInt (Int.negSucc k) h (by simp)
    have : decide (Int.negSucc k < 0) = true := by simp [Int.negSucc_lt_zero]
    rw [this] at h5
    simpa using h5


theorem parseValue_null (fuel d : Nat) (rest : List Char) (saved : Option Json.JsonError) :
    Json.parseValue (fuel + 1) d ("null".data ++ rest) saved = .ok (GoValue.nil, rest, saved) := by
  simp [Json.parseValue, Json.skipWS, Json.isWS, Json.expectWord, Strings.dropPrefix]

theorem parseValue_true (fuel d : Nat) (rest : List Char) (saved : Option Json.JsonError) :
    Json.parseValue (fuel + 1) d ("true".data ++ rest) saved
      = .ok (GoValue.bool true, rest, saved) := by
  simp [Json.parseValue, Json.skipWS, Json.isWS, Json.expectWord, Strings.dropPrefix]

theorem parseValue_false (fuel d : Nat) (rest : List Char) (saved : Option Json.JsonError) :
    Json.parseValue (fuel + 1) d ("false".data ++ rest) saved
      = .ok (GoValue.bool false, rest, saved) := by
  simp [Json.parseValue, Json.skipWS, Json.isWS, Json.expectWord, Strings.dropPrefix]

theorem encodeString_append (s : String) (rest : List Char) :
    Json.encodeString s ++ rest
      = Char.ofNat 34 :: (Json.escapeChars s.data ++ Char.ofNat 34 :: rest) := by
  simp [Json.encodeString]

theorem parseValue_string (s : String) (fuel d : Nat) (rest : List Char)
    (saved : Option Json.JsonError) (h : s.data.length < fuel) :
    Json.parseValue (fuel + 1) d (Json.encodeString s ++ rest) saved
      = .ok (GoValue.str s, rest, saved) := by
  have hp := parseString_escapeChars s.data fuel [] rest h
  have hq : ¬ (Char.ofNat 34 = Char.ofNat 123) := by decide
  have hq2 : ¬ (Char.ofNat 34 = '[') := by decide
  have hws : Json.isWS (Char.ofNat 34) = false := by decide
  rw [encodeString_append]
  simp only [Json.parseValue, Json.skipWS, hws, Bool.false_eq_true, if_false, hq, hq2, if_true]
  rw [hp]
  simp


theorem scanNumber_head (c : Char) (cs text r : List Char)
    (h : Json.scanNumber (c :: cs) = .ok (text, r)) : c = '-' ∨ Json.isDigit c = true := by
  by_cases hc : c = '-'
  · exact Or.inl hc
  · right
    unfold Json.scanNumber at h
    simp only [hc, if_false, Json.scanInt] at h
    by_cases h0 : c = '0'
    · subst h0; decide
    · simp only [h0, if_false] at h
      by_cases hd : Json.isDigit c = true
      · exact hd
      · simp [hd] at h

theorem numberHead_facts (c : Char) (h : c = '-' ∨ Json.isDigit c = true) :
    Json.isWS c = false ∧ c ≠ Char.ofNat 123 ∧ c ≠ '[' ∧ c ≠ Char.ofNat 34 ∧ c ≠ 't'
      ∧ c ≠ 'f' ∧ c ≠ 'n' := by
  rcases h with h | h
  · subst h; decide
  · have hd : 48 ≤ c.toNat ∧ c.toNat ≤ 57 := by
      simpa [Json.isDigit] using h
    have hne : ∀ k : Nat, (k < 48 ∨ 57 < k) → k < 55296 → c ≠ Char.ofNat k :=
      fun k hk hv => digit_ne c hd k hk hv
    refine ⟨?_, hne 123 (by omega) (by omega), hne 91 (by omega) (by omega),
      hne 34 (by omega) (by omega), hne 116 (by omega) (by omega),
      hne 102 (by omega) (by omega), hne 110 (by omega) (by omega)⟩
    unfold Json.isWS
    have : c.toNat ≠ 32 ∧ c.toNat ≠ 9 ∧ c.toNat ≠ 13 ∧ c.toNat ≠ 10 := by omega
    simp [this]

theorem parseValue_number (text rest : List Char) (fuel d : Nat)
    (saved : Option Json.JsonError) (hscan : Json.scanNumber text = .ok (text, []))
    (hrest : endsNumber rest) :
    Json.parseValue (fuel + 1) d (text ++ rest) saved
      = .ok ((Json.convertNumber text saved).1, rest, (Json.convertNumber text saved).2) := by
  cases text with
  | nil => simp [Json.scanNumber, Json.scanInt] at hscan
  | cons c cs =>
    have hc := scanNumber_head c cs _ _ hscan
    obtain ⟨h1, h2, h3, h4, h5, h6, h7⟩ := numberHead_facts c hc
    have happ := scanNumber_append rest hrest (c :: cs) (c :: cs) [] hscan
    simp only [List.cons_append, List.nil_append] at happ
    rw [List.cons_append]
    simp only [Json.parseValue, Json.skipWS, h1, Bool.false_eq_true, if_false,
      h2, h3, h4, h5, h6, h7, hc, if_true, happ]

/-! ## Doubles written and read back -/

theorem two_zpow_split (E : Int) :
    (2 : ℚ) ^ E * (2 : ℚ) ^ (-E).toNat = (2 : ℚ) ^ E.toNat := by
  have h2 : (2 : ℚ) ≠ 0 := by norm_num
  rw [← zpow_natCast, ← zpow_natCast, ← zpow_add₀ h2]
  congr 1
  omega

theorem floorLog2_spec (num den : Nat) (hn : 0 < num) (hd : 0 < den) :
    (2 : ℚ) ^ (F64.floorLog2 num den) * den ≤ num ∧
    (num : ℚ) < (2 : ℚ) ^ (F64.floorLog2 num den + 1) * den := by
  obtain ⟨hn1, hn2, hn3⟩ := bitLen_spec num (Nat.pos_iff_ne_zero.1 hn)
  obtain ⟨hd1, hd2, hd3⟩ := bitLen_spec den (Nat.pos_iff_ne_zero.1 hd)
  have h2 : (2 : ℚ) ≠ 0 := by norm_num
  have qn1 : (2 : ℚ) ^ ((bitLen num : Int) - 1) ≤ num := by
    have : ((bitLen num : Int) - 1) = ((bitLen num - 1 : Nat) : Int) := by omega
    rw [this, zpow_natCast]
    exact_mod_cast hn1
  have qn2 : (num : ℚ) < (2 : ℚ) ^ (bitLen num : Int) := by
    rw [zpow_natCast]; exact_mod_cast hn2
  have qd1 : (2 : ℚ) ^ ((bitLen den : Int) - 1) ≤ den := by
    have : ((bitLen den : Int) - 1) = ((bitLen den - 1 : Nat) : Int) := by omega
    rw [this, zpow_natCast]
    exact_mod_cast hd1
  have qd2 : (den : ℚ) < (2 : ℚ) ^ (bitLen den : Int) := by
    rw [zpow_natCast]; exact_mod_cast hd2
  unfold F64.floorLog2
  simp only [Int.ofNat_eq_coe]
  set d : Int := (bitLen num : Int) - (bitLen den : Int) with hdd
  have hcond : (den <<< d.toNat ≤ num <<< (-d).toNat) ↔ (2 : ℚ) ^ d * den ≤ num := by
    rw [Nat.shiftLeft_eq, Nat.shiftLeft_eq]
    have hs := two_zpow_split d
    have hpos : (0 : ℚ) < (2 : ℚ) ^ (-d).toNat := by positivity
    constructor
    · intro h
      have hc : ((den * 2 ^ d.toNat : Nat) : ℚ) ≤ ((num * 2 ^ (-d).toNat : Nat) : ℚ) := by
        exact_mod_cast h
      push_cast at hc
      rw [← hs] at hc
      have : (2 : ℚ) ^ d * den * 2 ^ (-d).toNat ≤ num * 2 ^ (-d).toNat := by
        calc (2 : ℚ) ^ d * den * 2 ^ (-d).toNat = den * (2 ^ d * 2 ^ (-d).toNat) := by ring
          _ ≤ num * 2 ^ (-d).toNat := hc
      exact le_of_mul_le_mul_right this hpos
    · intro h
      have : (2 : ℚ) ^ d * den * 2 ^ (-d).toNat ≤ num * 2 ^ (-d).toNat :=
        mul_le_mul_of_nonneg_right h hpos.le
      have hc : ((den * 2 ^ d.toNat : Nat) : ℚ) ≤ ((num * 2 ^ (-d).toNat : Nat) : ℚ) := by
        push_cast
        rw [← hs]
        calc (den : ℚ) * (2 ^ d * 2 ^ (-d).toNat) = 2 ^ d * den * 2 ^ (-d).toNat := by ring
          _ ≤ num * 2 ^ (-d).toNat := this
      exact_mod_cast hc
  have hpd : (0 : ℚ) < (2 : ℚ) ^ d := by positivity
  have hden : (0 : ℚ) < den := by exact_mod_cast hd
  by_cases hc : den <<< d.toNat ≤ num <<< (-d).toNat
  · rw [if_pos hc]
    refine ⟨hcond.1 hc, ?_⟩
    have e1 : (2 : ℚ) ^ (d + 1) * (2 : ℚ) ^ ((bitLen den : Int) - 1) = (2 : ℚ) ^ (bitLen num : Int) := by
      rw [← zpow_add₀ h2]; congr 1; omega
    calc (num : ℚ) < (2 : ℚ) ^ (bitLen num : Int) := qn2
      _ = (2 : ℚ) ^ (d + 1) * (2 : ℚ) ^ ((bitLen den : Int) - 1) := e1.symm
      _ ≤ (2 : ℚ) ^ (d + 1) * den := mul_le_mul_of_nonneg_left qd1 (by positivity)
  · rw [if_neg hc]
    have hlt : (num : ℚ) < (2 : ℚ) ^ d * den := by
      by_contra hcon
      exact hc (hcond.2 (not_lt.1 hcon))
    refine ⟨?_, by rw [sub_add_cancel]; exact hlt⟩
    have e1 : (2 : ℚ) ^ (d - 1) * (2 : ℚ) ^ (bitLen den : Int) = (2 : ℚ) ^ ((bitLen num : Int) - 1) := by
      rw [← zpow_add₀ h2]; congr 1; omega
    calc (2 : ℚ) ^ (d - 1) * den ≤ (2 : ℚ) ^ (d - 1) * (2 : ℚ) ^ (bitLen den : Int) :=
          mul_le_mul_of_nonneg_left qd2.le (by positivity)
      _ = (2 : ℚ) ^ ((bitLen num : Int) - 1) := e1
      _ ≤ num := qn1

theorem round_step (n d k : Nat) (hd : 0 < d)
    (hlo : (2 * k + 1) * d < 2 * n ∨ (k % 2 = 1 ∧ (2 * k + 1) * d = 2 * n))
    (hhi : 2 * n < (2 * k + 3) * d ∨ (k % 2 = 1 ∧ 2 * n = (2 * k + 3) * d)) :
    (if d < 2 * (n % d) ∨ (2 * (n % d) = d ∧ (n / d) % 2 = 1) then n / d + 1 else n / d)
      = k + 1 := by
  have hdm := Nat.div_add_mod n d
  have hr := Nat.mod_lt n hd
  set q := n / d with hq
  set r := n % d with hrr
  have hlo' : (2 * k + 1) * d ≤ 2 * n := by rcases hlo with h | h <;> omega
  have hhi' : 2 * n ≤ (2 * k + 3) * d := by rcases hhi with h | h <;> omega
  have hqk : k ≤ q := by
    by_contra hcon
    have h1 : q + 1 ≤ k := by omega
    have h2 : d * (q + 1) ≤ d * k := Nat.mul_le_mul_left d h1
    nlinarith
  have hqk2 : q ≤ k + 1 := by
    by_contra hcon
    have h1 : k + 2 ≤ q := by omega
    have h2 : d * (k + 2) ≤ d * q := Nat.mul_le_mul_left d h1
    nlinarith
  have hcase : q = k ∨ q = k + 1 := by omega
  rcases hcase with h | h
  · have h2r : d ≤ 2 * r := by rw [h] at hdm; nlinarith
    have hup : d < 2 * r ∨ (2 * r = d ∧ q % 2 = 1) := by
      by_cases he : d < 2 * r
      · exact Or.inl he
      · have heq : 2 * r = d := by omega
        refine Or.inr ⟨heq, ?_⟩
        rcases hlo with h3 | h3
        · rw [h] at hdm; nlinarith
        · rw [h]; exact h3.1
    rw [if_pos hup, h]
  · have h2r : 2 * r ≤ d := by rw [h] at hdm; nlinarith
    have hup : ¬ (d < 2 * r ∨ (2 * r = d ∧ q % 2 = 1)) := by
      rintro (h3 | ⟨h3, h4⟩)
      · omega
      · rcases hhi with h5 | h5
        · rw [h] at hdm; nlinarith
        · rw [h] at h4; omega
    rw [if_neg hup, h]

theorem shiftLeft_den_cast (c den : Nat) (E : Int) :
    ((c * (den <<< E.toNat) : Nat) : ℚ) = (c : ℚ) * (2 : ℚ) ^ E * den * (2 : ℚ) ^ (-E).toNat := by
  rw [Nat.shiftLeft_eq]
  push_cast
  rw [← two_zpow_split E]
  ring

theorem shiftLeft_num_cast (num : Nat) (E : Int) :
    ((2 * (num <<< (-E).toNat) : Nat) : ℚ) = 2 * (num : ℚ) * (2 : ℚ) ^ (-E).toNat := by
  rw [Nat.shiftLeft_eq]
  push_cast
  ring

theorem scaled_lt_iff (c num den : Nat) (E : Int) :
    c * (den <<< E.toNat) < 2 * (num <<< (-E).toNat)
      ↔ (c : ℚ) * (2 : ℚ) ^ E * den < 2 * num := by
  have hpos : (0 : ℚ) < (2 : ℚ) ^ (-E).toNat := by positivity
  rw [← (Nat.cast_lt : ((c * (den <<< E.toNat) : Nat) : ℚ)
    < ((2 * (num <<< (-E).toNat) : Nat) : ℚ) ↔ _), shiftLeft_den_cast c den E,
    shiftLeft_num_cast num E]
  exact mul_lt_mul_right hpos

theorem scaled_gt_iff (c num den : Nat) (E : Int) :
    2 * (num <<< (-E).toNat) < c * (den <<< E.toNat)
      ↔ 2 * (num : ℚ) < (c : ℚ) * (2 : ℚ) ^ E * den := by
  have hpos : (0 : ℚ) < (2 : ℚ) ^ (-E).toNat := by positivity
  rw [← (Nat.cast_lt : ((2 * (num <<< (-E).toNat) : Nat) : ℚ)
    < ((c * (den <<< E.toNat) : Nat) : ℚ) ↔ _), shiftLeft_num_cast num E,
    shiftLeft_den_cast c den E]
  exact mul_lt_mul_right hpos

theorem scaled_eq_iff2 (c num den : Nat) (E : Int) :
    c * (den <<< E.toNat) = 2 * (num <<< (-E).toNat)
      ↔ (c : ℚ) * (2 : ℚ) ^ E * den = 2 * num := by
  have hpos : (0 : ℚ) < (2 : ℚ) ^ (-E).toNat := by positivity
  rw [← (Nat.cast_inj : ((c * (den <<< E.toNat) : Nat) : ℚ)
    = ((2 * (num <<< (-E).toNat) : Nat) : ℚ) ↔ _), shiftLeft_den_cast c den E,
    shiftLeft_num_cast num E]
  exact mul_left_inj' hpos.ne'

theorem roundPos_core (num den k : Nat) (E : Int) (hden : 0 < den)
    (hE : max (F64.floorLog2 num den - 52) (-1074) = E)
    (hlo : ((2 * k + 1 : Nat) : ℚ) * (2 : ℚ) ^ E * den < 2 * num ∨
      (k % 2 = 1 ∧ ((2 * k + 1 : Nat) : ℚ) * (2 : ℚ) ^ E * den = 2 * num))
    (hhi : 2 * (num : ℚ) < ((2 * k + 3 : Nat) : ℚ) * (2 : ℚ) ^ E * den ∨
      (k % 2 = 1 ∧ 2 * (num : ℚ) = ((2 * k + 3 : Nat) : ℚ) * (2 : ℚ) ^ E * den)) :
    F64.roundPos num den = if k + 1 = 1 <<< 53 then (1 <<< 52, E + 1) else (k + 1, E) := by
  have hd : 0 < den <<< E.toNat := by
    rw [Nat.shiftLeft_eq]; positivity
  have hstep := round_step (num <<< (-E).toNat) (den <<< E.toNat) k hd
    (by
      rcases hlo with h | ⟨h1, h2⟩
      · exact Or.inl ((scaled_lt_iff _ _ _ _).2 h)
      · exact Or.inr ⟨h1, (scaled_eq_iff2 _ _ _ _).2 h2⟩)
    (by
      rcases hhi with h | ⟨h1, h2⟩
      · exact Or.inl ((scaled_gt_iff _ _ _ _).2 h)
      · exact Or.inr ⟨h1, ((scaled_eq_iff2 _ _ _ _).2 h2.symm).symm⟩)
  unfold F64.roundPos
  simp only [hE]
  rw [hstep]

theorem zpow_lt_of_bounds (a b : Int) (num den : ℚ) (hden : 0 < den)
    (h1 : (2 : ℚ) ^ a * den ≤ num) (h2 : num < (2 : ℚ) ^ b * den) : a < b := by
  by_contra hcon
  have hba : b ≤ a := not_lt.1 hcon
  have hp : (2 : ℚ) ^ b ≤ (2 : ℚ) ^ a := zpow_le_zpow_right₀ (by norm_num) hba
  have : (2 : ℚ) ^ b * den ≤ (2 : ℚ) ^ a * den := mul_le_mul_of_nonneg_right hp hden.le
  linarith

theorem roundPos_near (num den m : Nat) (e : Int) (c : ℚ) (hnum : 0 < num) (hden : 0 < den)
    (hm0 : 0 < m) (hm : m < 2 ^ 53) (hsub : m < 2 ^ 52 → e = -1074) (he : -1074 ≤ e)
    (hc : (c = 1 ∧ m = 2 ^ 52 ∧ -1074 < e) ∨ (c = 2 ∧ ¬ (m = 2 ^ 52 ∧ -1074 < e)))
    (hlo : (4 * (m : ℚ) - c) * (2 : ℚ) ^ (e - 2) * den < num ∨
      (m % 2 = 0 ∧ (4 * (m : ℚ) - c) * (2 : ℚ) ^ (e - 2) * den = num))
    (hhi : (num : ℚ) < (4 * (m : ℚ) + 2) * (2 : ℚ) ^ (e - 2) * den ∨
      (m % 2 = 0 ∧ (num : ℚ) = (4 * (m : ℚ) + 2) * (2 : ℚ) ^ (e - 2) * den)) :
    F64.roundPos num den = (m, e) := by
  have h2 : (2 : ℚ) ≠ 0 := by norm_num
  obtain ⟨hL1, hL2⟩ := floorLog2_spec num den hnum hden
  set L := F64.floorLog2 num den with hLdef
  set A : ℚ := (2 : ℚ) ^ (e - 2) with hA
  have hApos : 0 < A := by positivity
  have hdenq : (0 : ℚ) < den := by exact_mod_cast hden
  have hAd : 0 < A * den := mul_pos hApos hdenq
  have hmq : (1 : ℚ) ≤ m := by exact_mod_cast hm0
  have hmq2 : (m : ℚ) ≤ 2 ^ 53 - 1 := by
    have : m + 1 ≤ 2 ^ 53 := hm
    have h3 : ((m + 1 : Nat) : ℚ) ≤ ((2 ^ 53 : Nat) : ℚ) := by exact_mod_cast this
    push_cast at h3
    linarith
  have pw : ∀ j : Int, (2 : ℚ) ^ (e + j) = (2 : ℚ) ^ (j + 2) * A := by
    intro j
    rw [hA, ← zpow_add₀ h2]; congr 1; omega
  have pe : (2 : ℚ) ^ e = 4 * A := by
    have := pw 0
    simp only [add_zero, zero_add] at this
    rw [this]; norm_num
  have pe1 : (2 : ℚ) ^ (e - 1) = 2 * A := by
    have := pw (-1)
    rw [show e + -1 = e - 1 by ring] at this
    rw [this]; norm_num
  have hlo' : (4 * (m : ℚ) - c) * A * den ≤ num := by
    rcases hlo with h | h
    · exact h.le
    · exact h.2.le
  have hhi' : (num : ℚ) ≤ (4 * (m : ℚ) + 2) * A * den := by
    rcases hhi with h | h
    · exact h.le
    · exact h.2.le
  have hc12 : c = 1 ∨ c = 2 := by rcases hc with h | h; exact Or.inl h.1; exact Or.inr h.1
  have hcle : c ≤ 2 := by
    rcases hc12 with h | h
    · rw [h]; norm_num
    · rw [h]
  -- the value is below 2^(53+e)
  have hup : (num : ℚ) < (2 : ℚ) ^ (e + 53) * den := by
    rw [pw 53]
    have : (4 * (m : ℚ) + 2) * A * den < (2 : ℚ) ^ ((53 : Int) + 2) * A * den := by
      have h55 : (2 : ℚ) ^ ((53 : Int) + 2) = 2 ^ 55 := by norm_num
      rw [h55]
      have : (4 * (m : ℚ) + 2) < 2 ^ 55 := by linarith
      calc (4 * (m : ℚ) + 2) * A * den = (4 * (m : ℚ) + 2) * (A * den) := by ring
        _ < 2 ^ 55 * (A * den) := mul_lt_mul_of_pos_right this hAd
        _ = 2 ^ 55 * A * den := by ring
    linarith
  have hLup : L < e + 53 := zpow_lt_of_bounds L (e + 53) num den hdenq hL1 hup
  by_cases hb : (num : ℚ) < (2 : ℚ) ^ (e + 52) * den ∧ -1074 < e
  · -- below the binade of `m`: `m` is the power of two and the rounding carries
    obtain ⟨hb1, hb2⟩ := hb
    have hm52 : m = 2 ^ 52 := by
      by_contra hne
      have hge : 2 ^ 52 + 1 ≤ m := by
        have : ¬ m < 2 ^ 52 := fun h => by have := hsub h; omega
        omega
      have hgeq : ((2 ^ 52 + 1 : Nat) : ℚ) ≤ m := by exact_mod_cast hge
      push_cast at hgeq
      rw [pw 52] at hb1
      have h54 : (2 : ℚ) ^ ((52 : Int) + 2) = 2 ^ 54 := by norm_num
      rw [h54] at hb1
      have : (2 : ℚ) ^ 54 * (A * den) ≤ (4 * (m : ℚ) - c) * (A * den) :=
        mul_le_mul_of_nonneg_right (by linarith) hAd.le
      linarith
    have hmq52 : (m : ℚ) = 2 ^ 52 := by rw [hm52]; norm_num
    have hc1 : c = 1 := by
      rcases hc with h | h
      · exact h.1
      · exact absurd ⟨hm52, hb2⟩ h.2
    have hlow : (2 : ℚ) ^ (e + 51) * den ≤ num := by
      rw [pw 51]
      have h53 : (2 : ℚ) ^ ((51 : Int) + 2) = 2 ^ 53 := by norm_num
      rw [h53]
      have : (2 : ℚ) ^ 53 * (A * den) ≤ (4 * (m : ℚ) - c) * (A * den) :=
        mul_le_mul_of_nonneg_right (by rw [hmq52]; linarith) hAd.le
      linarith
    have hL51 : e + 51 < L + 1 := zpow_lt_of_bounds (e + 51) (L + 1) num den hdenq hlow hL2
    have hL52 : L < e + 52 := zpow_lt_of_bounds L (e + 52) num den hdenq hL1 hb1
    have hE : max (L - 52) (-1074) = e - 1 := by omega
    have hcore := roundPos_core num den (2 ^ 53 - 1) (e - 1) hden hE
      (by
        rw [pe1]
        have hk : ((2 * (2 ^ 53 - 1) + 1 : Nat) : ℚ) = 2 ^ 54 - 1 := by norm_num
        rw [hk]
        rw [hmq52, hc1] at hlo
        rcases hlo with h | ⟨_, h⟩
        · left
          linarith
        · right
          refine ⟨by norm_num, ?_⟩
          linarith)
      (by
        left
        rw [pe1]
        have hk : ((2 * (2 ^ 53 - 1) + 3 : Nat) : ℚ) = 2 ^ 54 + 1 := by norm_num
        rw [hk]
        rw [pw 52] at hb1
        have h54 : (2 : ℚ) ^ ((52 : Int) + 2) = 2 ^ 54 := by norm_num
        rw [h54] at hb1
        linarith)
    rw [hcore, hm52]
    have : (2 ^ 53 - 1 + 1 : Nat) = 1 <<< 53 := by decide
    rw [if_pos this]
    have h52 : (1 <<< 52 : Nat) = 2 ^ 52 := by decide
    rw [h52]
    congr 1
    omega
  · -- inside the binade of `m`, or at the lowest exponent
    have hE : max (L - 52) (-1074) = e := by
      by_cases he2 : -1074 < e
      · have hge : (2 : ℚ) ^ (e + 52) * den ≤ num := by
          by_contra hcon
          exact hb ⟨not_le.1 hcon, he2⟩
        have := zpow_lt_of_bounds (e + 52) (L + 1) num den hdenq hge hL2
        omega
      · omega
    obtain ⟨k, hk⟩ : ∃ k, m = k + 1 := ⟨m - 1, by omega⟩
    have hkq : (m : ℚ) = (k : ℚ) + 1 := by rw [hk]; push_cast; ring
    have hcore := roundPos_core num den k e hden hE
      (by
        rw [pe]
        have hkc : ((2 * k + 1 : Nat) : ℚ) = 2 * (m : ℚ) - 1 := by rw [hkq]; push_cast; ring
        rw [hkc]
        rcases hlo with h | ⟨h1, h⟩
        · left
          have : (4 * (m : ℚ) - 2) * (A * den) ≤ (4 * (m : ℚ) - c) * (A * den) :=
            mul_le_mul_of_nonneg_right (by linarith) hAd.le
          linarith
        · rcases hc12 with h2 | h2
          · left
            rw [h2] at h
            linarith
          · right
            refine ⟨by omega, ?_⟩
            rw [h2] at h
            linarith)
      (by
        rw [pe]
        have hkc : ((2 * k + 3 : Nat) : ℚ) = 2 * (m : ℚ) + 1 := by rw [hkq]; push_cast; ring
        rw [hkc]
        rcases hhi with h | ⟨h1, h⟩
        · left; linarith
        · right
          exact ⟨by omega, by linarith⟩)
    rw [hcore]
    have : ¬ (k + 1 = 1 <<< 53) := by
      have h53 : (1 <<< 53 : Nat) = 2 ^ 53 := by decide
      rw [h53]; omega
    rw [if_neg this, hk]

theorem npow_eq (b : Nat) : ∀ k : Nat, npow b k = b ^ k
  | 0 => rfl
  | k + 1 => by rw [npow, npow_eq b k, pow_succ]

theorem shortestSearch_bounds (f lo hi : Nat) (incl : Bool) (hlo : lo < f) (hhi : f < hi) :
    ∀ k : Nat,
      (lo < Json.shortestSearch f lo hi incl k ∨
        (incl = true ∧ Json.shortestSearch f lo hi incl k = lo)) ∧
      (Json.shortestSearch f lo hi incl k < hi ∨
        (incl = true ∧ Json.shortestSearch f lo hi incl k = hi))
  | 0 => ⟨Or.inl hlo, Or.inl hhi⟩
  | k + 1 => by
    have ih := shortestSearch_bounds f lo hi incl hlo hhi k
    have hu : 0 < npow 10 (k + 1) := by rw [npow_eq]; positivity
    have ht : f / npow 10 (k + 1) * npow 10 (k + 1) ≤ f := Nat.div_mul_le_self _ _
    have hu2 : f < f / npow 10 (k + 1) * npow 10 (k + 1) + npow 10 (k + 1) :=
      Nat.lt_div_mul_add hu
    rw [Json.shortestSearch]
    simp only
    generalize f / npow 10 (k + 1) * npow 10 (k + 1) = t at ht hu2 ⊢
    generalize npow 10 (k + 1) = unit at hu hu2 ⊢
    generalize Json.shortestSearch f lo hi incl k = r at ih ⊢
    split_ifs with h1 h2 h3 h4
    · simp only [Bool.decide_eq_true, decide_eq_true_eq] at h1
      exact ⟨Or.inl (by omega), h1.2⟩
    · simp only [Bool.decide_eq_true, decide_eq_true_eq] at h1
      exact ⟨h1.1, Or.inl (by omega)⟩
    · simp only [Bool.decide_eq_true, decide_eq_true_eq] at h3
      exact ⟨h3, Or.inl (by omega)⟩
    · simp only [Bool.decide_eq_true, decide_eq_true_eq] at h4
      exact ⟨Or.inl (by omega), h4⟩
    · exact ih

theorem numberChar_facts (c : Char) (h : NumberChar c) :
    c ≠ Char.ofNat 95 ∧ Strconv.lower c ≠ 98 ∧ Strconv.lower c ≠ 111 ∧ Strconv.lower c ≠ 120 := by
  rcases h with h | h | h | h | h
  · refine ⟨digit_ne c h 95 (by omega) (by omega), ?_⟩
    unfold IsDigitChar at h
    unfold Strconv.lower
    obtain ⟨h1, h2⟩ := h
    generalize c.toNat = n at h1 h2
    interval_cases n <;> decide
  · subst h; decide
  · subst h; decide
  · subst h; decide
  · subst h; decide

theorem underscoreScan_clean : ∀ (cs : List Char) (saw : Nat),
    (∀ c ∈ cs, NumberChar c) → saw ≠ 1 → Strconv.underscoreScan false saw cs = true
  | [], saw, _, h => by simp [Strconv.underscoreScan, h]
  | c :: cs, saw, hall, hs => by
    have hc := numberChar_facts c (hall c (List.mem_cons_self _ _))
    have ih0 := underscoreScan_clean cs 0 (fun x hx => hall x (List.mem_cons_of_mem _ hx))
      (by omega)
    have ih2 := underscoreScan_clean cs 2 (fun x hx => hall x (List.mem_cons_of_mem _ hx))
      (by omega)
    rw [Strconv.underscoreScan]
    by_cases h1 : (48 ≤ c.toNat ∧ c.toNat ≤ 57) ∨
        (false = true ∧ 97 ≤ Strconv.lower c ∧ Strconv.lower c ≤ 102)
    · rw [if_pos h1]; exact ih0
    · rw [if_neg h1, if_neg hc.1]
      have : ¬ ((saw == 1) = true) := by simpa using hs
      rw [if_neg this]
      exact ih2

theorem underscoreOK_clean (cs : List Char) (hall : ∀ c ∈ cs, NumberChar c) :
    Strconv.underscoreOK cs = true := by
  unfold Strconv.underscoreOK
  have hbody : ∀ body : List Char, (∀ c ∈ body, NumberChar c) →
      (match body with
        | z :: x :: rest =>
          if z = Char.ofNat 48 ∧ (Strconv.lower x = 98 ∨ Strconv.lower x = 111
              ∨ Strconv.lower x = 120) then
            Strconv.underscoreScan (Strconv.lower x == 120) 0 rest
          else Strconv.underscoreScan false 2 body
        | _ => Strconv.underscoreScan false 2 body) = true := by
    intro body hb
    split
    · rename_i z x rest
      have hx := numberChar_facts x (hb x (by simp))
      have : ¬ (z = Char.ofNat 48 ∧ (Strconv.lower x = 98 ∨ Strconv.lower x = 111
          ∨ Strconv.lower x = 120)) := by
        rintro ⟨_, h | h | h⟩
        · exact hx.2.1 h
        · exact hx.2.2.1 h
        · exact hx.2.2.2 h
      rw [if_neg this]
      exact underscoreScan_clean _ 2 hb (by omega)
    · exact underscoreScan_clean _ 2 hb (by omega)
  cases cs with
  | nil => exact hbody [] hall
  | cons c rest =>
    simp only
    split_ifs
    · exact hbody rest (fun x hx => hall x (List.mem_cons_of_mem _ hx))
    · exact hbody (c :: rest) hall

theorem readDigits_append : ∀ (xs ys : List Char) (acc : Nat),
    Strconv.readDigits acc (xs ++ ys)
      = (Strconv.readDigits acc xs).bind (fun v => Strconv.readDigits v ys)
  | [], ys, acc => rfl
  | c :: xs, ys, acc => by
    simp only [List.cons_append, Strconv.readDigits]
    cases Strconv.digitVal c with
    | none => rfl
    | some d => exact readDigits_append xs ys _

theorem readDigits_some : ∀ (xs : List Char) (acc : Nat), (∀ c ∈ xs, IsDigitChar c) →
    ∃ v, Strconv.readDigits acc xs = some v
  | [], acc, _ => ⟨acc, rfl⟩
  | c :: xs, acc, h => by
    rw [Strconv.readDigits, digitVal_of c (h c (List.mem_cons_self _ _))]
    exact readDigits_some xs _ (fun x hx => h x (List.mem_cons_of_mem _ hx))

theorem readMantissa_run : ∀ (ds : List Char) (st : Strconv.Mantissa) (v : Nat)
    (tail : List Char), (∀ c ∈ ds, IsDigitChar c) → Strconv.readDigits st.value ds = some v →
    Strconv.readMantissa false st (ds ++ tail)
      = Strconv.readMantissa false
          ⟨st.sawdot, st.sawdigits || !ds.isEmpty, v,
            if st.sawdot then st.frac + ds.length else st.frac⟩ tail
  | [], st, v, tail, _, hv => by
    simp only [Strconv.readDigits, Option.some.injEq] at hv
    subst hv
    cases st with
    | mk a b c d => simp
  | c :: cs, st, v, tail, hall, hv => by
    have hc := hall c (List.mem_cons_self _ _)
    rw [Strconv.readDigits, digitVal_of c hc] at hv
    simp only at hv
    have h95 : ¬ c = Char.ofNat 95 := digit_ne c hc 95 (by omega) (by omega)
    have h46 : ¬ c = Char.ofNat 46 := digit_ne c hc 46 (by omega) (by omega)
    rw [List.cons_append, Strconv.readMantissa]
    simp only [h95, h46, if_false, digitVal_of c hc, Bool.false_eq_true]
    rw [readMantissa_run cs _ v tail (fun x hx => hall x (List.mem_cons_of_mem _ hx)) hv]
    congr 1
    cases st with
    | mk a b c d =>
      cases a
      · simp
      · simp; omega

theorem readMantissa_stop (st : Strconv.Mantissa) (tail : List Char)
    (h : tail = [] ∨ ∃ rest, tail = 'e' :: rest) :
    Strconv.readMantissa false st tail = (st, tail) := by
  rcases h with h | ⟨rest, h⟩
  · subst h; rfl
  · subst h
    rw [Strconv.readMantissa]
    have h1 : ¬ ('e' = Char.ofNat 95) := by decide
    have h2 : ¬ ('e' = Char.ofNat 46) := by decide
    have h3 : Strconv.digitVal 'e' = none := by decide
    simp only [h1, h2, if_false, Bool.false_eq_true, h3]

theorem readMantissa_decimal (ip fd ex : List Char) (v : Nat) (hI : ip ≠ [])
    (hId : ∀ c ∈ ip, IsDigitChar c) (hFd : ∀ c ∈ fd, IsDigitChar c)
    (hV : Strconv.readDigits 0 (ip ++ fd) = some v)
    (hX : ex = [] ∨ ∃ rest, ex = 'e' :: rest) :
    ∃ dot, Strconv.readMantissa false ⟨false, false, 0, 0⟩ (decimalText ip fd ex)
      = (⟨dot, true, v, fd.length⟩, ex) := by
  rw [readDigits_append] at hV
  obtain ⟨vi, hvi⟩ := readDigits_some ip 0 hId
  rw [hvi] at hV
  change Strconv.readDigits vi fd = some v at hV
  unfold decimalText
  have hne : (!ip.isEmpty) = true := by
    cases ip with
    | nil => exact absurd rfl hI
    | cons a b => rfl
  rw [readMantissa_run ip ⟨false, false, 0, 0⟩ vi _ hId hvi]
  simp only [Bool.false_or, hne, Bool.false_eq_true, if_false]
  by_cases hf : fd = []
  · subst hf
    simp only [if_true, Strconv.readDigits, Option.some.injEq] at hV ⊢
    subst hV
    exact ⟨false, by rw [readMantissa_stop _ _ hX]; rfl⟩
  · rw [if_neg hf, Strconv.readMantissa]
    have h1 : ¬ ('.' = Char.ofNat 95) := by decide
    have h2 : '.' = Char.ofNat 46 := by decide
    simp only [h1, h2, if_false, if_true, Bool.false_eq_true]
    rw [readMantissa_run fd _ v ex hFd hV, readMantissa_stop _ _ hX]
    exact ⟨true, by simp⟩

theorem parseBody_decimal (neg : Bool) (ip fd ex whole : List Char) (v : Nat) (x : Int)
    (hI : ip ≠ []) (hId : ∀ c ∈ ip, IsDigitChar c) (hFd : ∀ c ∈ fd, IsDigitChar c)
    (hV : Strconv.readDigits 0 (ip ++ fd) = some v)
    (hX : ex = [] ∨ ∃ rest, ex = 'e' :: rest) (hex : Strconv.readExp false ex = some x)
    (hnc : ∀ c ∈ decimalText ip fd ex, NumberChar c)
    (hu : Strconv.underscoreOK whole = true) :
    Strconv.parseBody neg (decimalText ip fd ex) whole
      = if 0 ≤ x - Int.ofNat fd.length then
          F64.ofRat neg (v * npow 10 (x - Int.ofNat fd.length).toNat) 1
        else F64.ofRat neg v (npow 10 (-(x - Int.ofNat fd.length)).toNat) := by
  obtain ⟨dot, hm⟩ := readMantissa_decimal ip fd ex v hI hId hFd hV hX
  generalize decimalText ip fd ex = body at hm hnc
  unfold Strconv.parseBody
  rcases body with _ | ⟨z, _ | ⟨y, _ | ⟨w, ws⟩⟩⟩
  · simp only [Bool.false_eq_true, if_false]
    rw [hm]
    simp only [Bool.true_eq_false, if_false, hex, hu]
  · simp only [Bool.false_eq_true, if_false]
    rw [hm]
    simp only [Bool.true_eq_false, if_false, hex, hu]
  · simp only [Bool.false_eq_true, if_false]
    rw [hm]
    simp only [Bool.true_eq_false, if_false, hex, hu]
  · have hy := (numberChar_facts y (hnc y (by simp))).2.2.2
    simp only [hy, and_false, decide_False, Bool.false_eq_true, if_false]
    rw [hm]
    simp only [Bool.true_eq_false, if_false, hex, hu]

theorem parseFloat_decimal (neg : Bool) (ip fd ex : List Char) (v : Nat) (x : Int)
    (hI : ip ≠ []) (hId : ∀ c ∈ ip, IsDigitChar c) (hFd : ∀ c ∈ fd, IsDigitChar c)
    (hV : Strconv.readDigits 0 (ip ++ fd) = some v)
    (hX : ex = [] ∨ ∃ rest, ex = 'e' :: rest) (hex : Strconv.readExp false ex = some x)
    (hnc : ∀ c ∈ decimalText ip fd ex, NumberChar c) :
    Strconv.parseFloat ⟨(if neg then ['-'] else []) ++ decimalText ip fd ex⟩
      = if 0 ≤ x - Int.ofNat fd.length then
          F64.ofRat neg (v * npow 10 (x - Int.ofNat fd.length).toNat) 1
        else F64.ofRat neg v (npow 10 (-(x - Int.ofNat fd.length)).toNat) := by
  obtain ⟨d, ds, hip⟩ : ∃ d ds, ip = d :: ds := by
    cases ip with
    | nil => exact absurd rfl hI
    | cons d ds => exact ⟨d, ds, rfl⟩
  have hd : IsDigitChar d := hId d (by rw [hip]; simp)
  have hbody : ∃ rest, decimalText ip fd ex = d :: rest := by
    unfold decimalText
    rw [hip]
    exact ⟨_, rfl⟩
  obtain ⟨rest, hrest⟩ := hbody
  have h43 : ¬ d = Char.ofNat 43 := digit_ne d hd 43 (by omega) (by omega)
  have h45 : ¬ d = Char.ofNat 45 := digit_ne d hd 45 (by omega) (by omega)
  cases neg with
  | false =>
    have hwhole : ∀ c ∈ decimalText ip fd ex, NumberChar c := hnc
    have hu := underscoreOK_clean _ hwhole
    have hpb := parseBody_decimal false ip fd ex _ v x hI hId hFd hV hX hex hnc hu
    simp only [Bool.false_eq_true, if_false, List.nil_append]
    unfold Strconv.parseFloat
    simp only
    rw [hrest] at hpb ⊢
    rw [special_digits d rest hd]
    simp only [h43, h45, if_false]
    exact hpb
  | true =>
    have hwhole : ∀ c ∈ '-' :: decimalText ip fd ex, NumberChar c := by
      intro c hc
      rcases List.mem_cons.1 hc with h | h
      · exact Or.inr (Or.inr (Or.inr (Or.inr h)))
      · exact hnc c h
    have hu := underscoreOK_clean _ hwhole
    have hpb := parseBody_decimal true ip fd ex _ v x hI hId hFd hV hX hex hnc hu
    simp only [if_true, List.singleton_append]
    unfold Strconv.parseFloat
    simp only
    rw [hrest] at hpb ⊢
    have hs := special_neg_digits d rest hd
    have e45 : '-' = Char.ofNat 45 := by decide
    rw [e45] at hpb ⊢
    rw [hs]
    have h4345 : ¬ (Char.ofNat 45 = Char.ofNat 43) := by decide
    simp only [h4345, if_false, if_true]
    exact hpb

theorem takeDigits_run : ∀ (ds tail : List Char), (∀ c ∈ ds, IsDigitChar c) →
    (∀ c rest, tail = c :: rest → Json.isDigit c = false) →
    Json.takeDigits (ds ++ tail) = (ds, tail)
  | [], tail, _, ht => by
    cases tail with
    | nil => rfl
    | cons c rest => simp [Json.takeDigits, ht c rest rfl]
  | c :: cs, tail, h, ht => by
    have hc := isDigit_of c (h c (List.mem_cons_self _ _))
    have := takeDigits_run cs tail (fun x hx => h x (List.mem_cons_of_mem _ hx)) ht
    simp [Json.takeDigits, hc, this]

theorem scanExp_exponent (s : Char) (ds : List Char) (hs : s = '+' ∨ s = '-') (hne : ds ≠ [])
    (hds : ∀ c ∈ ds, IsDigitChar c) :
    Json.scanExp ('e' :: s :: ds) = .ok ('e' :: s :: ds, []) := by
  unfold Json.scanExp
  have h := takeDigits_all ds hds
  simp only [true_or, if_true, hs, h, hne, if_false, List.singleton_append]

theorem scanFrac_decimal (fd ex : List Char) (hFd : ∀ c ∈ fd, IsDigitChar c)
    (hX : ex = [] ∨ ∃ rest, ex = 'e' :: rest) :
    Json.scanFrac (if fd = [] then ex else '.' :: (fd ++ ex))
      = .ok (if fd = [] then [] else '.' :: fd, ex) := by
  have htail : ∀ c rest, ex = c :: rest → Json.isDigit c = false := by
    intro c rest h
    rcases hX with h1 | ⟨r, h1⟩
    · rw [h1] at h; cases h
    · rw [h1] at h
      cases h
      decide
  by_cases hf : fd = []
  · rw [if_pos hf, if_pos hf]
    rcases hX with h1 | ⟨r, h1⟩
    · subst h1; rfl
    · subst h1
      unfold Json.scanFrac
      have : ¬ ('e' = '.') := by decide
      simp only [this, if_false]
  · rw [if_neg hf, if_neg hf]
    unfold Json.scanFrac
    simp only [if_true, takeDigits_run fd ex hFd htail, hf, if_false]

theorem scanNumber_decimal (neg : Bool) (ip fd ex : List Char)
    (hI : ip = ['0'] ∨ ∃ d ds, ip = d :: ds ∧ d ≠ '0')
    (hId : ∀ c ∈ ip, IsDigitChar c) (hFd : ∀ c ∈ fd, IsDigitChar c)
    (hX : ex = [] ∨ ∃ s ds, ex = 'e' :: s :: ds ∧ (s = '+' ∨ s = '-') ∧ ds ≠ [] ∧
      ∀ c ∈ ds, IsDigitChar c) :
    Json.scanNumber ((if neg then ['-'] else []) ++ decimalText ip fd ex)
      = .ok ((if neg then ['-'] else []) ++ decimalText ip fd ex, []) := by
  have hX1 : ex = [] ∨ ∃ rest, ex = 'e' :: rest := by
    rcases hX with h | ⟨s, ds, h, _⟩
    · exact Or.inl h
    · exact Or.inr ⟨_, h⟩
  have hfrac := scanFrac_decimal fd ex hFd hX1
  have hexp : Json.scanExp ex = .ok (ex, []) := by
    rcases hX with h | ⟨s, ds, h, hs, hne, hds⟩
    · subst h; rfl
    · subst h; exact scanExp_exponent s ds hs hne hds
  have htail : ∀ c rest, (if fd = [] then ex else '.' :: (fd ++ ex)) = c :: rest →
      Json.isDigit c = false := by
    intro c rest h
    by_cases hf : fd = []
    · rw [if_pos hf] at h
      rcases hX1 with h1 | ⟨r, h1⟩
      · rw [h1] at h; cases h
      · rw [h1] at h; cases h; decide
    · rw [if_neg hf] at h
      cases h
      decide
  have hint : Json.scanInt (decimalText ip fd ex)
      = .ok (ip, if fd = [] then ex else '.' :: (fd ++ ex)) := by
    unfold decimalText
    rcases hI with h | ⟨d, ds, h, hd0⟩
    · subst h
      simp only [List.singleton_append, Json.scanInt, if_true]
    · subst h
      have hd := isDigit_of d (hId d (List.mem_cons_self _ _))
      have hr := takeDigits_run ds _ (fun x hx => hId x (List.mem_cons_of_mem _ hx)) htail
      simp only [List.cons_append, Json.scanInt, hd0, if_false, hd, if_true, hr]
  obtain ⟨d, ds, hip⟩ : ∃ d ds, ip = d :: ds := by
    rcases hI with h | ⟨d, ds, h, _⟩
    · exact ⟨_, _, h⟩
    · exact ⟨_, _, h⟩
  have hdd : IsDigitChar d := hId d (by rw [hip]; simp)
  have hdm : ¬ d = '-' := digit_ne d hdd 45 (by omega) (by omega)
  have hhead : ∃ rest, decimalText ip fd ex = d :: rest := by
    unfold decimalText; rw [hip]; exact ⟨_, rfl⟩
  obtain ⟨rest, hrest⟩ := hhead
  have hout : ip ++ (if fd = [] then [] else '.' :: fd) ++ ex = decimalText ip fd ex := by
    unfold decimalText
    by_cases hf : fd = []
    · simp [hf]
    · simp [hf]
  cases neg with
  | false =>
    simp only [Bool.false_eq_true, if_false, List.nil_append]
    unfold Json.scanNumber
    rw [hrest]
    simp only [hdm, if_false]
    rw [← hrest, hint]
    simp only [hfrac, hexp, List.nil_append, hout]
  | true =>
    simp only [if_true, List.singleton_append]
    unfold Json.scanNumber
    simp only [if_true, hint, hfrac, hexp, List.singleton_append]
    rw [← hout]
    simp

theorem readDigits_le : ∀ (ds : List Char) (acc v : Nat),
    Strconv.readDigits acc ds = some v → acc * 10 ^ ds.length ≤ v
  | [], acc, v, h => by
    simp only [Strconv.readDigits, Option.some.injEq] at h
    subst h
    simp
  | c :: cs, acc, v, h => by
    rw [Strconv.readDigits] at h
    cases hd : Strconv.digitVal c with
    | none => rw [hd] at h; simp at h
    | some d =>
      rw [hd] at h
      have := readDigits_le cs _ v h
      rw [List.length_cons, pow_succ]
      calc acc * (10 ^ cs.length * 10) = acc * 10 * 10 ^ cs.length := by ring
        _ ≤ (acc * 10 + d) * 10 ^ cs.length := Nat.mul_le_mul_right _ (by omega)
        _ ≤ v := this

theorem readExponent_digits : ∀ (ds : List Char) (acc v : Nat), (∀ c ∈ ds, IsDigitChar c) →
    Strconv.readDigits acc ds = some v → v < 10000 → Strconv.readExponent acc ds = (v, [])
  | [], acc, v, _, h, _ => by
    simp only [Strconv.readDigits, Option.some.injEq] at h
    subst h
    rfl
  | c :: cs, acc, v, hall, h, hv => by
    have hc := hall c (List.mem_cons_self _ _)
    have hle := readDigits_le (c :: cs) acc v h
    have hacc : acc < 10000 := by
      have : acc * 1 ≤ acc * 10 ^ (c :: cs).length :=
        Nat.mul_le_mul_left _ (Nat.one_le_pow _ _ (by norm_num))
      omega
    rw [Strconv.readDigits, digitVal_of c hc] at h
    have h95 : ¬ c = Char.ofNat 95 := digit_ne c hc 95 (by omega) (by omega)
    rw [Strconv.readExponent]
    simp only [h95, if_false, digitVal_of c hc, hacc, if_true]
    exact readExponent_digits cs _ v (fun x hx => hall x (List.mem_cons_of_mem _ hx)) h hv

theorem readExp_exponent (x : Int) (hx : x.natAbs < 10000) :
    Strconv.readExp false
        ('e' :: (if x < 0 then '-' else '+') :: Strconv.natDigits x.natAbs) = some x := by
  obtain ⟨d, ds, hds, hall, _, _⟩ := natDigits_shape x.natAbs
  have hval := natDigits_value x.natAbs
  have hre := readExponent_digits _ 0 _ (by rw [hds]; exact hall) hval hx
  have hd := digitVal_of d (hall d (List.mem_cons_self _ _))
  unfold Strconv.readExp
  have hl : Strconv.lower 'e' = 101 := by decide
  simp only [hl, Bool.false_eq_true, if_false, if_true]
  by_cases hneg : x < 0
  · simp only [hneg, if_true]
    have h1 : ¬ ('-' = Char.ofNat 43) := by decide
    have h2 : '-' = Char.ofNat 45 := by decide
    simp only [h1, h2, if_false, if_true]
    rw [hds] at hre ⊢
    simp only [hd, Option.isSome_some, if_true, hre, Int.ofNat_eq_coe]
    congr 1
    omega
  · simp only [hneg, if_false]
    have h1 : '+' = Char.ofNat 43 := by decide
    simp only [h1, if_true]
    rw [hds] at hre ⊢
    simp only [hd, Option.isSome_some, if_true, hre, Int.ofNat_eq_coe, Bool.false_eq_true,
      if_false]
    congr 1
    omega

theorem readDigits_zeros : ∀ (k acc : Nat),
    Strconv.readDigits acc (List.replicate k '0') = some (acc * 10 ^ k)
  | 0, acc => by simp [Strconv.readDigits]
  | k + 1, acc => by
    have h0 : Strconv.digitVal '0' = some 0 := by decide
    rw [List.replicate_succ, Strconv.readDigits, h0]
    simp only [add_zero]
    rw [readDigits_zeros k (acc * 10), pow_succ]
    congr 1
    ring

theorem decimal_value (neg : Bool) (ip fd ex : List Char) (v : Nat) (x : Int)
    (hI : ip ≠ []) (hId : ∀ c ∈ ip, IsDigitChar c) (hFd : ∀ c ∈ fd, IsDigitChar c)
    (hV : Strconv.readDigits 0 (ip ++ fd) = some v)
    (hX : ex = [] ∨ ∃ rest, ex = 'e' :: rest) (hex : Strconv.readExp false ex = some x)
    (hnc : ∀ c ∈ decimalText ip fd ex, NumberChar c) :
    ∃ num den, 0 < den ∧
      Strconv.parseFloat ⟨(if neg then ['-'] else []) ++ decimalText ip fd ex⟩
        = F64.ofRat neg num den ∧
      (num : ℚ) = (v : ℚ) * (10 : ℚ) ^ (x - (fd.length : Int)) * den := by
  have h := parseFloat_decimal neg ip fd ex v x hI hId hFd hV hX hex hnc
  have h10 : (10 : ℚ) ≠ 0 := by norm_num
  simp only [Int.ofNat_eq_coe] at h
  by_cases hx : 0 ≤ x - (fd.length : Int)
  · rw [if_pos hx] at h
    refine ⟨_, 1, by norm_num, h, ?_⟩
    rw [npow_eq]
    push_cast
    have : ((x - (fd.length : Int)).toNat : Int) = x - (fd.length : Int) := Int.toNat_of_nonneg hx
    rw [← this, zpow_natCast]
    simp
  · rw [if_neg hx] at h
    obtain ⟨k, hk⟩ : ∃ k : Nat, (-(x - (fd.length : Int))).toNat = k := ⟨_, rfl⟩
    rw [hk] at h
    have e1 : x - (fd.length : Int) = -(k : Int) := by omega
    refine ⟨_, _, by rw [npow_eq]; positivity, h, ?_⟩
    rw [npow_eq, e1, zpow_neg, zpow_natCast]
    push_cast
    rw [mul_assoc, inv_mul_cancel₀ (by positivity), mul_one]

theorem numberChar_digit (c : Char) (h : IsDigitChar c) : NumberChar c := Or.inl h

theorem isDigitChar_zero : IsDigitChar '0' := ⟨by decide, by decide⟩

theorem layoutF_reads (neg : Bool) (d0 : Char) (ds : List Char) (n : Nat) (dp : Int)
    (hall : ∀ c ∈ d0 :: ds, IsDigitChar c) (h0 : d0 ≠ '0')
    (hN : Strconv.readDigits 0 (d0 :: ds) = some n) :
    Json.scanNumber ((if neg then ['-'] else []) ++ Json.layoutF (d0 :: ds) dp)
      = .ok ((if neg then ['-'] else []) ++ Json.layoutF (d0 :: ds) dp, []) ∧
    ∃ num den, 0 < den ∧
      Strconv.parseFloat ⟨(if neg then ['-'] else []) ++ Json.layoutF (d0 :: ds) dp⟩
        = F64.ofRat neg num den ∧
      (num : ℚ) = (n : ℚ) * (10 : ℚ) ^ (dp - ((ds.length + 1 : Nat) : Int)) * den := by
  have hexp0 : Strconv.readExp false [] = some 0 := rfl
  by_cases hpos : 0 < dp
  · obtain ⟨k, hk⟩ : ∃ k : Nat, dp.toNat = k + 1 := ⟨dp.toNat - 1, by omega⟩
    have hdp : dp = ((k + 1 : Nat) : Int) := by omega
    have htext : Json.layoutF (d0 :: ds) dp
        = decimalText ((d0 :: ds).take (k + 1) ++ List.replicate (k + 1 - (ds.length + 1)) '0')
            ((d0 :: ds).drop (k + 1)) [] := by
      unfold Json.layoutF decimalText
      rw [if_pos hpos]
      simp only [hk, List.length_cons, List.append_nil]
      split_ifs <;> simp
    have hip : (d0 :: ds).take (k + 1) ++ List.replicate (k + 1 - (ds.length + 1)) '0'
        = d0 :: (ds.take k ++ List.replicate (k + 1 - (ds.length + 1)) '0') := by
      simp
    have hId : ∀ c ∈ (d0 :: ds).take (k + 1) ++ List.replicate (k + 1 - (ds.length + 1)) '0',
        IsDigitChar c := by
      intro c hc
      rcases List.mem_append.1 hc with h | h
      · exact hall c (List.mem_of_mem_take h)
      · rw [(List.mem_replicate.1 h).2]; exact isDigitChar_zero
    have hFd : ∀ c ∈ (d0 :: ds).drop (k + 1), IsDigitChar c :=
      fun c hc => hall c (List.mem_of_mem_drop hc)
    have hnc : ∀ c ∈ decimalText
        ((d0 :: ds).take (k + 1) ++ List.replicate (k + 1 - (ds.length + 1)) '0')
        ((d0 :: ds).drop (k + 1)) [], NumberChar c := by
      intro c hc
      unfold decimalText at hc
      rcases List.mem_append.1 hc with h | h
      · exact numberChar_digit c (hId c h)
      · split_ifs at h
        · cases h
        · rcases List.mem_cons.1 h with h1 | h1
          · exact Or.inr (Or.inl h1)
          · rw [List.append_nil] at h1
            exact numberChar_digit c (hFd c h1)
    have hV : ∃ v, Strconv.readDigits 0
          (((d0 :: ds).take (k + 1) ++ List.replicate (k + 1 - (ds.length + 1)) '0')
            ++ (d0 :: ds).drop (k + 1)) = some v ∧
        (v : ℚ) * (10 : ℚ) ^ ((0 : Int) - (((d0 :: ds).drop (k + 1)).length : Int))
          = (n : ℚ) * (10 : ℚ) ^ (dp - ((ds.length + 1 : Nat) : Int)) := by
      by_cases hle : k + 1 ≤ ds.length + 1
      · refine ⟨n, ?_, ?_⟩
        · have : k + 1 - (ds.length + 1) = 0 := by omega
          rw [this, List.replicate_zero, List.append_nil, List.take_append_drop]
          exact hN
        · congr 2
          rw [List.length_drop, List.length_cons, hdp]
          omega
      · refine ⟨n * 10 ^ (k + 1 - (ds.length + 1)), ?_, ?_⟩
        · have h1 : (d0 :: ds).take (k + 1) = d0 :: ds :=
            List.take_of_length_le (by simp only [List.length_cons]; omega)
          have h2 : (d0 :: ds).drop (k + 1) = [] :=
            List.drop_of_length_le (by simp only [List.length_cons]; omega)
          rw [h1, h2, List.append_nil, readDigits_append, hN]
          exact readDigits_zeros _ _
        · have h2 : (d0 :: ds).drop (k + 1) = [] :=
            List.drop_of_length_le (by simp only [List.length_cons]; omega)
          rw [h2]
          simp only [List.length_nil, Nat.cast_zero, sub_zero, zpow_zero, mul_one]
          have : dp - ((ds.length + 1 : Nat) : Int) = ((k + 1 - (ds.length + 1) : Nat) : Int) := by
            omega
          rw [this, zpow_natCast]
          push_cast
          ring
    obtain ⟨v, hv1, hv2⟩ := hV
    rw [htext]
    refine ⟨scanNumber_decimal neg _ _ [] (Or.inr ⟨d0, _, hip, h0⟩) hId hFd (Or.inl rfl), ?_⟩
    obtain ⟨num, den, hden, hpf, hval⟩ := decimal_value neg _ _ [] v 0
      (by rw [hip]; simp) hId hFd hv1 (Or.inl rfl) hexp0 hnc
    exact ⟨num, den, hden, hpf, by rw [hval, hv2]⟩
  · obtain ⟨j, hj⟩ : ∃ j : Nat, (-dp).toNat = j := ⟨_, rfl⟩
    have hdp : dp = -(j : Int) := by omega
    have htext : Json.layoutF (d0 :: ds) dp
        = decimalText ['0'] (List.replicate j '0' ++ (d0 :: ds)) [] := by
      unfold Json.layoutF decimalText
      rw [if_neg hpos, hj]
      simp
    have hId : ∀ c ∈ ['0'], IsDigitChar c := by
      intro c hc
      rw [List.mem_singleton.1 hc]; exact isDigitChar_zero
    have hFd : ∀ c ∈ List.replicate j '0' ++ (d0 :: ds), IsDigitChar c := by
      intro c hc
      rcases List.mem_append.1 hc with h | h
      · rw [(List.mem_replicate.1 h).2]; exact isDigitChar_zero
      · exact hall c h
    have hnc : ∀ c ∈ decimalText ['0'] (List.replicate j '0' ++ (d0 :: ds)) [],
        NumberChar c := by
      intro c hc
      unfold decimalText at hc
      rcases List.mem_append.1 hc with h | h
      · exact numberChar_digit c (hId c h)
      · split_ifs at h
        · cases h
        · rcases List.mem_cons.1 h with h1 | h1
          · exact Or.inr (Or.inl h1)
          · rw [List.append_nil] at h1
            exact numberChar_digit c (hFd c h1)
    have hV : Strconv.readDigits 0 (['0'] ++ (List.replicate j '0' ++ (d0 :: ds))) = some n := by
      have : ['0'] ++ (List.replicate j '0' ++ (d0 :: ds))
          = List.replicate (j + 1) '0' ++ (d0 :: ds) := by
        rw [List.replicate_succ]; rfl
      rw [this, readDigits_append, readDigits_zeros]
      simpa using hN
    rw [htext]
    refine ⟨scanNumber_decimal neg _ _ [] (Or.inl rfl) hId hFd (Or.inl rfl), ?_⟩
    obtain ⟨num, den, hden, hpf, hval⟩ := decimal_value neg _ _ [] n 0
      (by simp) hId hFd hV (Or.inl rfl) hexp0 hnc
    refine ⟨num, den, hden, hpf, ?_⟩
    rw [hval]
    have : (0 : Int) - ((List.replicate j '0' ++ (d0 :: ds)).length : Int)
        = dp - ((ds.length + 1 : Nat) : Int) := by
      rw [List.length_append, List.length_replicate, List.length_cons, hdp]
      push_cast
      omega
    rw [this]

theorem layoutE_reads (neg : Bool) (d0 : Char) (ds : List Char) (n : Nat) (dp : Int)
    (hall : ∀ c ∈ d0 :: ds, IsDigitChar c)
    (hN : Strconv.readDigits 0 (d0 :: ds) = some n) (hdp : (dp - 1).natAbs < 10000) :
    Json.scanNumber ((if neg then ['-'] else []) ++ Json.layoutE (d0 :: ds) dp)
      = .ok ((if neg then ['-'] else []) ++ Json.layoutE (d0 :: ds) dp, []) ∧
    ∃ num den, 0 < den ∧
      Strconv.parseFloat ⟨(if neg then ['-'] else []) ++ Json.layoutE (d0 :: ds) dp⟩
        = F64.ofRat neg num den ∧
      (num : ℚ) = (n : ℚ) * (10 : ℚ) ^ (dp - ((ds.length + 1 : Nat) : Int)) * den := by
  have htext : Json.layoutE (d0 :: ds) dp
      = decimalText [d0] ds
          ('e' :: (if dp - 1 < 0 then '-' else '+') :: Strconv.natDigits (dp - 1).natAbs) := by
    unfold Json.layoutE decimalText
    cases ds with
    | nil => simp
    | cons a b => simp
  obtain ⟨x0, xs, hxs, hxall, _, _⟩ := natDigits_shape (dp - 1).natAbs
  have hId : ∀ c ∈ [d0], IsDigitChar c := by
    intro c hc
    rw [List.mem_singleton.1 hc]; exact hall d0 (List.mem_cons_self _ _)
  have hFd : ∀ c ∈ ds, IsDigitChar c := fun c hc => hall c (List.mem_cons_of_mem _ hc)
  have hsgn : (if dp - 1 < 0 then '-' else '+') = '+' ∨ (if dp - 1 < 0 then '-' else '+') = '-' := by
    split_ifs
    · exact Or.inr rfl
    · exact Or.inl rfl
  have hnc : ∀ c ∈ decimalText [d0] ds
      ('e' :: (if dp - 1 < 0 then '-' else '+') :: Strconv.natDigits (dp - 1).natAbs),
      NumberChar c := by
    have hexc : ∀ c ∈ 'e' :: (if dp - 1 < 0 then '-' else '+')
        :: Strconv.natDigits (dp - 1).natAbs, NumberChar c := by
      intro c hc
      rcases List.mem_cons.1 hc with h | h
      · exact Or.inr (Or.inr (Or.inl h))
      · rcases List.mem_cons.1 h with h1 | h1
        · rcases hsgn with h2 | h2
          · rw [h2] at h1; exact Or.inr (Or.inr (Or.inr (Or.inl h1)))
          · rw [h2] at h1; exact Or.inr (Or.inr (Or.inr (Or.inr h1)))
        · rw [hxs] at h1
          exact numberChar_digit c (hxall c h1)
    intro c hc
    unfold decimalText at hc
    rcases List.mem_append.1 hc with h | h
    · exact numberChar_digit c (hId c h)
    · by_cases hds : ds = []
      · rw [if_pos hds] at h
        exact hexc c h
      · rw [if_neg hds] at h
        rcases List.mem_cons.1 h with h1 | h1
        · exact Or.inr (Or.inl h1)
        · rcases List.mem_append.1 h1 with h2 | h2
          · exact numberChar_digit c (hFd c h2)
          · exact hexc c h2
  rw [htext]
  refine ⟨scanNumber_decimal neg _ _ _ ?_ hId hFd
    (Or.inr ⟨_, _, rfl, hsgn, by rw [hxs]; simp, by rw [hxs]; exact hxall⟩), ?_⟩
  · by_cases hz : d0 = '0'
    · exact Or.inl (by rw [hz])
    · exact Or.inr ⟨d0, [], rfl, hz⟩
  obtain ⟨num, den, hden, hpf, hval⟩ := decimal_value neg [d0] ds _ n (dp - 1)
    (by simp) hId hFd hN (Or.inr ⟨_, rfl⟩) (readExp_exponent (dp - 1) hdp) hnc
  refine ⟨num, den, hden, hpf, ?_⟩
  rw [hval]
  have : dp - 1 - (ds.length : Int) = dp - ((ds.length + 1 : Nat) : Int) := by
    push_cast; omega
  rw [this]

theorem dropZeros_spec : ∀ l : List Char, ∃ z, l = List.replicate z '0' ++ Json.dropZeros l
  | [] => ⟨0, rfl⟩
  | c :: cs => by
    obtain ⟨z, hz⟩ := dropZeros_spec cs
    rw [Json.dropZeros]
    by_cases hc : c = '0'
    · rw [if_pos hc]
      refine ⟨z + 1, ?_⟩
      rw [List.replicate_succ, List.cons_append, ← hz, hc]
    · rw [if_neg hc]
      exact ⟨0, rfl⟩

theorem stripped_spec (r : Nat) (hr : r ≠ 0) :
    ∃ d0 ds z n, (Json.dropZeros (Strconv.natDigits r).reverse).reverse = d0 :: ds ∧
      (∀ c ∈ d0 :: ds, IsDigitChar c) ∧ d0 ≠ '0' ∧
      Strconv.readDigits 0 (d0 :: ds) = some n ∧ r = n * 10 ^ z ∧
      (Strconv.natDigits r).length = ds.length + 1 + z ∧
      10 ^ (ds.length + z) ≤ r := by
  obtain ⟨d, rest, hshape, hall, hd0, _⟩ := natDigits_shape r
  have hval := natDigits_value r
  obtain ⟨z, hz⟩ := dropZeros_spec (Strconv.natDigits r).reverse
  have hfull : Strconv.natDigits r
      = (Json.dropZeros (Strconv.natDigits r).reverse).reverse ++ List.replicate z '0' := by
    have := congrArg List.reverse hz
    rw [List.reverse_reverse, List.reverse_append, List.reverse_replicate] at this
    exact this
  generalize (Json.dropZeros (Strconv.natDigits r).reverse).reverse = s at hfull
  cases s with
  | nil =>
    rw [List.nil_append, hshape] at hfull
    cases z with
    | zero => cases hfull
    | succ k =>
      rw [List.replicate_succ] at hfull
      have := (List.cons.inj hfull).1
      exact absurd this (hd0 hr)
  | cons d0 ds =>
    have hsub : ∀ c ∈ d0 :: ds, IsDigitChar c := by
      intro c hc
      apply hall c
      rw [← hshape, hfull]
      exact List.mem_append_left _ hc
    have hhead : d0 = d := by
      rw [hshape, List.cons_append] at hfull
      exact (List.cons.inj hfull).1.symm
    obtain ⟨n, hn⟩ := readDigits_some (d0 :: ds) 0 hsub
    have hrn : r = n * 10 ^ z := by
      rw [hfull, readDigits_append, hn] at hval
      change Strconv.readDigits n (List.replicate z '0') = some r at hval
      rw [readDigits_zeros] at hval
      exact (Option.some.inj hval).symm
    have hlen : (Strconv.natDigits r).length = ds.length + 1 + z := by
      rw [hfull, List.length_append, List.length_cons, List.length_replicate]
    have hlow : 10 ^ (ds.length + z) ≤ r := by
      have hdv : Strconv.digitVal d0 = some (d0.toNat - 48) :=
        digitVal_of d0 (hsub d0 (List.mem_cons_self _ _))
      have hge : 1 ≤ d0.toNat - 48 := by
        have h1 := hsub d0 (List.mem_cons_self _ _)
        unfold IsDigitChar at h1
        have h2 : d0 ≠ '0' := by rw [hhead]; exact hd0 hr
        have h3 : d0.toNat ≠ 48 := by
          intro h
          apply h2
          apply char_eq_of_toNat_eq
          rw [h]; rfl
        omega
      rw [Strconv.readDigits, hdv] at hn
      have h4 := readDigits_le ds _ n hn
      have h5 : 1 * 10 ^ ds.length ≤ (0 * 10 + (d0.toNat - 48)) * 10 ^ ds.length :=
        Nat.mul_le_mul_right _ (by omega)
      rw [hrn, pow_add]
      have h6 : 10 ^ ds.length ≤ n := by omega
      exact Nat.mul_le_mul_right _ h6
    exact ⟨d0, ds, z, n, rfl, hsub, by rw [hhead]; exact hd0 hr, hn, hrn, hlen, hlow⟩

theorem scale_cast (g : Int) :
    (((1 <<< g.toNat) * npow 5 (-g).toNat : Nat) : ℚ)
      = (2 : ℚ) ^ g * (10 : ℚ) ^ (-g).toNat := by
  rw [Nat.shiftLeft_eq, npow_eq]
  push_cast
  rw [← two_zpow_split g]
  have : (10 : ℚ) ^ (-g).toNat = 2 ^ (-g).toNat * 5 ^ (-g).toNat := by
    rw [← mul_pow]; norm_num
  rw [this]
  ring

theorem pow_le_pow_ten (b k bound : Nat) (hb : b ≤ 10) (hk : k ≤ bound) :
    b ^ k ≤ 10 ^ bound :=
  le_trans (Nat.pow_le_pow_left hb _) (Nat.pow_le_pow_right (by norm_num) hk)

theorem lt_of_pow_ten_lt (a b : Nat) (h : 10 ^ a < 10 ^ b) : a < b :=
  (Nat.pow_lt_pow_iff_right (by norm_num)).1 h

theorem shortest_unfold (m : Nat) (e : Int) (p scale lo hi r : Nat)
    (hp : p = (-(e - 2)).toNat) (hscale : scale = (1 <<< (e - 2).toNat) * npow 5 p)
    (hlo : lo = (if m = 1 <<< 52 ∧ -1074 < e then 4 * m - 1 else 4 * m - 2) * scale)
    (hhi : hi = (4 * m + 2) * scale)
    (hr : r = Json.shortestSearch (4 * m * scale) lo hi (m % 2 == 0)
      ((Strconv.natDigits hi).length - 1)) :
    Json.shortest m e = ((Json.dropZeros (Strconv.natDigits r).reverse).reverse,
      Int.ofNat (Strconv.natDigits r).length - Int.ofNat p) := by
  subst hp hscale hlo hhi hr
  rfl

theorem shortest_spec (m : Nat) (e : Int) (hm0 : 0 < m) (hm : m < 2 ^ 53) (he1 : -1074 ≤ e)
    (he2 : e ≤ 971) (c : ℚ) (hc : c = if m = 2 ^ 52 ∧ -1074 < e then 1 else 2) :
    ∃ d0 ds n, (Json.shortest m e).1 = d0 :: ds ∧ (∀ x ∈ d0 :: ds, IsDigitChar x) ∧ d0 ≠ '0' ∧
      Strconv.readDigits 0 (d0 :: ds) = some n ∧ ((Json.shortest m e).2 - 1).natAbs < 10000 ∧
      ((4 * (m : ℚ) - c) * (2 : ℚ) ^ (e - 2)
          < n * (10 : ℚ) ^ ((Json.shortest m e).2 - ((ds.length + 1 : Nat) : Int)) ∨
        (m % 2 = 0 ∧ (4 * (m : ℚ) - c) * (2 : ℚ) ^ (e - 2)
          = n * (10 : ℚ) ^ ((Json.shortest m e).2 - ((ds.length + 1 : Nat) : Int)))) ∧
      ((n : ℚ) * (10 : ℚ) ^ ((Json.shortest m e).2 - ((ds.length + 1 : Nat) : Int))
          < (4 * (m : ℚ) + 2) * (2 : ℚ) ^ (e - 2) ∨
        (m % 2 = 0 ∧ (n : ℚ) * (10 : ℚ) ^ ((Json.shortest m e).2 - ((ds.length + 1 : Nat) : Int))
          = (4 * (m : ℚ) + 2) * (2 : ℚ) ^ (e - 2))) := by
  obtain ⟨p, hp⟩ : ∃ p, p = (-(e - 2)).toNat := ⟨_, rfl⟩
  obtain ⟨scale, hscale⟩ : ∃ s, s = (1 <<< (e - 2).toNat) * npow 5 p := ⟨_, rfl⟩
  obtain ⟨cn, hcn⟩ : ∃ cn : Nat, cn = if m = 1 <<< 52 ∧ -1074 < e then 1 else 2 := ⟨_, rfl⟩
  have h52 : (1 <<< 52 : Nat) = 2 ^ 52 := by decide
  have hcn12 : cn = 1 ∨ cn = 2 := by
    rw [hcn]; split_ifs
    · exact Or.inl rfl
    · exact Or.inr rfl
  have hcq : (cn : ℚ) = c := by
    rw [hcn, hc, h52]
    split_ifs <;> norm_num
  obtain ⟨lo, hlo⟩ : ∃ lo, lo = (4 * m - cn) * scale := ⟨_, rfl⟩
  have hlo2 : lo = (if m = 1 <<< 52 ∧ -1074 < e then 4 * m - 1 else 4 * m - 2) * scale := by
    rw [hlo, hcn]
    split_ifs <;> rfl
  obtain ⟨hi, hhi⟩ : ∃ hi, hi = (4 * m + 2) * scale := ⟨_, rfl⟩
  obtain ⟨r, hr⟩ : ∃ r, r = Json.shortestSearch (4 * m * scale) lo hi (m % 2 == 0)
      ((Strconv.natDigits hi).length - 1) := ⟨_, rfl⟩
  have hun := shortest_unfold m e p scale lo hi r hp hscale hlo2 hhi hr
  have hspos : 0 < scale := by
    rw [hscale, Nat.shiftLeft_eq, npow_eq]; positivity
  have hsq : (scale : ℚ) = (2 : ℚ) ^ (e - 2) * (10 : ℚ) ^ p := by
    rw [hscale, hp]; exact scale_cast (e - 2)
  have hloF : lo < 4 * m * scale := by
    rw [hlo]; exact Nat.mul_lt_mul_of_pos_right (by omega) hspos
  have hFhi : 4 * m * scale < hi := by
    rw [hhi]; exact Nat.mul_lt_mul_of_pos_right (by omega) hspos
  have hb := shortestSearch_bounds (4 * m * scale) lo hi (m % 2 == 0) hloF hFhi
    ((Strconv.natDigits hi).length - 1)
  rw [← hr] at hb
  have hincl : (m % 2 == 0) = true → m % 2 = 0 := fun h => by simpa using h
  have hlopos : 0 < lo := by
    rw [hlo]; exact Nat.mul_pos (by omega) hspos
  have hrlo : lo ≤ r := by
    rcases hb.1 with h | h
    · exact h.le
    · exact h.2.ge
  have hrhi : r ≤ hi := by
    rcases hb.2 with h | h
    · exact h.le
    · exact h.2.le
  obtain ⟨d0, ds, z, n, hstr, hall, hd0, hn, hrn, hlen, hlow⟩ := stripped_spec r (by omega)
  rw [hun]
  simp only [Int.ofNat_eq_coe]
  refine ⟨d0, ds, n, hstr, hall, hd0, hn, ?_, ?_, ?_⟩
  · -- the exponent has fewer than five digits
    have hpb : p ≤ 1076 := by omega
    have hab : (e - 2).toNat ≤ 969 := by omega
    have hhib : hi < 10 ^ 2100 := by
      rw [hhi, hscale, Nat.shiftLeft_eq, npow_eq, one_mul]
      have h1 : 4 * m + 2 < 10 ^ 55 := by
        have : (2 : Nat) ^ 55 ≤ 10 ^ 55 := Nat.pow_le_pow_left (by norm_num) 55
        have h2 : (2 : Nat) ^ 55 = 4 * 2 ^ 53 := by norm_num
        omega
      have h2 : (2 : Nat) ^ (e - 2).toNat ≤ 10 ^ 969 := pow_le_pow_ten 2 _ 969 (by norm_num) hab
      have h3 : (5 : Nat) ^ p ≤ 10 ^ 1076 := pow_le_pow_ten 5 _ 1076 (by norm_num) hpb
      calc (4 * m + 2) * (2 ^ (e - 2).toNat * 5 ^ p)
          < 10 ^ 55 * (10 ^ 969 * 10 ^ 1076) :=
            Nat.mul_lt_mul_of_lt_of_le h1 (Nat.mul_le_mul h2 h3) (by positivity)
        _ = 10 ^ 2100 := by rw [← pow_add, ← pow_add]
    have hlt : 10 ^ (ds.length + z) < 10 ^ 2100 := lt_of_le_of_lt hlow (lt_of_le_of_lt hrhi hhib)
    have hlen2 : ds.length + z < 2100 := lt_of_pow_ten_lt _ _ hlt
    rw [hlen]
    omega
  · have hT : (0 : ℚ) < (10 : ℚ) ^ p := by positivity
    have hXT : (n : ℚ) * (10 : ℚ) ^ (((Strconv.natDigits r).length : Int) - (p : Int)
        - ((ds.length + 1 : Nat) : Int)) * (10 : ℚ) ^ p = r := by
      have hexp : ((Strconv.natDigits r).length : Int) - (p : Int) - ((ds.length + 1 : Nat) : Int)
          = (z : Int) - (p : Int) := by rw [hlen]; push_cast; ring
      rw [hexp, zpow_sub₀ (by norm_num), zpow_natCast, zpow_natCast, hrn]
      push_cast
      field_simp
    have hloq : ((lo : Nat) : ℚ) = (4 * (m : ℚ) - c) * (2 : ℚ) ^ (e - 2) * (10 : ℚ) ^ p := by
      rw [hlo, ← hcq]
      have : cn ≤ 4 * m := by omega
      push_cast [Nat.cast_sub this]
      rw [hsq]
      ring
    rcases hb.1 with h | ⟨h1, h2⟩
    · left
      have hq : ((lo : Nat) : ℚ) < (r : ℚ) := by exact_mod_cast h
      rw [hloq, ← hXT] at hq
      exact lt_of_mul_lt_mul_right hq hT.le
    · right
      refine ⟨hincl h1, ?_⟩
      have hq : ((lo : Nat) : ℚ) = (r : ℚ) := by rw [h2]
      rw [hloq, ← hXT] at hq
      exact mul_right_cancel₀ hT.ne' hq
  · have hT : (0 : ℚ) < (10 : ℚ) ^ p := by positivity
    have hXT : (n : ℚ) * (10 : ℚ) ^ (((Strconv.natDigits r).length : Int) - (p : Int)
        - ((ds.length + 1 : Nat) : Int)) * (10 : ℚ) ^ p = r := by
      have hexp : ((Strconv.natDigits r).length : Int) - (p : Int) - ((ds.length + 1 : Nat) : Int)
          = (z : Int) - (p : Int) := by rw [hlen]; push_cast; ring
      rw [hexp, zpow_sub₀ (by norm_num), zpow_natCast, zpow_natCast, hrn]
      push_cast
      field_simp
    have hhiq : ((hi : Nat) : ℚ) = (4 * (m : ℚ) + 2) * (2 : ℚ) ^ (e - 2) * (10 : ℚ) ^ p := by
      rw [hhi]
      push_cast
      rw [hsq]
      ring
    rcases hb.2 with h | ⟨h1, h2⟩
    · left
      have hq : (r : ℚ) < ((hi : Nat) : ℚ) := by exact_mod_cast h
      rw [hhiq, ← hXT] at hq
      exact lt_of_mul_lt_mul_right hq hT.le
    · right
      refine ⟨hincl h1, ?_⟩
      have hq : (r : ℚ) = ((hi : Nat) : ℚ) := by rw [h2]
      rw [hhiq, ← hXT] at hq
      exact mul_right_cancel₀ hT.ne' hq

theorem ofRat_near (neg : Bool) (num den m : Nat) (e : Int) (c x : ℚ) (hden : 0 < den)
    (hm0 : 0 < m) (hm : m < 2 ^ 53) (hsub : m < 2 ^ 52 → e = -1074) (he : -1074 ≤ e)
    (he2 : e ≤ 971) (hc : c = if m = 2 ^ 52 ∧ -1074 < e then 1 else 2)
    (hx : (num : ℚ) = x * den)
    (hlo : (4 * (m : ℚ) - c) * (2 : ℚ) ^ (e - 2) < x ∨
      (m % 2 = 0 ∧ (4 * (m : ℚ) - c) * (2 : ℚ) ^ (e - 2) = x))
    (hhi : x < (4 * (m : ℚ) + 2) * (2 : ℚ) ^ (e - 2) ∨
      (m % 2 = 0 ∧ x = (4 * (m : ℚ) + 2) * (2 : ℚ) ^ (e - 2))) :
    F64.ofRat neg num den = some (F64.fin neg m e) := by
  have hdq : (0 : ℚ) < den := by exact_mod_cast hden
  have hc12 : c ≤ 2 := by
    rw [hc]; split_ifs <;> norm_num
  have hmq : (1 : ℚ) ≤ m := by exact_mod_cast hm0
  have hxpos : 0 < x := by
    have h1 : 0 < (4 * (m : ℚ) - c) * (2 : ℚ) ^ (e - 2) :=
      mul_pos (by linarith) (by positivity)
    rcases hlo with h | h
    · linarith
    · linarith [h.2]
  have hnum : 0 < num := by
    have : (0 : ℚ) < num := by rw [hx]; exact mul_pos hxpos hdq
    exact_mod_cast this
  have hc' : (c = 1 ∧ m = 2 ^ 52 ∧ -1074 < e) ∨ (c = 2 ∧ ¬ (m = 2 ^ 52 ∧ -1074 < e)) := by
    by_cases hcond : m = 2 ^ 52 ∧ -1074 < e
    · left; rw [hc, if_pos hcond]; exact ⟨rfl, hcond⟩
    · right; rw [hc, if_neg hcond]; exact ⟨rfl, hcond⟩
  have hr := roundPos_near num den m e c hnum hden hm0 hm hsub he hc'
    (by
      rw [hx]
      rcases hlo with h | ⟨h1, h2⟩
      · exact Or.inl (mul_lt_mul_of_pos_right h hdq)
      · exact Or.inr ⟨h1, by rw [h2]⟩)
    (by
      rw [hx]
      rcases hhi with h | ⟨h1, h2⟩
      · exact Or.inl (mul_lt_mul_of_pos_right h hdq)
      · exact Or.inr ⟨h1, by rw [h2]⟩)
  unfold F64.ofRat
  rw [if_neg (by omega), hr]
  simp only
  rw [if_neg (by omega)]

theorem encodeFloat_reads (f : F64) (hwf : F64.WF f) (text : List Char)
    (henc : Json.encodeFloat f = .ok text) :
    Json.scanNumber text = .ok (text, []) ∧ Strconv.parseFloat ⟨text⟩ = some f := by
  cases f with
  | nan => simp [Json.encodeFloat] at henc
  | inf s => simp [Json.encodeFloat] at henc
  | fin neg m e =>
    obtain ⟨hm, he1, he2, hsub⟩ := hwf
    unfold Json.encodeFloat at henc
    simp only at henc
    by_cases hm0 : m = 0
    · rw [if_pos hm0] at henc
      have he : e = -1074 := hsub (by rw [hm0]; norm_num)
      subst hm0
      subst he
      cases henc
      cases neg
      · exact ⟨rfl, rfl⟩
      · exact ⟨rfl, rfl⟩
    · rw [if_neg hm0] at henc
      obtain ⟨d0, ds, n, hd, hall, hd0, hn, hdp, hlo, hhi⟩ :=
        shortest_spec m e (Nat.pos_of_ne_zero hm0) hm he1 he2 _ rfl
      rw [hd] at henc
      by_cases hl : F64.absLt (F64.fin neg m e) Json.small = true ∨
          ¬ F64.absLt (F64.fin neg m e) Json.large = true
      · rw [if_pos hl] at henc
        cases henc
        obtain ⟨hscan, num, den, hden, hpf, hval⟩ :=
          layoutE_reads neg d0 ds n (Json.shortest m e).2 hall hn hdp
        exact ⟨hscan, by
          rw [hpf]
          exact ofRat_near neg num den m e _ _ hden (Nat.pos_of_ne_zero hm0) hm hsub he1 he2
            rfl hval hlo hhi⟩
      · rw [if_neg hl] at henc
        cases henc
        obtain ⟨hscan, num, den, hden, hpf, hval⟩ :=
          layoutF_reads neg d0 ds n (Json.shortest m e).2 hall hd0 hn
        exact ⟨hscan, by
          rw [hpf]
          exact ofRat_near neg num den m e _ _ hden (Nat.pos_of_ne_zero hm0) hm hsub he1 he2
            rfl hval hlo hhi⟩

theorem scaled_le_iff (c num den : Nat) (E : Int) :
    c * (den <<< E.toNat) ≤ 2 * (num <<< (-E).toNat)
      ↔ (c : ℚ) * (2 : ℚ) ^ E * den ≤ 2 * num := by
  rw [← not_lt, ← not_lt, scaled_gt_iff]

theorem roundPos_wf (num den : Nat) (hnum : 0 < num) (hden : 0 < den) :
    (F64.roundPos num den).1 < 2 ^ 53 ∧ -1074 ≤ (F64.roundPos num den).2 ∧
      ((F64.roundPos num den).1 < 2 ^ 52 → (F64.roundPos num den).2 = -1074) := by
  have h2 : (2 : ℚ) ≠ 0 := by norm_num
  obtain ⟨hL1, hL2⟩ := floorLog2_spec num den hnum hden
  have hdq : (0 : ℚ) < den := by exact_mod_cast hden
  obtain ⟨E, hE⟩ : ∃ E, E = max (F64.floorLog2 num den - 52) (-1074) := ⟨_, rfl⟩
  have hd : 0 < den <<< E.toNat := by rw [Nat.shiftLeft_eq]; positivity
  -- the quotient is below 2^53
  have hup : 2 * (num <<< (-E).toNat) < 2 ^ 54 * (den <<< E.toNat) := by
    rw [scaled_gt_iff]
    have hle : F64.floorLog2 num den + 1 ≤ E + 53 := by omega
    have hp : (2 : ℚ) ^ (F64.floorLog2 num den + 1) ≤ (2 : ℚ) ^ (E + 53) :=
      zpow_le_zpow_right₀ (by norm_num) hle
    have e1 : (2 : ℚ) ^ (E + 53) = (2 : ℚ) ^ E * 2 ^ 53 := by
      rw [zpow_add₀ h2]; norm_num
    have h3 : (num : ℚ) < (2 : ℚ) ^ E * 2 ^ 53 * den := by
      calc (num : ℚ) < (2 : ℚ) ^ (F64.floorLog2 num den + 1) * den := hL2
        _ ≤ (2 : ℚ) ^ (E + 53) * den := mul_le_mul_of_nonneg_right hp hdq.le
        _ = (2 : ℚ) ^ E * 2 ^ 53 * den := by rw [e1]
    push_cast
    linarith
  have hq : num <<< (-E).toNat / den <<< E.toNat < 2 ^ 53 := by
    rw [Nat.div_lt_iff_lt_mul hd]
    omega
  -- above the lowest exponent the quotient is at least 2^52
  have hlow : -1074 < E → 2 ^ 52 ≤ num <<< (-E).toNat / den <<< E.toNat := by
    intro hgt
    have hEL : E = F64.floorLog2 num den - 52 := by omega
    rw [Nat.le_div_iff_mul_le hd]
    have h3 : 2 ^ 53 * (den <<< E.toNat) ≤ 2 * (num <<< (-E).toNat) := by
      rw [scaled_le_iff]
      have e1 : (2 : ℚ) ^ (F64.floorLog2 num den) = (2 : ℚ) ^ E * 2 ^ 52 := by
        rw [hEL, ← zpow_natCast, ← zpow_add₀ h2]
        congr 1
        push_cast
        ring
      rw [e1] at hL1
      push_cast
      linarith
    omega
  unfold F64.roundPos
  simp only [← hE]
  generalize hqq : num <<< (-E).toNat / den <<< E.toNat = q at hq hlow
  generalize num <<< (-E).toNat % den <<< E.toNat = r
  have h53 : (1 <<< 53 : Nat) = 2 ^ 53 := by decide
  have h52 : (1 <<< 52 : Nat) = 2 ^ 52 := by decide
  rw [h53, h52]
  have hE1 : -1074 ≤ E := by omega
  split_ifs with h1 h2 h3
  · exact ⟨by norm_num, by omega, fun h => absurd h (by norm_num)⟩
  · refine ⟨by omega, hE1, fun h => ?_⟩
    by_contra hne
    have := hlow (by omega)
    omega
  · omega
  · refine ⟨hq, hE1, fun h => ?_⟩
    by_contra hne
    have := hlow (by omega)
    omega

theorem ofRat_wf (neg : Bool) (num den : Nat) (hden : 0 < den) (f : F64)
    (h : F64.ofRat neg num den = some f) : F64.WF f := by
  unfold F64.ofRat at h
  simp only at h
  split_ifs at h with h0 h1
  · cases h
    exact ⟨by norm_num, by norm_num, by norm_num, fun _ => rfl⟩
  · simp only [Option.some.injEq] at h
    subst h
    obtain ⟨ha, hb, hc⟩ := roundPos_wf num den (Nat.pos_of_ne_zero h0) hden
    exact ⟨ha, hb, by omega, hc⟩

theorem npow_pos (b k : Nat) (hb : 0 < b) : 0 < npow b k := by
  rw [npow_eq]; positivity

theorem parseBody_form (neg : Bool) (body whole : List Char) (f : F64)
    (h : Strconv.parseBody neg body whole = some f) :
    ∃ num den, 0 < den ∧ F64.ofRat neg num den = some f := by
  unfold Strconv.parseBody at h
  simp only at h
  split_ifs at h
  all_goals try split at h
  all_goals try split_ifs at h
  · contradiction
  · contradiction
  · contradiction
  · exact ⟨_, 1, by norm_num, h⟩
  · exact ⟨_, _, npow_pos _ _ (by norm_num), h⟩
  · contradiction
  · contradiction
  · contradiction
  · exact ⟨_, 1, by norm_num, h⟩
  · exact ⟨_, _, npow_pos _ _ (by norm_num), h⟩

theorem parseBody_wf (neg : Bool) (body whole : List Char) (f : F64)
    (h : Strconv.parseBody neg body whole = some f) : F64.WF f := by
  obtain ⟨num, den, hden, h1⟩ := parseBody_form neg body whole f h
  exact ofRat_wf neg num den hden f h1

theorem parseFloat_wf (s : String) (f : F64) (h : Strconv.parseFloat s = some f) :
    F64.WF f := by
  unfold Strconv.parseFloat at h
  split at h
  · rename_i g hg
    simp only [Option.some.injEq] at h
    subst h
    unfold Strconv.special at hg
    split at hg
    · simp at hg
    · split_ifs at hg <;> simp only [Option.some.injEq] at hg <;> subst hg <;> trivial
  · split at h
    · simp at h
    · split_ifs at h
      · exact parseBody_wf _ _ _ f h
      · exact parseBody_wf _ _ _ f h
      · exact parseBody_wf _ _ _ f h

/-! ## The decoder on the output of the encoder -/

theorem valueHead_of_number (c : Char) (h : c = '-' ∨ Json.isDigit c = true) : ValueHead c := by
  rcases h with h | h
  · subst h; exact ⟨by decide, by decide, by decide⟩
  · have hd : 48 ≤ c.toNat ∧ c.toNat ≤ 57 := by simpa [Json.isDigit] using h
    refine ⟨(numberHead_facts c (Or.inr h)).1, digit_ne c hd 93 (by omega) (by omega),
      digit_ne c hd 125 (by omega) (by omega)⟩

theorem floatReadsBack_spec (f : F64) (h : floatReadsBack f = true) :
    ∃ text, Json.encodeFloat f = .ok text ∧ Json.scanNumber text = .ok (text, [])
      ∧ Strconv.parseFloat ⟨text⟩ = some f := by
  unfold floatReadsBack at h
  cases he : Json.encodeFloat f with
  | error err => simp [he] at h
  | ok text =>
    rw [he] at h
    simp only [Bool.and_eq_true, beq_iff_eq] at h
    refine ⟨text, rfl, ?_, h.2⟩
    cases hs : Json.scanNumber text with
    | error err => simp [hs] at h
    | ok p =>
      obtain ⟨t, r⟩ := p
      rw [hs] at h
      simp only [Bool.and_eq_true, beq_iff_eq, List.isEmpty_iff] at h
      rw [h.1.1, h.1.2]

theorem escapeChar_length (c : Char) : 1 ≤ (Json.escapeChar c).length := by
  unfold Json.escapeChar
  simp only
  split_ifs <;> simp

theorem escapeChars_length : ∀ s : List Char, s.length ≤ (Json.escapeChars s).length
  | [] => by simp [Json.escapeChars]
  | c :: cs => by
    have h1 := escapeChar_length c
    have h2 := escapeChars_length cs
    simp only [Json.escapeChars, List.length_append, List.length_cons]
    omega

theorem encodeString_length (s : String) : s.data.length + 2 ≤ (Json.encodeString s).length := by
  have := escapeChars_length s.data
  simp only [Json.encodeString, List.length_cons, List.length_append, List.length_nil]
  omega

theorem encodeValue_head (v : GoValue) (enc : List Char) (henc : Json.encodeValue v = .ok enc)
    (hrb : readsBack v = true) : ∃ c cs, enc = c :: cs ∧ ValueHead c := by
  cases v with
  | nil =>
    rw [Json.encodeValue] at henc
    cases henc
    exact ⟨'n', _, rfl, by decide, by decide, by decide⟩
  | bool b =>
    rw [Json.encodeValue] at henc
    cases henc
    cases b
    · exact ⟨'f', _, rfl, by decide, by decide, by decide⟩
    · exact ⟨'t', _, rfl, by decide, by decide, by decide⟩
  | str s =>
    rw [Json.encodeValue] at henc
    cases henc
    exact ⟨Char.ofNat 34, _, rfl, by decide, by decide, by decide⟩
  | float64 f =>
    rw [Json.encodeValue] at henc
    rw [readsBack] at hrb
    obtain ⟨text, h1, h2, _⟩ := floatReadsBack_spec f hrb
    rw [h1] at henc
    cases henc
    cases enc with
    | nil => simp [Json.scanNumber, Json.scanInt] at h2
    | cons c cs => exact ⟨c, cs, rfl, valueHead_of_number c (scanNumber_head c cs _ _ h2)⟩
  | int n =>
    rw [Json.encodeValue] at henc
    cases henc
    have h2 := scanNumber_formatInt n
    cases hd : (Strconv.formatInt n).data with
    | nil => rw [hd] at h2; simp [Json.scanNumber, Json.scanInt] at h2
    | cons c cs =>
      rw [hd] at h2
      exact ⟨c, cs, rfl, valueHead_of_number c (scanNumber_head c cs _ _ h2)⟩
  | int64 n =>
    rw [Json.encodeValue] at henc
    cases henc
    have h2 := scanNumber_formatInt n
    cases hd : (Strconv.formatInt n).data with
    | nil => rw [hd] at h2; simp [Json.scanNumber, Json.scanInt] at h2
    | cons c cs =>
      rw [hd] at h2
      exact ⟨c, cs, rfl, valueHead_of_number c (scanNumber_head c cs _ _ h2)⟩
  | slice xs =>
    rw [Json.encodeValue] at henc
    cases he : Json.encodeElems xs with
    | error err => simp [he] at henc
    | ok body =>
      rw [he] at henc
      cases henc
      exact ⟨'[', _, rfl, by decide, by decide, by decide⟩
  | map kvs =>
    rw [Json.encodeValue] at henc
    cases he : Json.encodeFields kvs with
    | error err => simp [he] at henc
    | ok body =>
      rw [he] at henc
      cases henc
      exact ⟨Char.ofNat 123, _, rfl, by decide, by decide, by decide⟩


theorem skipWS_head (c : Char) (cs : List Char) (h : Json.isWS c = false) :
    Json.skipWS (c :: cs) = c :: cs := by
  simp [Json.skipWS, h]

theorem endsNumber_comma (rest : List Char) : endsNumber (',' :: rest) :=
  ⟨by decide, by decide, by decide, by decide⟩

theorem endsNumber_bracket (rest : List Char) : endsNumber (']' :: rest) :=
  ⟨by decide, by decide, by decide, by decide⟩

theorem endsNumber_brace (rest : List Char) : endsNumber (Char.ofNat 125 :: rest) :=
  ⟨by decide, by decide, by decide, by decide⟩

theorem convertNumber_of (text : List Char) (f : F64) (saved : Option Json.JsonError)
    (h : Strconv.parseFloat ⟨text⟩ = some f) :
    Json.convertNumber text saved = (GoValue.float64 f, saved) := by
  simp [Json.convertNumber, h]

theorem roundtrip_int (n : Int) (hn : n.natAbs ≤ 2 ^ 63) (fuel d : Nat) (rest : List Char)
    (saved : Option Json.JsonError) (hrest : endsNumber rest) :
    Json.parseValue (fuel + 1) d ((Strconv.formatInt n).data ++ rest) saved
      = .ok (GoValue.float64 (F64.ofInt n), rest, saved) := by
  have hp : Strconv.parseFloat ⟨(Strconv.formatInt n).data⟩ = some (F64.ofInt n) :=
    parseFloat_formatInt n (lt_of_le_of_lt hn (by norm_num))
  rw [parseValue_number _ rest fuel d saved (scanNumber_formatInt n) hrest,
    convertNumber_of _ _ saved hp]

theorem roundtrip_float (f : F64) (enc : List Char) (henc : Json.encodeFloat f = .ok enc)
    (hrb : floatReadsBack f = true) (fuel d : Nat) (rest : List Char)
    (saved : Option Json.JsonError) (hrest : endsNumber rest) :
    Json.parseValue (fuel + 1) d (enc ++ rest) saved = .ok (GoValue.float64 f, rest, saved) := by
  obtain ⟨text, h1, h2, h3⟩ := floatReadsBack_spec f hrb
  rw [henc] at h1
  cases h1
  rw [parseValue_number _ rest fuel d saved h2 hrest, convertNumber_of _ _ saved h3]


theorem parseValue_emptyArray (fuel d : Nat) (rest : List Char) (saved : Option Json.JsonError)
    (hd : d < 10000) :
    Json.parseValue (fuel + 1) d ('[' :: ']' :: rest) saved
      = .ok (GoValue.slice [], rest, saved) := by
  have h1 : ¬ (10000 ≤ d) := by omega
  simp [Json.parseValue, Json.skipWS, Json.isWS, h1]

theorem parseValue_emptyObject (fuel d : Nat) (rest : List Char) (saved : Option Json.JsonError)
    (hd : d < 10000) :
    Json.parseValue (fuel + 1) d (Char.ofNat 123 :: Char.ofNat 125 :: rest) saved
      = .ok (GoValue.map [], rest, saved) := by
  have h1 : ¬ (10000 ≤ d) := by omega
  simp [Json.parseValue, Json.skipWS, Json.isWS, h1]

theorem parseValue_array (fuel d : Nat) (c : Char) (cs : List Char)
    (saved : Option Json.JsonError) (hd : d < 10000) (hc : ValueHead c)
    (xs : List GoValue) (rest2 : List Char) (saved1 : Option Json.JsonError)
    (h : Json.parseElems fuel (d + 1) (c :: cs) [] saved = .ok (xs, rest2, saved1)) :
    Json.parseValue (fuel + 1) d ('[' :: c :: cs) saved
      = .ok (GoValue.slice xs, rest2, saved1) := by
  have h1 : ¬ (10000 ≤ d) := by omega
  have hws : Json.isWS '[' = false := by decide
  have hb : ¬ ('[' = Char.ofNat 123) := by decide
  rw [Json.parseValue]
  simp only [Json.skipWS, hws, Bool.false_eq_true, if_false, hb, h1, if_true, hc.1, hc.2.1, h]

theorem parseValue_object (fuel d : Nat) (c : Char) (cs : List Char)
    (saved : Option Json.JsonError) (hd : d < 10000) (hc : ValueHead c)
    (kvs : List (String × GoValue)) (rest2 : List Char) (saved1 : Option Json.JsonError)
    (h : Json.parseMembers fuel (d + 1) (c :: cs) [] saved = .ok (kvs, rest2, saved1)) :
    Json.parseValue (fuel + 1) d (Char.ofNat 123 :: c :: cs) saved
      = .ok (GoValue.map kvs, rest2, saved1) := by
  have h1 : ¬ (10000 ≤ d) := by omega
  have hws : Json.isWS (Char.ofNat 123) = false := by decide
  rw [Json.parseValue]
  simp only [Json.skipWS, hws, Bool.false_eq_true, if_false, h1, if_true, hc.1, hc.2.2, h]

theorem parseElems_step (fuel d : Nat) (cs : List Char) (acc : List GoValue)
    (saved : Option Json.JsonError) (v : GoValue) (c : Char) (rest : List Char)
    (hv : Json.parseValue fuel d cs saved = .ok (v, c :: rest, saved))
    (hc : c = ',' ∨ c = ']') :
    Json.parseElems (fuel + 1) d cs acc saved
      = if c = ',' then Json.parseElems fuel d rest (v :: acc) saved
        else .ok ((v :: acc).reverse, rest, saved) := by
  have hws : Json.isWS c = false := by
    rcases hc with h | h <;> subst h <;> decide
  rw [Json.parseElems, hv]
  simp only [Json.skipWS, hws, Bool.false_eq_true, if_false]
  rcases hc with h | h
  · subst h; simp
  · subst h; simp

theorem parseMembers_step (fuel d : Nat) (k : String) (cs : List Char)
    (acc : List (String × GoValue)) (saved : Option Json.JsonError) (v : GoValue) (c : Char)
    (rest : List Char) (hk : k.data.length < fuel)
    (hv : Json.parseValue fuel d cs saved = .ok (v, c :: rest, saved))
    (hc : c = ',' ∨ c = Char.ofNat 125) :
    Json.parseMembers (fuel + 1) d (Json.encodeString k ++ ':' :: cs) acc saved
      = if c = ',' then Json.parseMembers fuel d rest (GoMap.insert k v acc) saved
        else .ok (GoMap.insert k v acc, rest, saved) := by
  have hws : Json.isWS c = false := by
    rcases hc with h | h <;> subst h <;> decide
  have hq : Json.isWS (Char.ofNat 34) = false := by decide
  have hcol : Json.isWS ':' = false := by decide
  rw [encodeString_append, Json.parseMembers]
  simp only [Json.skipWS, hq, Bool.false_eq_true, if_false, if_true]
  rw [parseString_escapeChars k.data fuel [] (':' :: cs) hk]
  simp only [List.reverse_nil, List.nil_append, Json.skipWS, hcol, Bool.false_eq_true, if_false,
    if_true, hv, hws]
  rcases hc with h | h
  · subst h; simp
  · subst h; simp


theorem encodeElems_head (x : GoValue) (xs : List GoValue) (enc : List Char)
    (henc : Json.encodeElems (x :: xs) = .ok enc) (hrb : readsBackList (x :: xs) = true) :
    ∃ c cs, enc = c :: cs ∧ ValueHead c := by
  rw [Json.encodeElems] at henc
  rw [readsBackList, Bool.and_eq_true] at hrb
  cases hx : Json.encodeValue x with
  | error err => simp [hx] at henc
  | ok a =>
    obtain ⟨c, cs, hcs, hc⟩ := encodeValue_head x a hx hrb.1
    rw [hx] at henc
    simp only at henc
    cases xs with
    | nil =>
      simp only [Except.ok.injEq] at henc
      exact ⟨c, cs, by rw [← henc, hcs], hc⟩
    | cons y ys =>
      simp only at henc
      cases hr : Json.encodeElems (y :: ys) with
      | error err => simp [hr] at henc
      | ok r =>
        rw [hr] at henc
        simp only [Except.ok.injEq] at henc
        exact ⟨c, cs ++ ',' :: r, by rw [← henc, hcs]; simp, hc⟩

theorem encodeFields_head (k : String) (x : GoValue) (xs : List (String × GoValue))
    (enc : List Char) (henc : Json.encodeFields ((k, x) :: xs) = .ok enc) :
    ∃ cs, enc = Char.ofNat 34 :: cs := by
  rw [Json.encodeFields] at henc
  cases hx : Json.encodeValue x with
  | error err => simp [hx] at henc
  | ok a =>
    rw [hx] at henc
    simp only at henc
    cases xs with
    | nil =>
      simp only [Except.ok.injEq] at henc
      exact ⟨_, by rw [← henc, encodeString_append]⟩
    | cons y ys =>
      simp only at henc
      cases hr : Json.encodeFields (y :: ys) with
      | error err => simp [hr] at henc
      | ok r =>
        rw [hr] at henc
        simp only [Except.ok.injEq] at henc
        exact ⟨_, by rw [← henc, List.append_assoc, encodeString_append]⟩

theorem valueHead_quote : ValueHead (Char.ofNat 34) := ⟨by decide, by decide, by decide⟩

mutual
theorem roundtrip_value : ∀ (v : GoValue) (enc : List Char),
    Json.encodeValue v = .ok enc → WellFormed v → readsBack v = true →
    ∀ (fuel d : Nat) (rest : List Char) (saved : Option Json.JsonError),
      enc.length < fuel → d + depth v ≤ 10000 → endsNumber rest →
      Json.parseValue fuel d (enc ++ rest) saved = .ok (jsonImage v, rest, saved)
  | GoValue.nil, enc, henc, _, _, fuel, d, rest, saved, hf, _, _ => by
    rw [Json.encodeValue] at henc
    cases henc
    cases fuel with
    | zero => simp at hf
    | succ k => rw [jsonImage]; exact parseValue_null k d rest saved
  | GoValue.bool b, enc, henc, _, _, fuel, d, rest, saved, hf, _, _ => by
    rw [Json.encodeValue] at henc
    cases henc
    cases fuel with
    | zero => simp at hf
    | succ k =>
      rw [jsonImage]
      cases b
      · exact parseValue_false k d rest saved
      · exact parseValue_true k d rest saved
  | GoValue.str s, enc, henc, _, _, fuel, d, rest, saved, hf, _, _ => by
    rw [Json.encodeValue] at henc
    cases henc
    cases fuel with
    | zero => simp at hf
    | succ k =>
      rw [jsonImage]
      have := encodeString_length s
      exact parseValue_string s k d rest saved (by omega)
  | GoValue.float64 f, enc, henc, _, hrb, fuel, d, rest, saved, hf, _, hrest => by
    rw [Json.encodeValue] at henc
    rw [readsBack] at hrb
    cases fuel with
    | zero => simp at hf
    | succ k => rw [jsonImage]; exact roundtrip_float f enc henc hrb k d rest saved hrest
  | GoValue.int n, enc, henc, hwf, _, fuel, d, rest, saved, hf, _, hrest => by
    rw [Json.encodeValue] at henc
    cases henc
    rw [WellFormed] at hwf
    cases fuel with
    | zero => simp at hf
    | succ k => rw [jsonImage]; exact roundtrip_int n hwf k d rest saved hrest
  | GoValue.int64 n, enc, henc, hwf, _, fuel, d, rest, saved, hf, _, hrest => by
    rw [Json.encodeValue] at henc
    cases henc
    rw [WellFormed] at hwf
    cases fuel with
    | zero => simp at hf
    | succ k => rw [jsonImage]; exact roundtrip_int n hwf k d rest saved hrest
  | GoValue.slice [], enc, henc, _, _, fuel, d, rest, saved, hf, hd, _ => by
    rw [Json.encodeValue, Json.encodeElems] at henc
    cases henc
    rw [depth] at hd
    cases fuel with
    | zero => simp at hf
    | succ k =>
      rw [jsonImage, jsonImageList]
      exact parseValue_emptyArray k d rest saved (by omega)
  | GoValue.slice (x :: xs), enc, henc, hwf, hrb, fuel, d, rest, saved, hf, hd, _ => by
    rw [Json.encodeValue] at henc
    rw [WellFormed] at hwf
    rw [readsBack] at hrb
    rw [depth] at hd
    cases he : Json.encodeElems (x :: xs) with
    | error err => simp [he] at henc
    | ok body =>
      rw [he] at henc
      cases henc
      obtain ⟨c, cs, hcs, hc⟩ := encodeElems_head x xs body he hrb
      cases fuel with
      | zero => simp at hf
      | succ k =>
        have hlen : body.length + 1 < k := by
          simp only [List.length_cons, List.length_append, List.length_nil] at hf
          omega
        have h1 := roundtrip_elems (x :: xs) body he (by simp) hwf hrb k (d + 1) rest []
          saved hlen (by omega)
        rw [jsonImage]
        have e1 : ('[' :: (body ++ [']'])) ++ rest = '[' :: c :: (cs ++ ']' :: rest) := by
          rw [hcs]; simp
        rw [e1]
        refine parseValue_array k d c _ saved (by omega) hc _ rest saved ?_
        have e2 : c :: (cs ++ ']' :: rest) = body ++ ']' :: rest := by rw [hcs]; simp
        rw [e2, h1]
        simp
  | GoValue.map [], enc, henc, _, _, fuel, d, rest, saved, hf, hd, _ => by
    rw [Json.encodeValue, Json.encodeFields] at henc
    cases henc
    rw [depth] at hd
    cases fuel with
    | zero => simp at hf
    | succ k =>
      rw [jsonImage, jsonImageFields]
      exact parseValue_emptyObject k d rest saved (by omega)
  | GoValue.map ((key, x) :: xs), enc, henc, hwf, hrb, fuel, d, rest, saved, hf, hd, _ => by
    rw [Json.encodeValue] at henc
    rw [WellFormed] at hwf
    rw [readsBack] at hrb
    rw [depth] at hd
    cases he : Json.encodeFields ((key, x) :: xs) with
    | error err => simp [he] at henc
    | ok body =>
      rw [he] at henc
      cases henc
      obtain ⟨cs, hcs⟩ := encodeFields_head key x xs body he
      cases fuel with
      | zero => simp at hf
      | succ k =>
        have hlen : body.length + 1 < k := by
          simp only [List.length_cons, List.length_append, List.length_nil] at hf
          omega
        have h1 := roundtrip_fields ((key, x) :: xs) body he (by simp) hwf.1 hwf.2 hrb k (d + 1)
          rest [] saved hlen (by omega) (by simp)
        rw [jsonImage]
        have e1 : (Char.ofNat 123 :: (body ++ [Char.ofNat 125])) ++ rest
            = Char.ofNat 123 :: Char.ofNat 34 :: (cs ++ Char.ofNat 125 :: rest) := by
          rw [hcs]; simp
        rw [e1]
        refine parseValue_object k d _ _ saved (by omega) valueHead_quote _ rest saved ?_
        have e2 : Char.ofNat 34 :: (cs ++ Char.ofNat 125 :: rest)
            = body ++ Char.ofNat 125 :: rest := by rw [hcs]; simp
        rw [e2, h1]
        simp
theorem roundtrip_elems : ∀ (xs : List GoValue) (enc : List Char),
    Json.encodeElems xs = .ok enc → xs ≠ [] → WellFormedList xs → readsBackList xs = true →
    ∀ (fuel d : Nat) (rest : List Char) (acc : List GoValue) (saved : Option Json.JsonError),
      enc.length + 1 < fuel → d + depthList xs ≤ 10000 →
      Json.parseElems fuel d (enc ++ ']' :: rest) acc saved
        = .ok (acc.reverse ++ jsonImageList xs, rest, saved)
  | [], _, _, hne, _, _, _, _, _, _, _, _, _ => absurd rfl hne
  | x :: xs, enc, henc, _, hwf, hrb, fuel, d, rest, acc, saved, hf, hd => by
    rw [Json.encodeElems] at henc
    rw [WellFormedList] at hwf
    rw [readsBackList, Bool.and_eq_true] at hrb
    rw [depthList] at hd
    cases hx : Json.encodeValue x with
    | error err => simp [hx] at henc
    | ok a =>
      rw [hx] at henc
      simp only at henc
      cases fuel with
      | zero => simp at hf
      | succ k =>
        cases xs with
        | nil =>
          simp only [Except.ok.injEq] at henc
          subst henc
          have hv := roundtrip_value x a hx hwf.1 hrb.1 k d (']' :: rest) saved (by omega)
            (by omega) (endsNumber_bracket rest)
          rw [parseElems_step k d _ acc saved _ ']' rest hv (Or.inr rfl)]
          simp [jsonImageList]
        | cons y ys =>
          simp only at henc
          cases hr : Json.encodeElems (y :: ys) with
          | error err => simp [hr] at henc
          | ok r =>
            rw [hr] at henc
            simp only [Except.ok.injEq] at henc
            subst henc
            have hlen : a.length + 1 + r.length + 1 < k + 1 := by
              simp only [List.length_append, List.length_cons] at hf
              omega
            have e1 : (a ++ ',' :: r) ++ ']' :: rest = a ++ ',' :: (r ++ ']' :: rest) := by simp
            have hv := roundtrip_value x a hx hwf.1 hrb.1 k d (',' :: (r ++ ']' :: rest)) saved
              (by omega) (by omega) (endsNumber_comma _)
            rw [e1, parseElems_step k d _ acc saved _ ',' _ hv (Or.inl rfl)]
            simp only [if_true]
            rw [roundtrip_elems (y :: ys) r hr (by simp) hwf.2 hrb.2 k d rest
              (jsonImage x :: acc) saved (by omega) (by omega)]
            simp [jsonImageList]
theorem roundtrip_fields : ∀ (kvs : List (String × GoValue)) (enc : List Char),
    Json.encodeFields kvs = .ok enc → kvs ≠ [] → SortedKeys kvs → WellFormedFields kvs →
    readsBackFields kvs = true →
    ∀ (fuel d : Nat) (rest : List Char) (acc : List (String × GoValue))
      (saved : Option Json.JsonError),
      enc.length + 1 < fuel → d + depthFields kvs ≤ 10000 →
      (∀ p ∈ acc, ∀ q ∈ kvs, GoMap.ltChars p.1.data q.1.data = true) →
      Json.parseMembers fuel d (enc ++ Char.ofNat 125 :: rest) acc saved
        = .ok (acc ++ jsonImageFields kvs, rest, saved)
  | [], _, _, hne, _, _, _, _, _, _, _, _, _, _, _ => absurd rfl hne
  | (key, x) :: xs, enc, henc, _, hs, hwf, hrb, fuel, d, rest, acc, saved, hf, hd, hacc => by
    rw [Json.encodeFields] at henc
    rw [WellFormedFields] at hwf
    rw [readsBackFields, Bool.and_eq_true] at hrb
    rw [depthFields] at hd
    have hs' := List.pairwise_cons.1 hs
    have hins : GoMap.insert key (jsonImage x) acc = acc ++ [(key, jsonImage x)] :=
      insert_of_below key (jsonImage x) acc
        (fun p hp => hacc p hp (key, x) (List.mem_cons_self _ _))
    cases hx : Json.encodeValue x with
    | error err => simp [hx] at henc
    | ok a =>
      rw [hx] at henc
      simp only at henc
      have hklen := encodeString_length key
      cases fuel with
      | zero => simp at hf
      | succ k =>
        cases xs with
        | nil =>
          simp only [Except.ok.injEq] at henc
          subst henc
          have hlen : (Json.encodeString key).length + 1 + a.length + 1 < k + 1 := by
            simp only [List.length_append, List.length_cons] at hf
            omega
          have hv := roundtrip_value x a hx hwf.1 hrb.1 k d (Char.ofNat 125 :: rest) saved
            (by omega) (by omega) (endsNumber_brace rest)
          have e1 : (Json.encodeString key ++ ':' :: a) ++ Char.ofNat 125 :: rest
              = Json.encodeString key ++ ':' :: (a ++ Char.ofNat 125 :: rest) := by simp
          rw [e1, parseMembers_step k d key _ acc saved _ (Char.ofNat 125) rest (by omega) hv
            (Or.inr rfl), hins]
          simp [jsonImageFields]
        | cons y ys =>
          simp only at henc
          cases hr : Json.encodeFields (y :: ys) with
          | error err => simp [hr] at henc
          | ok r =>
            rw [hr] at henc
            simp only [Except.ok.injEq] at henc
            subst henc
            have hlen : (Json.encodeString key).length + 1 + a.length + 1 + r.length + 1
                < k + 1 := by
              simp only [List.length_append, List.length_cons] at hf
              omega
            have hv := roundtrip_value x a hx hwf.1 hrb.1 k d
              (',' :: (r ++ Char.ofNat 125 :: rest)) saved (by omega) (by omega)
              (endsNumber_comma _)
            have e1 : (Json.encodeString key ++ ':' :: a ++ ',' :: r) ++ Char.ofNat 125 :: rest
                = Json.encodeString key
                  ++ ':' :: (a ++ ',' :: (r ++ Char.ofNat 125 :: rest)) := by simp
            rw [e1, parseMembers_step k d key _ acc saved _ ',' _ (by omega) hv (Or.inl rfl),
              hins]
            simp only [if_true]
            rw [roundtrip_fields (y :: ys) r hr (by simp) hs'.2 hwf.2 hrb.2 k d rest
              (acc ++ [(key, jsonImage x)]) saved (by omega) (by omega) ?_]
            · simp [jsonImageFields]
            · intro p hp q hq
              rcases List.mem_append.1 hp with hp | hp
              · exact hacc p hp q (List.mem_cons_of_mem _ hq)
              · simp only [List.mem_singleton] at hp
                subst hp
                exact hs'.1 q hq
end


theorem wellFormedList_iff : ∀ xs : List GoValue, WellFormedList xs ↔ ∀ x ∈ xs, WellFormed x
  | [] => by simp [WellFormedList]
  | x :: xs => by simp [WellFormedList, wellFormedList_iff xs]

theorem wellFormedFields_iff : ∀ kvs : List (String × GoValue),
    WellFormedFields kvs ↔ ∀ p ∈ kvs, WellFormed p.2
  | [] => by simp [WellFormedFields]
  | (k, x) :: xs => by simp [WellFormedFields, wellFormedFields_iff xs]

theorem noIntsList_iff : ∀ xs : List GoValue, NoIntsList xs ↔ ∀ x ∈ xs, NoInts x
  | [] => by simp [NoIntsList]
  | x :: xs => by simp [NoIntsList, noIntsList_iff xs]

theorem noIntsFields_iff : ∀ kvs : List (String × GoValue),
    NoIntsFields kvs ↔ ∀ p ∈ kvs, NoInts p.2
  | [] => by simp [NoIntsFields]
  | (k, x) :: xs => by simp [NoIntsFields, noIntsFields_iff xs]

theorem depthList_le_iff (n : Nat) : ∀ xs : List GoValue,
    depthList xs ≤ n ↔ ∀ x ∈ xs, depth x ≤ n
  | [] => by simp [depthList]
  | x :: xs => by simp [depthList, depthList_le_iff n xs]

theorem depthFields_le_iff (n : Nat) : ∀ kvs : List (String × GoValue),
    depthFields kvs ≤ n ↔ ∀ p ∈ kvs, depth p.2 ≤ n
  | [] => by simp [depthFields]
  | (k, x) :: xs => by simp [depthFields, depthFields_le_iff n xs]

theorem good_slice (d : Nat) (xs : List GoValue) (hd : d < 10000)
    (h : ∀ x ∈ xs, Good (d + 1) x) : Good d (GoValue.slice xs) := by
  refine ⟨?_, ?_, ?_⟩
  · rw [WellFormed, wellFormedList_iff]; exact fun x hx => (h x hx).1
  · rw [NoInts, noIntsList_iff]; exact fun x hx => (h x hx).2.1
  · rw [depth]
    have : depthList xs ≤ 10000 - (d + 1) :=
      (depthList_le_iff _ xs).2 (fun x hx => by have := (h x hx).2.2; omega)
    omega

theorem good_map (d : Nat) (kvs : List (String × GoValue)) (hd : d < 10000)
    (hs : SortedKeys kvs) (h : ∀ p ∈ kvs, Good (d + 1) p.2) : Good d (GoValue.map kvs) := by
  refine ⟨?_, ?_, ?_⟩
  · rw [WellFormed, wellFormedFields_iff]; exact ⟨hs, fun x hx => (h x hx).1⟩
  · rw [NoInts, noIntsFields_iff]; exact fun x hx => (h x hx).2.1
  · rw [depth]
    have : depthFields kvs ≤ 10000 - (d + 1) :=
      (depthFields_le_iff _ kvs).2 (fun x hx => by have := (h x hx).2.2; omega)
    omega

theorem good_scalar (d : Nat) (v : GoValue) (hd : d ≤ 10000) (hw : WellFormed v)
    (hn : NoInts v) (h0 : depth v = 0) : Good d v :=
  ⟨hw, hn, by omega⟩

theorem expectWord_value (word : String) (v v1 : GoValue) (cs rest : List Char)
    (h : Json.expectWord word v cs = .ok (v1, rest)) : v1 = v := by
  unfold Json.expectWord at h
  split at h
  · simp only [Except.ok.injEq, Prod.mk.injEq] at h; exact h.1.symm
  · simp at h

theorem convertNumber_good (d : Nat) (hd : d ≤ 10000) (text : List Char)
    (saved : Option Json.JsonError) : Good d (Json.convertNumber text saved).1 := by
  unfold Json.convertNumber
  split
  · rename_i f hf
    exact good_scalar d _ hd (by rw [WellFormed]; exact parseFloat_wf _ f hf)
      (by simp [NoInts]) (by simp [depth])
  · exact good_scalar d _ hd (by simp [WellFormed]) (by simp [NoInts]) (by simp [depth])


theorem good_insert (d : Nat) (k : String) (v : GoValue) (acc : List (String × GoValue))
    (hv : Good d v) (hacc : ∀ p ∈ acc, Good d p.2) :
    ∀ p ∈ GoMap.insert k v acc, Good d p.2 := by
  intro p hp
  rcases mem_insert k v acc p hp with h | h
  · subst h; exact hv
  · exact hacc p h

theorem parseValue_good (fuel : Nat) (ih : DecoderGood fuel) :
    ∀ d cs saved v rest saved1, d ≤ 10000 →
      Json.parseValue (fuel + 1) d cs saved = .ok (v, rest, saved1) → Good d v := by
  intro d cs saved v rest saved1 hd h
  rw [Json.parseValue] at h
  split at h
  · simp at h
  · rename_i c rest0 _
    split_ifs at h with h1 h2 h3 h4 h5 h6 h7 h8 h9
    · split at h
      · simp at h
      · rename_i c2 rest1 _
        split_ifs at h with h11
        · simp only [Except.ok.injEq, Prod.mk.injEq] at h
          rw [← h.1]
          exact good_map d [] (by omega) (by simp [SortedKeys]) (by simp)
        · split at h
          · rename_i kvs rest2 saved2 hm
            simp only [Except.ok.injEq, Prod.mk.injEq] at h
            rw [← h.1]
            have := ih.2.2 (d + 1) _ [] saved kvs rest2 saved2 (by omega) (by simp [SortedKeys])
              (by simp) hm
            exact good_map d kvs (by omega) this.1 this.2
          · simp at h
    · split at h
      · simp at h
      · rename_i c2 rest1 _
        split_ifs at h with h11
        · simp only [Except.ok.injEq, Prod.mk.injEq] at h
          rw [← h.1]
          exact good_slice d [] (by omega) (by simp)
        · split at h
          · rename_i xs rest2 saved2 hm
            simp only [Except.ok.injEq, Prod.mk.injEq] at h
            rw [← h.1]
            have := ih.2.1 (d + 1) _ [] saved xs rest2 saved2 (by omega) (by simp) hm
            exact good_slice d xs (by omega) this
          · simp at h
    · split at h
      · simp only [Except.ok.injEq, Prod.mk.injEq] at h
        rw [← h.1]
        exact good_scalar d _ hd (by simp [WellFormed]) (by simp [NoInts]) (by simp [depth])
      · simp at h
    · split at h
      · rename_i v1 rest1 hw
        simp only [Except.ok.injEq, Prod.mk.injEq] at h
        rw [← h.1, expectWord_value _ _ _ _ _ hw]
        exact good_scalar d _ hd (by simp [WellFormed]) (by simp [NoInts]) (by simp [depth])
      · simp at h
    · split at h
      · rename_i v1 rest1 hw
        simp only [Except.ok.injEq, Prod.mk.injEq] at h
        rw [← h.1, expectWord_value _ _ _ _ _ hw]
        exact good_scalar d _ hd (by simp [WellFormed]) (by simp [NoInts]) (by simp [depth])
      · simp at h
    · split at h
      · rename_i v1 rest1 hw
        simp only [Except.ok.injEq, Prod.mk.injEq] at h
        rw [← h.1, expectWord_value _ _ _ _ _ hw]
        exact good_scalar d _ hd (by simp [WellFormed]) (by simp [NoInts]) (by simp [depth])
      · simp at h
    · split at h
      · simp only [Except.ok.injEq, Prod.mk.injEq] at h
        rw [← h.1]
        exact convertNumber_good d hd _ _
      · simp at h

theorem parseElems_good (fuel : Nat) (ih : DecoderGood fuel) :
    ∀ d cs acc saved xs rest saved1, d ≤ 10000 → (∀ x ∈ acc, Good d x) →
      Json.parseElems (fuel + 1) d cs acc saved = .ok (xs, rest, saved1) →
      ∀ x ∈ xs, Good d x := by
  intro d cs acc saved xs rest saved1 hd hacc h
  rw [Json.parseElems] at h
  split at h
  · simp at h
  · rename_i v rest0 saved0 hv
    have hgv := ih.1 d cs saved v rest0 saved0 hd hv
    have hacc' : ∀ x ∈ v :: acc, Good d x := by
      intro x hx
      rcases List.mem_cons.1 hx with hx | hx
      · subst hx; exact hgv
      · exact hacc x hx
    split at h
    · simp at h
    · rename_i c rest1 _
      split_ifs at h with h1 h2
      · exact ih.2.1 d rest1 (v :: acc) saved0 xs rest saved1 hd hacc' h
      · simp only [Except.ok.injEq, Prod.mk.injEq] at h
        rw [← h.1]
        intro x hx
        exact hacc' x (List.mem_reverse.1 hx)

theorem parseMembers_good (fuel : Nat) (ih : DecoderGood fuel) :
    ∀ d cs acc saved kvs rest saved1, d ≤ 10000 → SortedKeys acc → (∀ p ∈ acc, Good d p.2) →
      Json.parseMembers (fuel + 1) d cs acc saved = .ok (kvs, rest, saved1) →
      SortedKeys kvs ∧ ∀ p ∈ kvs, Good d p.2 := by
  intro d cs acc saved kvs rest saved1 hd hs hacc h
  rw [Json.parseMembers] at h
  split at h
  · simp at h
  · rename_i q rest0 _
    split_ifs at h with h1
    split at h
    · simp at h
    · rename_i k rest1 hk
      split at h
      · simp at h
      · rename_i c rest2 _
        split_ifs at h with h2
        split at h
        · simp at h
        · rename_i v rest3 saved3 hv
          have hgv := ih.1 d rest2 saved v rest3 saved3 hd hv
          have hs' := sortedKeys_insert k v acc hs
          have hacc' := good_insert d k v acc hgv hacc
          split at h
          · simp at h
          · rename_i c4 rest4 _
            split_ifs at h with h3 h4
            · exact ih.2.2 d rest4 _ saved3 kvs rest saved1 hd hs' hacc' h
            · simp only [Except.ok.injEq, Prod.mk.injEq] at h
              rw [← h.1]
              exact ⟨hs', hacc'⟩

theorem decoderGood : ∀ fuel : Nat, DecoderGood fuel
  | 0 => by
    refine ⟨?_, ?_, ?_⟩
    · intro d cs saved v rest saved1 _ h; simp [Json.parseValue] at h
    · intro d cs acc saved xs rest saved1 _ _ h; simp [Json.parseElems] at h
    · intro d cs acc saved kvs rest saved1 _ _ _ h; simp [Json.parseMembers] at h
  | fuel + 1 =>
    ⟨parseValue_good fuel (decoderGood fuel), parseElems_good fuel (decoderGood fuel),
      parseMembers_good fuel (decoderGood fuel)⟩


theorem floatReadsBack_of (f : F64) (hwf : F64.WF f) (text : List Char)
    (henc : Json.encodeFloat f = .ok text) : floatReadsBack f = true := by
  obtain ⟨h1, h2⟩ := encodeFloat_reads f hwf text henc
  unfold floatReadsBack
  rw [henc]
  simp only [h1, h2, beq_self_eq_true, List.isEmpty_nil, Bool.and_self]

mutual
theorem readsBack_of_encoded : ∀ (v : GoValue) (enc : List Char),
    Json.encodeValue v = .ok enc → WellFormed v → readsBack v = true
  | GoValue.nil, _, _, _ => rfl
  | GoValue.bool _, _, _, _ => rfl
  | GoValue.str _, _, _, _ => rfl
  | GoValue.int _, _, _, _ => rfl
  | GoValue.int64 _, _, _, _ => rfl
  | GoValue.float64 f, enc, henc, hwf => by
    rw [readsBack]
    rw [Json.encodeValue] at henc
    rw [WellFormed] at hwf
    exact floatReadsBack_of f hwf enc henc
  | GoValue.slice xs, enc, henc, hwf => by
    rw [readsBack]
    rw [Json.encodeValue] at henc
    rw [WellFormed] at hwf
    split at henc
    · rename_i body hb
      exact readsBackList_of_encoded xs body hb hwf
    · simp at henc
  | GoValue.map kvs, enc, henc, hwf => by
    rw [readsBack]
    rw [Json.encodeValue] at henc
    rw [WellFormed] at hwf
    split at henc
    · rename_i body hb
      exact readsBackFields_of_encoded kvs body hb hwf.2
    · simp at henc
theorem readsBackList_of_encoded : ∀ (xs : List GoValue) (enc : List Char),
    Json.encodeElems xs = .ok enc → WellFormedList xs → readsBackList xs = true
  | [], _, _, _ => rfl
  | x :: xs, enc, henc, hwf => by
    rw [readsBackList]
    rw [WellFormedList] at hwf
    rw [Json.encodeElems] at henc
    split at henc
    · simp at henc
    · rename_i a ha
      rw [readsBack_of_encoded x a ha hwf.1, Bool.true_and]
      split at henc
      · rfl
      · rename_i y ys
        split at henc
        · rename_i r hr
          exact readsBackList_of_encoded (y :: ys) r hr hwf.2
        · simp at henc
theorem readsBackFields_of_encoded : ∀ (kvs : List (String × GoValue)) (enc : List Char),
    Json.encodeFields kvs = .ok enc → WellFormedFields kvs → readsBackFields kvs = true
  | [], _, _, _ => rfl
  | (k, x) :: xs, enc, henc, hwf => by
    rw [readsBackFields]
    rw [WellFormedFields] at hwf
    rw [Json.encodeFields] at henc
    split at henc
    · simp at henc
    · rename_i a ha
      rw [readsBack_of_encoded x a ha hwf.1, Bool.true_and]
      split at henc
      · rfl
      · rename_i y ys
        split at henc
        · rename_i r hr
          exact readsBackFields_of_encoded (y :: ys) r hr hwf.2
        · simp at henc
end

theorem marshal_eq (m : GoMap) :
    Json.marshal m = (Json.encodeValue (mapValue m)).map String.mk := by
  cases m with
  | none => rfl
  | some kvs =>
    unfold Json.marshal mapValue
    simp only
    cases Json.encodeValue (GoValue.map kvs) <;> rfl

theorem unmarshal_marshal (m : GoMap) (text : String) (hm : Json.marshal m = .ok text)
    (hwf : WellFormed (mapValue m)) (hd : depth (mapValue m) ≤ 10000) :
    Json.unmarshal text = .ok (jsonImageMap m) := by
  cases m with
  | none =>
    simp only [Json.marshal, Except.ok.injEq] at hm
    subst hm
    rfl
  | some kvs =>
    unfold Json.marshal at hm
    simp only at hm
    cases he : Json.encodeValue (GoValue.map kvs) with
    | error err => simp [he] at hm
    | ok enc =>
      rw [he] at hm
      simp only [Except.ok.injEq] at hm
      subst hm
      have hrb := readsBack_of_encoded (GoValue.map kvs) enc he hwf
      have h := roundtrip_value (GoValue.map kvs) enc he hwf hrb (2 * enc.length + 2) 0 []
        none (by omega) (by simpa [mapValue] using hd) trivial
      rw [List.append_nil] at h
      unfold Json.unmarshal
      simp only [h, jsonImage, Json.skipWS, jsonImageMap]

theorem unmarshal_good (s : String) (m : GoMap) (h : Json.unmarshal s = .ok m) :
    Good 0 (mapValue m) := by
  unfold Json.unmarshal at h
  split at h
  · simp at h
  · rename_i v rest saved hv
    have hg := (decoderGood _).1 0 _ none v rest saved (by omega) hv
    split at h
    · simp at h
    · split at h
      · simp only [Except.ok.injEq] at h; subst h; exact hg
      · simp at h
      · simp only [Except.ok.injEq] at h; subst h; exact hg
      · simp at h
      · simp at h
      · simp at h
      · simp at h


/-! ## The repaired parameters -/

theorem parseInt_range (s : String) (n : Int) (h : Strconv.parseInt s = some n) :
    n.natAbs ≤ 2 ^ 63 := by
  unfold Strconv.parseInt at h
  split at h
  · simp at h
  · split_ifs at h
    · split at h
      · split_ifs at h with h1
        simp only [Option.some.injEq] at h
        subst h
        simp only [Int.ofNat_eq_coe, Int.natAbs_ofNat]
        omega
      · simp at h
    · split at h
      · split_ifs at h with h1
        simp only [Option.some.injEq] at h
        subst h
        simp only [Int.ofNat_eq_coe, Int.natAbs_neg, Int.natAbs_ofNat]
        omega
      · simp at h
    · split at h
      · split_ifs at h with h1
        simp only [Option.some.injEq] at h
        subst h
        simp only [Int.ofNat_eq_coe, Int.natAbs_ofNat]
        omega
      · simp at h

theorem toInt_range (f : F64) : (F64.toInt f).natAbs ≤ 2 ^ 63 := by
  unfold F64.toInt
  split
  · simp only
    split_ifs with h
    · omega
    · norm_num
  · norm_num

theorem tryConvertString_wf (s : String) (v : GoValue) (h : tryConvertString s = .ok v) :
    WellFormed v ∧ depth v = 0 := by
  unfold tryConvertString at h
  simp only at h
  split_ifs at h
  · cases h; simp [WellFormed, depth]
  · cases h; simp [WellFormed, depth]
  · split at h
    · rename_i n hn
      cases h
      exact ⟨by rw [WellFormed]; exact parseInt_range _ _ hn, by simp [depth]⟩
    · split at h
      · rename_i f hf
        cases h
        exact ⟨by rw [WellFormed]; exact parseFloat_wf _ f hf, by simp [depth]⟩
      · cases h; simp [WellFormed, depth]

theorem fixParameterType_wf (v v1 : GoValue) (h : fixParameterType v = .ok v1)
    (hw : WellFormed v) : WellFormed v1 ∧ depth v1 ≤ depth v := by
  cases v with
  | nil => simp only [fixParameterType, Except.ok.injEq] at h; subst h; exact ⟨hw, le_refl _⟩
  | bool b => simp only [fixParameterType, Except.ok.injEq] at h; subst h; exact ⟨hw, le_refl _⟩
  | str s =>
    simp only [fixParameterType] at h
    have := tryConvertString_wf s v1 h
    exact ⟨this.1, by omega⟩
  | float64 f =>
    simp only [fixParameterType] at h
    split_ifs at h
    · cases h
      exact ⟨by rw [WellFormed]; exact toInt_range f, by simp [depth]⟩
    · cases h; exact ⟨hw, le_refl _⟩
  | int n => simp only [fixParameterType, Except.ok.injEq] at h; subst h; exact ⟨hw, le_refl _⟩
  | int64 n => simp only [fixParameterType, Except.ok.injEq] at h; subst h; exact ⟨hw, le_refl _⟩
  | slice xs => simp only [fixParameterType, Except.ok.injEq] at h; subst h; exact ⟨hw, le_refl _⟩
  | map kvs => simp only [fixParameterType, Except.ok.injEq] at h; subst h; exact ⟨hw, le_refl _⟩

theorem sortedKeys_of_keys (a b : List (String × GoValue))
    (h : a.map Prod.fst = b.map Prod.fst) (hs : SortedKeys b) : SortedKeys a := by
  unfold SortedKeys at hs ⊢
  have hb : (b.map Prod.fst).Pairwise (fun p q => GoMap.ltChars p.data q.data = true) :=
    List.pairwise_map.2 hs
  rw [← h] at hb
  exact List.pairwise_map.1 hb

theorem fixEntries_wf : ∀ (kvs fixed : List (String × GoValue)),
    fixEntries kvs = .ok fixed → WellFormedFields kvs →
    WellFormedFields fixed ∧ fixed.map Prod.fst = kvs.map Prod.fst
      ∧ depthFields fixed ≤ depthFields kvs
  | [], fixed, h, _ => by
    simp only [fixEntries, Except.ok.injEq] at h
    subst h
    simp [WellFormedFields, depthFields]
  | (k, v) :: rest, fixed, h, hw => by
    rw [fixEntries] at h
    rw [WellFormedFields] at hw
    split at h
    · simp at h
    · rename_i v1 hv
      split at h
      · simp at h
      · rename_i fixedRest hr
        simp only [Except.ok.injEq] at h
        subst h
        have h1 := fixParameterType_wf v v1 hv hw.1
        have h2 := fixEntries_wf rest fixedRest hr hw.2
        refine ⟨by rw [WellFormedFields]; exact ⟨h1.1, h2.1⟩, by simp [h2.2.1], ?_⟩
        simp only [depthFields]
        have := h2.2.2
        omega

theorem validateCalculatorParams_ok (args m : GoMap)
    (h : validateCalculatorParams args = .ok m) : m = args := by
  unfold validateCalculatorParams at h
  split at h
  · simp at h
  · simp only at h
    split at h
    · simp at h
    · split at h
      · simp at h
      · simp only [Except.ok.injEq] at h; exact h.symm

theorem validateAndFixParameters_ok (args m : GoMap) (name : String)
    (h : validateAndFixParameters args name = .ok m) :
    ∃ fixed, fixEntries (args.getD []) = .ok fixed ∧ m = some fixed := by
  unfold validateAndFixParameters at h
  split at h
  · simp at h
  · rename_i fixed hf
    refine ⟨fixed, hf, ?_⟩
    split_ifs at h
    · exact validateCalculatorParams_ok _ _ h
    · simp only [validateAvailableModelParams, Except.ok.injEq] at h; exact h.symm
    · simp only [Except.ok.injEq] at h; exact h.symm

theorem parseArguments_good (s : String) (strictMode : Bool) (args : GoMap)
    (h : parseArguments s strictMode = .ok args) : Good 0 (mapValue args) := by
  unfold parseArguments at h
  split at h
  · rename_i a ha
    simp only [Except.ok.injEq] at h
    subst h
    exact unmarshal_good s a ha
  · split_ifs at h
    split at h
    · rename_i a ha
      simp only [Except.ok.injEq] at h
      subst h
      exact unmarshal_good _ a ha
    · simp at h

theorem enhanceArguments_wf (args P : GoMap) (name : String) (strictMode : Bool)
    (hg : Good 0 (mapValue args)) (h : enhanceArguments args name strictMode = .ok P) :
    WellFormed (mapValue P) ∧ depth (mapValue P) ≤ 10000 := by
  unfold enhanceArguments at h
  split at h
  · rename_i m hm
    simp only [Except.ok.injEq] at h
    subst h
    obtain ⟨fixed, hf, rfl⟩ := validateAndFixParameters_ok args _ name hm
    cases args with
    | none =>
      simp only [Option.getD_none, fixEntries, Except.ok.injEq] at hf
      subst hf
      simp [mapValue, WellFormed, WellFormedFields, SortedKeys, depth, depthFields]
    | some kvs =>
      simp only [Option.getD_some] at hf
      have hw : WellFormed (GoValue.map kvs) := hg.1
      rw [WellFormed] at hw
      have hd : 0 + depth (GoValue.map kvs) ≤ 10000 := hg.2.2
      rw [depth] at hd
      have := fixEntries_wf kvs fixed hf hw.2
      refine ⟨?_, ?_⟩
      · show WellFormed (GoValue.map fixed)
        rw [WellFormed]
        exact ⟨sortedKeys_of_keys fixed kvs this.2.1 hw.1, this.1⟩
      · show depth (GoValue.map fixed) ≤ 10000
        rw [depth]
        have := this.2.2
        omega
  · split_ifs at h
    simp only [Except.ok.injEq] at h
    subst h
    exact ⟨hg.1, by have := hg.2.2; omega⟩

theorem processToolCall_ok (c c1 : ToolCall) (strictMode : Bool)
    (hne : c.Function.Arguments ≠ "") (h : processToolCall c strictMode = (c1, none)) :
    ∃ args P text, parseArguments c.Function.Arguments strictMode = .ok args ∧
      enhanceArguments args c.Function.Name strictMode = .ok P ∧
      Json.marshal P = .ok text ∧
      c1 = { c with Function := { c.Function with Arguments := text }, Parameters := P } := by
  unfold processToolCall at h
  rw [if_pos hne] at h
  split at h
  · simp at h
  · rename_i args ha
    split at h
    · simp at h
    · rename_i P hP
      split at h
      · simp at h
      · rename_i text ht
        simp only [Prod.mk.injEq, and_true] at h
        exact ⟨args, P, text, ha, hP, ht, h.symm⟩


/-! ## The arguments decoded again -/

mutual
theorem jsonImage_of_noInts : ∀ v : GoValue, NoInts v → jsonImage v = v
  | GoValue.nil, _ => rfl
  | GoValue.bool _, _ => rfl
  | GoValue.str _, _ => rfl
  | GoValue.float64 _, _ => rfl
  | GoValue.int _, h => by rw [NoInts] at h; exact h.elim
  | GoValue.int64 _, h => by rw [NoInts] at h; exact h.elim
  | GoValue.slice xs, h => by
    rw [NoInts] at h
    rw [jsonImage, jsonImageList_of_noInts xs h]
  | GoValue.map kvs, h => by
    rw [NoInts] at h
    rw [jsonImage, jsonImageFields_of_noInts kvs h]
theorem jsonImageList_of_noInts : ∀ xs : List GoValue, NoIntsList xs → jsonImageList xs = xs
  | [], _ => rfl
  | x :: xs, h => by
    rw [NoIntsList] at h
    rw [jsonImageList, jsonImage_of_noInts x h.1, jsonImageList_of_noInts xs h.2]
theorem jsonImageFields_of_noInts : ∀ kvs : List (String × GoValue),
    NoIntsFields kvs → jsonImageFields kvs = kvs
  | [], _ => rfl
  | (k, x) :: kvs, h => by
    rw [NoIntsFields] at h
    rw [jsonImageFields, jsonImage_of_noInts x h.1, jsonImageFields_of_noInts kvs h.2]
end

theorem jsonImageMap_of_noInts (m : GoMap) (h : NoInts (mapValue m)) : jsonImageMap m = m := by
  cases m with
  | none => rfl
  | some kvs =>
    have h1 : NoInts (GoValue.map kvs) := h
    rw [NoInts] at h1
    show some (jsonImageFields kvs) = some kvs
    rw [jsonImageFields_of_noInts kvs h1]

/-- C8, amended. For a call with non-empty arguments that the pipeline processes
without an error, decoding the arguments of the returned call as a JSON object
gives the parameters of the returned call with every integer replaced by the
`float64` nearest to it; it gives the parameters themselves when they hold no
integer. -/
theorem arguments_decode_to_float_image (c c1 : ToolCall) (strictMode : Bool)
    (hne : c.Function.Arguments ≠ "")
    (hok : processToolCall c strictMode = (c1, none)) :
    Json.unmarshal c1.Function.Arguments = .ok (jsonImageMap c1.Parameters) ∧
    (NoInts (mapValue c1.Parameters) →
      Json.unmarshal c1.Function.Arguments = .ok c1.Parameters) := by
  obtain ⟨args, P, text, ha, hP, ht, rfl⟩ := processToolCall_ok c c1 strictMode hne hok
  have hw := enhanceArguments_wf args P c.Function.Name strictMode
    (parseArguments_good _ _ _ ha) hP
  have h := unmarshal_marshal P text ht hw.1 hw.2
  refine ⟨h, fun hn => ?_⟩
  have h2 := jsonImageMap_of_noInts P hn
  simp only at h2 h ⊢
  rw [h, h2]

/-- C8, amended, at the call `lookup` with arguments `a: "12", b: 2.5`: the
returned arguments decode to `a` as the `float64` 12 and `b` as 2.5, where the
parameters hold `a` as the `int64` 12. -/
theorem arguments_decode_to_float_image_witness :
    (mkCall "lookup" "\x7b\"a\":\"12\",\"b\":2.5\x7d").Function.Arguments ≠ "" ∧
    processToolCall (mkCall "lookup" "\x7b\"a\":\"12\",\"b\":2.5\x7d") false
      = ({ callType := "function"
           Function := ⟨"lookup", "\x7b\"a\":12,\"b\":2.5\x7d"⟩
           ID := ""
           Parameters := some [("a", GoValue.int64 12),
             ("b", GoValue.float64 (F64.fin false 5629499534213120 (-51)))] }, none) ∧
    Json.unmarshal "\x7b\"a\":12,\"b\":2.5\x7d"
      = .ok (some [("a", GoValue.float64 (F64.ofInt 12)),
          ("b", GoValue.float64 (F64.fin false 5629499534213120 (-51)))]) :=
  ⟨by decide, rfl,
    (arguments_decode_to_float_image (mkCall "lookup" "\x7b\"a\":\"12\",\"b\":2.5\x7d")
      _ false (by decide) rfl).1⟩

/-- C8 as stated fails. The call `lookup` with arguments `a: "9007199254740993"`
is processed without an error; its parameters hold `a` as the `int64`
9007199254740993 = 2^53 + 1, its arguments are the text `a: 9007199254740993`,
and decoding that text gives `a` as the `float64` 2^52 * 2 = 9007199254740992, a
different number. -/
theorem arguments_decode_counterexample :
    (mkCall "lookup" "\x7b\"a\":\"9007199254740993\"\x7d").Function.Arguments ≠ "" ∧
    processToolCall (mkCall "lookup" "\x7b\"a\":\"9007199254740993\"\x7d") false
      = ({ callType := "function"
           Function := ⟨"lookup", "\x7b\"a\":9007199254740993\x7d"⟩
           ID := ""
           Parameters := some [("a", GoValue.int64 9007199254740993)] }, none) ∧
    Json.unmarshal "\x7b\"a\":9007199254740993\x7d"
      = .ok (some [("a", GoValue.float64 (F64.fin false (2 ^ 52) 1))]) ∧
    F64.trunc (F64.fin false (2 ^ 52) 1) = 9007199254740992 ∧
    Json.unmarshal "\x7b\"a\":9007199254740993\x7d"
      ≠ .ok (some [("a", GoValue.int64 9007199254740993)]) := by
  have h : Json.unmarshal "\x7b\"a\":9007199254740993\x7d"
      = .ok (some [("a", GoValue.float64 (F64.fin false (2 ^ 52) 1))]) := rfl
  refine ⟨by decide, rfl, h, by decide, ?_⟩
  rw [h]
  simp


/-! ## A second run -/

theorem firstNonNumber_xy (args : GoMap) :
    firstNonNumber args ["x", "y"] = none ↔
      (∃ v, GoMap.get args "x" = some v ∧ IsNumber v) ∧
      (∃ v, GoMap.get args "y" = some v ∧ IsNumber v) := by
  simp only [firstNonNumber]
  cases hx : GoMap.get args "x" with
  | none => simp
  | some vx =>
    cases hy : GoMap.get args "y" with
    | none => cases vx <;> simp
    | some vy => cases vx <;> simp [IsNumber] <;> cases vy <;> simp [IsNumber]

theorem firstMissing_three (args : GoMap) :
    firstMissing args ["operation", "x", "y"] = none ↔
      (GoMap.get args "operation").isSome ∧ (GoMap.get args "x").isSome ∧
        (GoMap.get args "y").isSome := by
  simp only [firstMissing]
  cases GoMap.get args "operation" <;> cases GoMap.get args "x" <;>
    cases GoMap.get args "y" <;> simp

theorem validateCalculatorParams_iff (args : GoMap) :
    (∃ m, validateCalculatorParams args = .ok m) ↔ CalculatorAccepts args := by
  unfold validateCalculatorParams CalculatorAccepts validOperations
  cases hm : firstMissing args ["operation", "x", "y"] with
  | some key =>
    have hnot : ¬ ((GoMap.get args "operation").isSome ∧ (GoMap.get args "x").isSome ∧
        (GoMap.get args "y").isSome) := by
      rw [← firstMissing_three, hm]; simp
    simp only [reduceCtorEq, exists_false, false_iff]
    rintro ⟨⟨v1, h1, _⟩, ⟨v2, h2, _⟩, ⟨v3, h3, _⟩⟩
    exact hnot (by simp [h1, h2, h3])
  | none =>
    have hall := (firstMissing_three args).1 hm
    obtain ⟨vop, hop⟩ := Option.isSome_iff_exists.1 hall.1
    simp only [hop, Option.some.injEq, exists_eq_left']
    cases hn : firstNonNumber args ["x", "y"] with
    | some key =>
      have hnot := (firstNonNumber_xy args).not.1 (by rw [hn]; simp)
      have : ¬ ∃ m, (match (match vop with
          | GoValue.str op =>
            if op ∈ ["add", "subtract", "multiply", "divide"] then
              (Except.ok () : Except ValidationError Unit)
            else Except.error (ValidationError.invalidOperation op)
          | _ => Except.ok ()) with
        | Except.error err => Except.error err
        | Except.ok _ => (Except.error (ValidationError.notNumber key) :
            Except ValidationError GoMap)) = Except.ok m := by
        rintro ⟨m, h⟩
        split at h <;> simp at h
      constructor
      · intro h
        exfalso
        cases vop <;> simp at h
        split_ifs at h <;> simp at h
      · rintro ⟨_, h2⟩
        exact absurd h2 hnot
    | none =>
      have hnum := (firstNonNumber_xy args).1 hn
      cases vop with
      | str op =>
        by_cases hmem : op ∈ ["add", "subtract", "multiply", "divide"]
        · simp only [if_pos hmem]
          simp only [List.mem_cons, List.mem_singleton, List.not_mem_nil, or_false] at hmem
          simp [hmem, hnum]
        · simp only [if_neg hmem]
          simp only [List.mem_cons, List.mem_singleton, List.not_mem_nil, or_false] at hmem
          simp [hmem]
      | nil => simp [hnum]
      | bool b => simp [hnum]
      | float64 f => simp [hnum]
      | int n => simp [hnum]
      | int64 n => simp [hnum]
      | slice xs => simp [hnum]
      | map kvs => simp [hnum]


theorem tryConvertString_total (s : String) : ∃ w, tryConvertString s = .ok w := by
  unfold tryConvertString
  simp only
  split_ifs
  · exact ⟨_, rfl⟩
  · exact ⟨_, rfl⟩
  · split
    · exact ⟨_, rfl⟩
    · split
      · exact ⟨_, rfl⟩
      · exact ⟨_, rfl⟩

theorem fixParameterType_total (v : GoValue) : ∃ w, fixParameterType v = .ok w := by
  cases v with
  | nil => exact ⟨_, rfl⟩
  | bool b => exact ⟨_, rfl⟩
  | str s => exact tryConvertString_total s
  | float64 f =>
    simp only [fixParameterType]
    split_ifs
    · exact ⟨_, rfl⟩
    · exact ⟨_, rfl⟩
  | int n => exact ⟨_, rfl⟩
  | int64 n => exact ⟨_, rfl⟩
  | slice xs => exact ⟨_, rfl⟩
  | map kvs => exact ⟨_, rfl⟩

theorem fixEntries_total : ∀ kvs : List (String × GoValue),
    ∃ fixed, fixEntries kvs = .ok fixed ∧ CoercedEntries kvs fixed
  | [] => ⟨[], rfl, List.Forall₂.nil⟩
  | (k, v) :: rest => by
    obtain ⟨w, hw⟩ := fixParameterType_total v
    obtain ⟨fixed, hf, hr⟩ := fixEntries_total rest
    refine ⟨(k, w) :: fixed, ?_, List.Forall₂.cons ⟨rfl, hw⟩ hr⟩
    rw [fixEntries, hw, hf]

theorem lookup_coerced (k : String) : ∀ (kvs fixed : List (String × GoValue)),
    CoercedEntries kvs fixed →
    (GoMap.lookup k kvs = none ∧ GoMap.lookup k fixed = none) ∨
    (∃ v w, GoMap.lookup k kvs = some v ∧ GoMap.lookup k fixed = some w ∧
      fixParameterType v = .ok w)
  | [], _, h => by cases h; exact Or.inl ⟨rfl, rfl⟩
  | (k1, v1) :: kvs, _, h => by
    cases h with
    | cons hpq hrest =>
      rename_i q fixed
      obtain ⟨k2, w1⟩ := q
      obtain ⟨hk, hr⟩ := hpq
      simp only at hk hr
      subst hk
      by_cases hkk : k = k2
      · exact Or.inr ⟨v1, w1, by simp [GoMap.lookup, hkk], by simp [GoMap.lookup, hkk], hr⟩
      · simp only [GoMap.lookup, if_neg hkk]
        exact lookup_coerced k kvs fixed hrest

theorem get_coerced_isNone (args : GoMap) (fixed : List (String × GoValue))
    (h : CoercedEntries (args.getD []) fixed) (k : String) :
    (GoMap.get (some fixed) k).isNone = (GoMap.get args k).isNone := by
  have hl := lookup_coerced k (args.getD []) fixed h
  cases args with
  | none =>
    simp only [Option.getD_none] at hl
    rcases hl with ⟨_, h2⟩ | ⟨v, w, h1, _⟩
    · simp [GoMap.get, h2]
    · simp [GoMap.lookup] at h1
  | some kvs =>
    simp only [Option.getD_some] at hl
    rcases hl with ⟨h1, h2⟩ | ⟨v, w, h1, h2, _⟩
    · simp [GoMap.get, h1, h2]
    · simp [GoMap.get, h1, h2]

theorem validateCalculatorParams_missing (args : GoMap)
    (h : GoMap.get args "operation" = none ∨ GoMap.get args "x" = none
      ∨ GoMap.get args "y" = none) :
    validateCalculatorParams args
      = .error (ValidationError.missingRequired (firstAbsentKey args)) := by
  unfold validateCalculatorParams firstAbsentKey
  simp only [firstMissing]
  cases hop : GoMap.get args "operation" with
  | none => simp
  | some vop =>
    cases hx : GoMap.get args "x" with
    | none => simp
    | some vx =>
      cases hy : GoMap.get args "y" with
      | none => simp
      | some vy => simp [hop, hx, hy] at h

theorem firstAbsentKey_coerced (args : GoMap) (fixed : List (String × GoValue))
    (h : CoercedEntries (args.getD []) fixed) :
    firstAbsentKey (some fixed) = firstAbsentKey args := by
  unfold firstAbsentKey
  rw [get_coerced_isNone args fixed h, get_coerced_isNone args fixed h]

/-- C12. Calculator arguments that lack one of the keys `operation`, `x`, `y` fail
validation with the missing-parameter error that names the first absent key in
that order, whatever the values of the keys that exist; the same holds for the
validation step of the pipeline under the name `calculator`, where the values
are repaired first. -/
theorem missing_key_is_reported_first (args : GoMap)
    (h : GoMap.get args "operation" = none ∨ GoMap.get args "x" = none
      ∨ GoMap.get args "y" = none) :
    validateCalculatorParams args
      = .error (ValidationError.missingRequired (firstAbsentKey args)) ∧
    validateAndFixParameters args "calculator"
      = .error (ValidationError.missingRequired (firstAbsentKey args)) ∧
    (ValidationError.missingRequired (firstAbsentKey args)).message
      = "缺少必需参数: " ++ firstAbsentKey args := by
  refine ⟨validateCalculatorParams_missing args h, ?_, rfl⟩
  obtain ⟨fixed, hf, hr⟩ := fixEntries_total (args.getD [])
  unfold validateAndFixParameters
  rw [hf]
  simp only [if_true]
  have hn : ∀ k, GoMap.get args k = none → GoMap.get (some fixed) k = none := by
    intro k hk
    have := get_coerced_isNone args fixed hr k
    rw [hk] at this
    simpa using this
  rw [validateCalculatorParams_missing (some fixed)
    (by
      rcases h with h | h | h
      · exact Or.inl (hn _ h)
      · exact Or.inr (Or.inl (hn _ h))
      · exact Or.inr (Or.inr (hn _ h))),
    firstAbsentKey_coerced args fixed hr]

/-- C12 at the arguments `operation: "pow", x: "z"`: the error names `y`, not the
operation and not `x`. -/
theorem missing_key_is_reported_first_witness :
    (GoMap.get (some [("operation", GoValue.str "pow"), ("x", GoValue.str "z")]) "operation"
        = none ∨
      GoMap.get (some [("operation", GoValue.str "pow"), ("x", GoValue.str "z")]) "x" = none ∨
      GoMap.get (some [("operation", GoValue.str "pow"), ("x", GoValue.str "z")]) "y" = none) ∧
    firstAbsentKey (some [("operation", GoValue.str "pow"), ("x", GoValue.str "z")]) = "y" ∧
    validateCalculatorParams (some [("operation", GoValue.str "pow"), ("x", GoValue.str "z")])
      = .error (ValidationError.missingRequired "y") ∧
    validateAndFixParameters (some [("operation", GoValue.str "pow"), ("x", GoValue.str "z")])
        "calculator"
      = .error (ValidationError.missingRequired "y") :=
  ⟨Or.inr (Or.inr rfl), by decide,
    (missing_key_is_reported_first
      (some [("operation", GoValue.str "pow"), ("x", GoValue.str "z")])
      (Or.inr (Or.inr rfl))).1,
    (missing_key_is_reported_first
      (some [("operation", GoValue.str "pow"), ("x", GoValue.str "z")])
      (Or.inr (Or.inr rfl))).2.1⟩


/-- C11 (the code at the values the repair produces). Calculator validation
succeeds exactly when the three keys exist, an operation that is a string is one
of the four names, and `x` and `y` are each a `float64` or a Go `int`; on success
it returns its argument. The integer that the repair makes of a numeric string is
an `int64`, which the check does not take as a number: `x: "5"` is repaired to the
`int64` 5 and rejected with the error naming `x`, while `x: 1` from a JSON number
is repaired to the `int` 1 and accepted. The arguments `operation: "pow"` and
`x: "z"` are rejected as the claim says. -/
theorem calculator_validation_rejects_int64 :
    (∀ args, (∃ m, validateCalculatorParams args = .ok m) ↔ CalculatorAccepts args) ∧
    (∀ args m, validateCalculatorParams args = .ok m → m = args) ∧
    fixParameterType (GoValue.str "5") = .ok (GoValue.int64 5) ∧
    validateCalculatorParams (some [("operation", GoValue.str "add"), ("x", GoValue.int64 5),
        ("y", GoValue.int 2)])
      = .error (ValidationError.notNumber "x") ∧
    validateAndFixParameters (some [("operation", GoValue.str "add"), ("x", GoValue.str "5"),
        ("y", GoValue.float64 (F64.ofInt 2))]) "calculator"
      = .error (ValidationError.notNumber "x") ∧
    (ValidationError.notNumber "x").message = "参数\x27x\x27必须是数字" ∧
    validateAndFixParameters (some [("operation", GoValue.str "add"),
        ("x", GoValue.float64 (F64.ofInt 1)), ("y", GoValue.float64 (F64.ofInt 2))]) "calculator"
      = .ok (some [("operation", GoValue.str "add"), ("x", GoValue.int 1),
          ("y", GoValue.int 2)]) ∧
    validateCalculatorParams (some [("operation", GoValue.str "pow"), ("x", GoValue.int 1),
        ("y", GoValue.int 2)])
      = .error (ValidationError.invalidOperation "pow") ∧
    validateCalculatorParams (some [("operation", GoValue.str "add"), ("x", GoValue.str "z"),
        ("y", GoValue.int 2)])
      = .error (ValidationError.notNumber "x") :=
  ⟨validateCalculatorParams_iff, validateCalculatorParams_ok, rfl, rfl, rfl, rfl, rfl, rfl, rfl⟩

theorem validateAndFixParameters_other (args : GoMap) (name : String)
    (h : name ≠ "calculator") :
    ∃ fixed, validateAndFixParameters args name = .ok (some fixed) ∧
      CoercedEntries (args.getD []) fixed := by
  obtain ⟨fixed, hf, hr⟩ := fixEntries_total (args.getD [])
  refine ⟨fixed, ?_, hr⟩
  unfold validateAndFixParameters
  rw [hf]
  simp only [if_neg h, validateAvailableModelParams]
  split_ifs <;> rfl

theorem coercedEntries_keys : ∀ (kvs fixed : List (String × GoValue)),
    CoercedEntries kvs fixed → fixed.map Prod.fst = kvs.map Prod.fst
  | [], _, h => by cases h; rfl
  | p :: kvs, _, h => by
    cases h with
    | cons hpq hrest =>
      rename_i q fixed
      simp only [List.map_cons, hpq.1, coercedEntries_keys kvs fixed hrest]

/-- C13. Under every function name other than `calculator`, the validation step
of the pipeline never fails, and the map it returns has the keys of its argument
in the same order, each with the result of the repair of the value it had; a key
is in the result exactly when it is in the argument. -/
theorem other_names_only_repair (args : GoMap) (name : String) (h : name ≠ "calculator") :
    ∃ fixed, validateAndFixParameters args name = .ok (some fixed) ∧
      CoercedEntries (args.getD []) fixed ∧
      fixed.map Prod.fst = (args.getD []).map Prod.fst ∧
      ∀ k, (GoMap.get args k = none ∧ GoMap.get (some fixed) k = none) ∨
        ∃ v w, GoMap.get args k = some v ∧ GoMap.get (some fixed) k = some w ∧
          fixParameterType v = .ok w := by
  obtain ⟨fixed, hv, hr⟩ := validateAndFixParameters_other args name h
  refine ⟨fixed, hv, hr, coercedEntries_keys _ _ hr, fun k => ?_⟩
  have hl := lookup_coerced k (args.getD []) fixed hr
  cases args with
  | none => exact hl
  | some kvs => exact hl

/-- C13 at the name `available_model` and the arguments `a: "7", b: [1]`: the
result holds `a` as the `int64` 7 and `b` unchanged. -/
theorem other_names_only_repair_witness :
    "available_model" ≠ "calculator" ∧
    validateAndFixParameters (some [("a", GoValue.str "7"),
        ("b", GoValue.slice [GoValue.float64 (F64.ofInt 1)])]) "available_model"
      = .ok (some [("a", GoValue.int64 7),
          ("b", GoValue.slice [GoValue.float64 (F64.ofInt 1)])]) ∧
    ∃ fixed, validateAndFixParameters (some [("a", GoValue.str "7"),
          ("b", GoValue.slice [GoValue.float64 (F64.ofInt 1)])]) "available_model"
        = .ok (some fixed) ∧
      CoercedEntries ((some [("a", GoValue.str "7"),
          ("b", GoValue.slice [GoValue.float64 (F64.ofInt 1)])] : GoMap).getD []) fixed ∧
      fixed.map Prod.fst = ((some [("a", GoValue.str "7"),
          ("b", GoValue.slice [GoValue.float64 (F64.ofInt 1)])] : GoMap).getD []).map Prod.fst ∧
      ∀ k, (GoMap.get (some [("a", GoValue.str "7"),
            ("b", GoValue.slice [GoValue.float64 (F64.ofInt 1)])]) k = none ∧
          GoMap.get (some fixed) k = none) ∨
        ∃ v w, GoMap.get (some [("a", GoValue.str "7"),
            ("b", GoValue.slice [GoValue.float64 (F64.ofInt 1)])]) k = some v ∧
          GoMap.get (some fixed) k = some w ∧ fixParameterType v = .ok w :=
  ⟨by decide, rfl,
    other_names_only_repair (some [("a", GoValue.str "7"),
      ("b", GoValue.slice [GoValue.float64 (F64.ofInt 1)])]) "available_model" (by decide)⟩

/-- C14. A call with empty arguments is returned as it is, in every field, and
without an error, in strict and in lenient mode and under every function name. -/
theorem empty_arguments_leave_call_unchanged (c : ToolCall) (strictMode : Bool)
    (h : c.Function.Arguments = "") :
    processToolCall c strictMode = (c, none) := by
  unfold processToolCall
  rw [if_neg (by simp [h])]

/-- C14 at a calculator call without arguments and with parameters: both modes
return it unchanged, although the keys the calculator requires are absent. -/
theorem empty_arguments_leave_call_unchanged_witness :
    (⟨"function", ⟨"calculator", ""⟩, "call_1",
        some [("x", GoValue.float64 (F64.ofInt 1))]⟩ : ToolCall).Function.Arguments = "" ∧
    processToolCall ⟨"function", ⟨"calculator", ""⟩, "call_1",
        some [("x", GoValue.float64 (F64.ofInt 1))]⟩ true
      = (⟨"function", ⟨"calculator", ""⟩, "call_1",
          some [("x", GoValue.float64 (F64.ofInt 1))]⟩, none) ∧
    processToolCall ⟨"function", ⟨"calculator", ""⟩, "call_1",
        some [("x", GoValue.float64 (F64.ofInt 1))]⟩ false
      = (⟨"function", ⟨"calculator", ""⟩, "call_1",
          some [("x", GoValue.float64 (F64.ofInt 1))]⟩, none) ∧
    validateAndFixParameters none "calculator"
      = .error (ValidationError.missingRequired "operation") :=
  ⟨rfl,
    empty_arguments_leave_call_unchanged ⟨"function", ⟨"calculator", ""⟩, "call_1",
      some [("x", GoValue.float64 (F64.ofInt 1))]⟩ true rfl,
    empty_arguments_leave_call_unchanged ⟨"function", ⟨"calculator", ""⟩, "call_1",
      some [("x", GoValue.float64 (F64.ofInt 1))]⟩ false rfl, rfl⟩

theorem processToolCall_error_fst (c : ToolCall) (strictMode : Bool) (err : ProcessError)
    (h : (processToolCall c strictMode).2 = some err) :
    (processToolCall c strictMode).1 = c := by
  unfold processToolCall at h ⊢
  by_cases hne : c.Function.Arguments ≠ ""
  · rw [if_pos hne] at h ⊢
    cases hpa : parseArguments c.Function.Arguments strictMode with
    | error e => rfl
    | ok args =>
      rw [hpa] at h
      simp only at h ⊢
      cases hen : enhanceArguments args c.Function.Name strictMode with
      | error e => rfl
      | ok P =>
        rw [hen] at h
        simp only at h ⊢
        cases hma : Json.marshal P with
        | error e => rfl
        | ok text =>
          rw [hma] at h
          simp at h
  · rw [if_neg hne]

/-- C16. Whenever `processToolCall` returns an error, the call it returns with
the error is its argument, whichever of the four errors it is: the arguments text
and the parameters are the ones of the input. -/
theorem error_returns_original_call (c c1 : ToolCall) (strictMode : Bool)
    (err : ProcessError) (h : processToolCall c strictMode = (c1, some err)) :
    c1 = c ∧ c1.Function.Arguments = c.Function.Arguments ∧ c1.Parameters = c.Parameters := by
  have h1 := processToolCall_error_fst c strictMode err (by rw [h])
  rw [h] at h1
  simp only at h1
  subst h1
  exact ⟨rfl, rfl, rfl⟩

/-- C16 at a calculator call with the operation `pow`, an id and parameters, in
strict mode: validation fails after the arguments were decoded and repaired, and
the call comes back with the arguments text and the parameters it had. -/
theorem error_returns_original_call_witness :
    processToolCall ⟨"function",
        ⟨"calculator", "\x7b\"operation\":\"pow\",\"x\":1,\"y\":2\x7d"⟩, "call_7",
        some [("old", GoValue.bool true)]⟩ true
      = (⟨"function", ⟨"calculator", "\x7b\"operation\":\"pow\",\"x\":1,\"y\":2\x7d"⟩,
          "call_7", some [("old", GoValue.bool true)]⟩,
        some (ProcessError.validationFailed (ValidationError.invalidOperation "pow"))) ∧
    ((⟨"function", ⟨"calculator", "\x7b\"operation\":\"pow\",\"x\":1,\"y\":2\x7d"⟩,
          "call_7", some [("old", GoValue.bool true)]⟩ : ToolCall)
        = ⟨"function", ⟨"calculator", "\x7b\"operation\":\"pow\",\"x\":1,\"y\":2\x7d"⟩,
          "call_7", some [("old", GoValue.bool true)]⟩ ∧
      (⟨"function", ⟨"calculator", "\x7b\"operation\":\"pow\",\"x\":1,\"y\":2\x7d"⟩,
          "call_7", some [("old", GoValue.bool true)]⟩ : ToolCall).Function.Arguments
        = "\x7b\"operation\":\"pow\",\"x\":1,\"y\":2\x7d" ∧
      (⟨"function", ⟨"calculator", "\x7b\"operation\":\"pow\",\"x\":1,\"y\":2\x7d"⟩,
          "call_7", some [("old", GoValue.bool true)]⟩ : ToolCall).Parameters
        = some [("old", GoValue.bool true)]) :=
  ⟨rfl,
    error_returns_original_call
      ⟨"function", ⟨"calculator", "\x7b\"operation\":\"pow\",\"x\":1,\"y\":2\x7d"⟩,
        "call_7", some [("old", GoValue.bool true)]⟩ _ true _ rfl⟩


/-! ## The recorded errors and batches in sequence -/

theorem failedCalls_cons (strictMode : Bool) (i : Nat) (c : ToolCall) (rest : List ToolCall) :
    failedCalls strictMode i (c :: rest)
      = (match (processToolCall c strictMode).2 with
          | some err => [(i, err)]
          | none => []) ++ failedCalls strictMode (i + 1) rest := by
  unfold failedCalls
  rw [List.enumFrom_cons, List.filterMap_cons]
  cases (processToolCall c strictMode).2 <;> rfl

theorem recorded_eq_messages (strictMode : Bool) : ∀ (calls : List ToolCall) (i : Nat),
    recorded strictMode i calls = messagesOf (failedCalls strictMode i calls)
  | [], _ => rfl
  | c :: rest, i => by
    rw [recorded, failedCalls_cons, recorded_eq_messages strictMode rest (i + 1)]
    cases (processToolCall c strictMode).2 <;> rfl

theorem failedCalls_append (strictMode : Bool) : ∀ (xs ys : List ToolCall) (i : Nat),
    failedCalls strictMode i (xs ++ ys)
      = failedCalls strictMode i xs ++ failedCalls strictMode (i + xs.length) ys
  | [], ys, i => by simp [failedCalls]
  | c :: xs, ys, i => by
    rw [List.cons_append, failedCalls_cons, failedCalls_cons,
      failedCalls_append strictMode xs ys (i + 1), List.append_assoc, List.length_cons]
    congr 3
    omega

theorem failedCalls_shift (strictMode : Bool) : ∀ (ys : List ToolCall) (i k : Nat),
    failedCalls strictMode (i + k) ys
      = (failedCalls strictMode i ys).map (fun p => (p.1 + k, p.2))
  | [], _, _ => rfl
  | c :: ys, i, k => by
    rw [failedCalls_cons, failedCalls_cons, List.map_append,
      show i + k + 1 = (i + 1) + k by omega, failedCalls_shift strictMode ys (i + 1) k]
    cases (processToolCall c strictMode).2 <;> rfl

theorem failedCalls_length (strictMode : Bool) : ∀ (calls : List ToolCall) (i : Nat),
    (failedCalls strictMode i calls).length = calls.countP (fails strictMode)
  | [], _ => rfl
  | c :: rest, i => by
    rw [failedCalls_cons, List.length_append, failedCalls_length strictMode rest (i + 1),
      List.countP_cons]
    unfold fails
    cases (processToolCall c strictMode).2 with
    | none => simp
    | some err => simp; omega

theorem emittedAll_append (strictMode : Bool) : ∀ (xs ys : List ToolCall),
    emittedAll strictMode (xs ++ ys) = emittedAll strictMode xs ++ emittedAll strictMode ys
  | [], _ => rfl
  | c :: xs, ys => by
    rw [List.cons_append, emittedAll, emittedAll, emittedAll_append strictMode xs ys,
      List.append_assoc]

theorem errorMessage_eq (i : Nat) (err : ProcessError) :
    errorMessage i err
      = "工具调用[" ++ String.mk (Strconv.natDigits i) ++ "]处理失败: " ++ err.message := rfl

/-- C15. The error sequence of the batch loop is the list of the messages of the
calls whose processing fails, in input order, one for each of them and none for
the others; the message for the call at index `i` is the text `工具调用[`, the
decimal digits of `i`, `]处理失败: ` and the text of the error. In strict mode
the batch of the two calculator calls `add 10 20` and `operation: multiply` (not
JSON) has one message, for index 1. -/
theorem errors_are_indexed_failures :
    (∀ (strictMode : Bool) (calls : List ToolCall),
      (runLoop strictMode calls).2 = messagesOf (failedCalls strictMode 0 calls) ∧
      (runLoop strictMode calls).2.length = calls.countP (fails strictMode)) ∧
    (∀ (i : Nat) (err : ProcessError),
      errorMessage i err
        = "工具调用[" ++ String.mk (Strconv.natDigits i) ++ "]处理失败: " ++ err.message ∧
      Strconv.readDigits 0 (Strconv.natDigits i) = some i) ∧
    (runLoop true
        [mkCall "calculator" "\x7b\"operation\": \"add\", \"x\": 10, \"y\": 20\x7d",
         mkCall "calculator" "\x7boperation: multiply\x7d"]).2
      = ["工具调用[1]处理失败: " ++ (ProcessError.malformedJSON
          (Json.invalid "looking for beginning of object key string")).message] := by
  refine ⟨fun strictMode calls => ?_, fun i err => ⟨errorMessage_eq i err, natDigits_value i⟩,
    rfl⟩
  rw [runLoop_eq]
  simp only
  rw [recorded_eq_messages]
  refine ⟨rfl, ?_⟩
  rw [messagesOf, List.length_map, failedCalls_length]

/-- C19. The batch loop on `xs ++ ys` gives the output sequence of `xs` followed
by that of `ys`, and the error sequence of `xs` followed by the messages of the
failures of `ys` with their indices shifted by the length of `xs`; the output
sequence is, call by call, what each call adds on its own. -/
theorem batch_loop_splits_over_append (strictMode : Bool) (xs ys : List ToolCall) :
    (runLoop strictMode (xs ++ ys)).1 = (runLoop strictMode xs).1 ++ (runLoop strictMode ys).1 ∧
    (runLoop strictMode (xs ++ ys)).2
      = (runLoop strictMode xs).2 ++
        messagesOf ((failedCalls strictMode 0 ys).map (fun p => (p.1 + xs.length, p.2))) ∧
    (runLoop strictMode ys).2 = messagesOf (failedCalls strictMode 0 ys) ∧
    (runLoop strictMode (xs ++ ys)).1 = (xs ++ ys).flatMap (emitted strictMode) := by
  have hflat : ∀ calls : List ToolCall,
      emittedAll strictMode calls = calls.flatMap (emitted strictMode) := by
    intro calls
    induction calls with
    | nil => rfl
    | cons c rest ih => rw [emittedAll, ih, List.flatMap_cons]
  refine ⟨?_, ?_, ?_, ?_⟩
  · simp only [runLoop_eq, emittedAll_append]
  · simp only [runLoop_eq, recorded_eq_messages]
    rw [failedCalls_append, ← failedCalls_shift strictMode ys 0 xs.length]
    simp [messagesOf]
  · simp only [runLoop_eq, recorded_eq_messages]
  · simp only [runLoop_eq, hflat]


/-! ## Parameters and arguments text of the output -/

theorem mem_emitted (strictMode : Bool) (c x : ToolCall) (h : x ∈ emitted strictMode c) :
    processToolCall c strictMode = (x, none) ∨ x = c := by
  unfold emitted at h
  rcases hp : processToolCall c strictMode with ⟨r, _ | err⟩
  · rw [hp] at h
    simp only [List.mem_singleton] at h
    exact Or.inl (by rw [h])
  · rw [hp] at h
    simp only at h
    split_ifs at h
    · simp at h
    · exact Or.inr (List.mem_singleton.1 h)

theorem mem_emittedAll (strictMode : Bool) (x : ToolCall) : ∀ calls : List ToolCall,
    x ∈ emittedAll strictMode calls → ∃ c ∈ calls, x ∈ emitted strictMode c
  | [], h => by simp [emittedAll] at h
  | c :: rest, h => by
    rw [emittedAll, List.mem_append] at h
    rcases h with h | h
    · exact ⟨c, List.mem_cons_self _ _, h⟩
    · obtain ⟨c1, hc1, hx⟩ := mem_emittedAll strictMode x rest h
      exact ⟨c1, List.mem_cons_of_mem _ hc1, hx⟩

theorem repaired_or_input (strictMode : Bool) (calls : List ToolCall) (x : ToolCall)
    (h : x ∈ (runLoop strictMode calls).1) :
    x ∈ calls ∨ Json.marshal x.Parameters = .ok x.Function.Arguments := by
  rw [runLoop_eq] at h
  obtain ⟨c, hc, hx⟩ := mem_emittedAll strictMode x calls h
  rcases mem_emitted strictMode c x hx with hp | hp
  · by_cases hne : c.Function.Arguments = ""
    · have : x = c := by
        unfold processToolCall at hp
        rw [if_neg (by simpa using hne)] at hp
        exact (congrArg Prod.fst hp).symm
      exact Or.inl (by rw [this]; exact hc)
    · obtain ⟨args, P, text, _, _, ht, rfl⟩ := processToolCall_ok c x strictMode hne hp
      exact Or.inr ht
  · exact Or.inl (by rw [hp]; exact hc)

/-- C17, amended. When every input call with populated parameters has, as its
arguments text, the encoding of these parameters (as is the case when the input
calls carry no parameters), every call of the output sequence with populated
parameters has it too, in strict and in lenient mode. Whatever the input, a call
of the output sequence is an input call, unchanged, or has as its arguments text
the encoding of its parameters. -/
theorem output_keeps_consistency (strictMode : Bool) (calls : List ToolCall)
    (hin : ∀ c ∈ calls, Consistent c) :
    (∀ x ∈ (runLoop strictMode calls).1, Consistent x) ∧
    (∀ x ∈ (runLoop strictMode calls).1,
      x ∈ calls ∨ Json.marshal x.Parameters = .ok x.Function.Arguments) := by
  refine ⟨fun x hx => ?_, fun x hx => repaired_or_input strictMode calls x hx⟩
  rcases repaired_or_input strictMode calls x hx with h | h
  · exact hin x h
  · exact fun _ => h

/-- C17, amended, at the lenient batch of the calculator call `add "1.5" 2` and
the call `lookup` with the arguments `not json`, neither with parameters: the
first comes out repaired, with arguments that encode its parameters, the second
as it was. -/
theorem output_keeps_consistency_witness :
    (∀ c ∈ [mkCall "calculator" "\x7b\"operation\":\"add\",\"x\":\"1.5\",\"y\":2\x7d",
        mkCall "lookup" "not json"], Consistent c) ∧
    (runLoop false [mkCall "calculator" "\x7b\"operation\":\"add\",\"x\":\"1.5\",\"y\":2\x7d",
        mkCall "lookup" "not json"]).1
      = [{ callType := "function"
           Function := ⟨"calculator", "\x7b\"operation\":\"add\",\"x\":1.5,\"y\":2\x7d"⟩
           ID := ""
           Parameters := some [("operation", GoValue.str "add"),
             ("x", GoValue.float64 (F64.fin false 6755399441055744 (-52))),
             ("y", GoValue.int 2)] },
         mkCall "lookup" "not json"] ∧
    ((∀ x ∈ (runLoop false
          [mkCall "calculator" "\x7b\"operation\":\"add\",\"x\":\"1.5\",\"y\":2\x7d",
           mkCall "lookup" "not json"]).1, Consistent x) ∧
      (∀ x ∈ (runLoop false
          [mkCall "calculator" "\x7b\"operation\":\"add\",\"x\":\"1.5\",\"y\":2\x7d",
           mkCall "lookup" "not json"]).1,
        x ∈ [mkCall "calculator" "\x7b\"operation\":\"add\",\"x\":\"1.5\",\"y\":2\x7d",
            mkCall "lookup" "not json"]
          ∨ Json.marshal x.Parameters = .ok x.Function.Arguments)) :=
  ⟨by
      intro c hc hp
      simp only [List.mem_cons, List.mem_singleton, List.not_mem_nil, or_false] at hc
      rcases hc with h | h <;> rw [h] at hp <;> simp [mkCall, populated] at hp,
    rfl,
    output_keeps_consistency false
      [mkCall "calculator" "\x7b\"operation\":\"add\",\"x\":\"1.5\",\"y\":2\x7d",
       mkCall "lookup" "not json"]
      (by
        intro c hc hp
        simp only [List.mem_cons, List.mem_singleton, List.not_mem_nil, or_false] at hc
        rcases hc with h | h <;> rw [h] at hp <;> simp [mkCall, populated] at hp)⟩

/-- C17 as stated fails. A call with empty arguments and the parameters `a: 1`
is emitted unchanged in both modes, and a call with the arguments `not json` and
the same parameters is emitted unchanged in lenient mode; in both the parameters
are populated and their encoding `a: 1` is not the arguments text. -/
theorem output_keeps_consistency_counterexample :
    runLoop true [⟨"function", ⟨"lookup", ""⟩, "", some [("a", GoValue.float64 (F64.ofInt 1))]⟩]
      = ([⟨"function", ⟨"lookup", ""⟩, "", some [("a", GoValue.float64 (F64.ofInt 1))]⟩], []) ∧
    runLoop false [⟨"function", ⟨"lookup", ""⟩, "", some [("a", GoValue.float64 (F64.ofInt 1))]⟩]
      = ([⟨"function", ⟨"lookup", ""⟩, "", some [("a", GoValue.float64 (F64.ofInt 1))]⟩], []) ∧
    (runLoop false [⟨"function", ⟨"lookup", "not json"⟩, "",
        some [("a", GoValue.float64 (F64.ofInt 1))]⟩]).1
      = [⟨"function", ⟨"lookup", "not json"⟩, "",
          some [("a", GoValue.float64 (F64.ofInt 1))]⟩] ∧
    populated (some [("a", GoValue.float64 (F64.ofInt 1))]) = true ∧
    Json.marshal (some [("a", GoValue.float64 (F64.ofInt 1))]) = .ok "\x7b\"a\":1\x7d" ∧
    "\x7b\"a\":1\x7d" ≠ "" ∧ "\x7b\"a\":1\x7d" ≠ "not json" ∧
    ¬ Consistent ⟨"function", ⟨"lookup", ""⟩, "", some [("a", GoValue.float64 (F64.ofInt 1))]⟩ := by
  refine ⟨rfl, rfl, rfl, rfl, rfl, by decide, by decide, ?_⟩
  intro h
  have h1 := h rfl
  have h2 : Json.marshal (some [("a", GoValue.float64 (F64.ofInt 1))])
      = .ok "\x7b\"a\":1\x7d" := rfl
  simp only at h1
  rw [h2] at h1
  simp at h1


/-! ## The salvager on fenced text -/

theorem trimLeft_append_spaces : ∀ (w x : List Char), (∀ c ∈ w, Strings.isSpace c = true) →
    Strings.trimLeft (w ++ x) = Strings.trimLeft x
  | [], _, _ => rfl
  | c :: w, x, h => by
    rw [List.cons_append, Strings.trimLeft, if_pos (h c (List.mem_cons_self _ _))]
    exact trimLeft_append_spaces w x (fun d hd => h d (List.mem_cons_of_mem _ hd))

theorem trimLeft_of_head (x : List Char)
    (h : ∀ c, x.head? = some c → Strings.isSpace c = false) : Strings.trimLeft x = x := by
  cases x with
  | nil => rfl
  | cons c rest =>
    have := h c rfl
    rw [Strings.trimLeft, this]
    rfl

theorem trimRight_append_spaces (x w : List Char) (hw : ∀ c ∈ w, Strings.isSpace c = true) :
    Strings.trimRight (x ++ w) = Strings.trimRight x := by
  unfold Strings.trimRight
  rw [List.reverse_append, trimLeft_append_spaces w.reverse x.reverse
    (fun c hc => hw c (List.mem_reverse.1 hc))]

theorem trimRight_of_last (x : List Char)
    (h : ∀ c, x.getLast? = some c → Strings.isSpace c = false) : Strings.trimRight x = x := by
  unfold Strings.trimRight
  rw [trimLeft_of_head x.reverse (by rw [List.head?_reverse]; exact h), List.reverse_reverse]

theorem trimSpace_padded (w1 x w2 : List Char) (hw1 : ∀ c ∈ w1, Strings.isSpace c = true)
    (hw2 : ∀ c ∈ w2, Strings.isSpace c = true)
    (hhead : ∀ c, x.head? = some c → Strings.isSpace c = false)
    (hlast : ∀ c, x.getLast? = some c → Strings.isSpace c = false) :
    Strings.trimSpace ⟨w1 ++ x ++ w2⟩ = ⟨x⟩ := by
  unfold Strings.trimSpace
  simp only [List.append_assoc]
  rw [trimLeft_append_spaces w1 _ hw1]
  cases x with
  | nil =>
    rw [List.nil_append]
    have : Strings.trimLeft w2 = [] := by
      have := trimLeft_append_spaces w2 [] hw2
      rw [List.append_nil] at this
      exact this
    rw [this]
    rfl
  | cons c rest =>
    rw [trimLeft_of_head (c :: rest ++ w2) (fun d hd => hhead d (by simpa using hd)),
      trimRight_append_spaces _ _ hw2, trimRight_of_last _ hlast]

theorem dropPrefix_append : ∀ (p x : List Char), Strings.dropPrefix p (p ++ x) = some x
  | [], _ => by cases ‹List Char› <;> rfl
  | c :: p, x => by
    rw [List.cons_append, Strings.dropPrefix, if_pos rfl]
    exact dropPrefix_append p x

theorem trimPrefix_append (p x : List Char) :
    Strings.trimPrefix ⟨p ++ x⟩ ⟨p⟩ = ⟨x⟩ := by
  unfold Strings.trimPrefix
  simp only [dropPrefix_append]

theorem trimSuffix_append (x q : List Char) :
    Strings.trimSuffix ⟨x ++ q⟩ ⟨q⟩ = ⟨x⟩ := by
  unfold Strings.trimSuffix
  simp only [List.reverse_append, dropPrefix_append, List.reverse_reverse]

theorem tryFixJSON_fenced (s w1 w2 : List Char) (hw1 : ∀ c ∈ w1, Strings.isSpace c = true)
    (hw2 : ∀ c ∈ w2, Strings.isSpace c = true)
    (hhead : ∀ c, s.head? = some c → Strings.isSpace c = false)
    (hlast : ∀ c, s.getLast? = some c → Strings.isSpace c = false) :
    tryFixJSON ⟨w1 ++ ("```json\n".data ++ s ++ "\n```".data) ++ w2⟩ = Json.unmarshal ⟨s⟩ := by
  unfold tryFixJSON
  simp only
  rw [trimSpace_padded w1 _ w2 hw1 hw2 (by intro c hc; cases hc; decide)
    (by
      intro c hc
      rw [List.getLast?_append] at hc
      cases hc
      decide)]
  have e1 : ("```json\n".data ++ s ++ "\n```".data)
      = "```json".data ++ (('\n' :: s ++ ['\n']) ++ "```".data) := by
    simp
  have e2 : Strings.trimSpace ⟨'\n' :: s ++ ['\n']⟩ = ⟨s⟩ := by
    have := trimSpace_padded ['\n'] s ['\n'] (by intro c hc; rw [List.mem_singleton.1 hc]; decide)
      (by intro c hc; rw [List.mem_singleton.1 hc]; decide) hhead hlast
    simpa using this
  rw [e1]
  have e3 : (⟨"```json".data⟩ : String) = "```json" := rfl
  have e4 : (⟨"```".data⟩ : String) = "```" := rfl
  rw [← e3, trimPrefix_append, ← e4, trimSuffix_append, e2]


/-- C18. On a text made of whitespace, the opening fence with the `json` tag and
a newline, a body `s` that neither starts nor ends with whitespace, a newline and
the closing fence, and whitespace again, the salvager makes its one parse attempt
on `s` itself: its result is that of the decoder on `s`. -/
theorem salvager_parses_fenced_body (s w1 w2 : String)
    (hw1 : ∀ c ∈ w1.data, Strings.isSpace c = true)
    (hw2 : ∀ c ∈ w2.data, Strings.isSpace c = true)
    (hhead : ∀ c, s.data.head? = some c → Strings.isSpace c = false)
    (hlast : ∀ c, s.data.getLast? = some c → Strings.isSpace c = false) :
    tryFixJSON (w1 ++ ("```json\n" ++ s ++ "\n```") ++ w2) = Json.unmarshal s ∧
    tryFixJSON ("```json\n" ++ s ++ "\n```") = Json.unmarshal s := by
  have h1 := tryFixJSON_fenced s.data w1.data w2.data hw1 hw2 hhead hlast
  have h2 := tryFixJSON_fenced s.data [] [] (by simp) (by simp) hhead hlast
  refine ⟨?_, ?_⟩
  · rw [← h1]; rfl
  · simp only [List.nil_append, List.append_nil] at h2
    rw [← h2]; rfl

/-- C18 at the fenced object `a: 1`, bare and between a leading blank and a
trailing newline: the salvager returns what the decoder returns on the object
itself, the one-entry map; and on `{not json` the salvager fails. -/
theorem salvager_parses_fenced_body_witness :
    (∀ c ∈ " ".data, Strings.isSpace c = true) ∧
    (∀ c ∈ "\n".data, Strings.isSpace c = true) ∧
    (∀ c, "\x7b\"a\":1\x7d".data.head? = some c → Strings.isSpace c = false) ∧
    (∀ c, "\x7b\"a\":1\x7d".data.getLast? = some c → Strings.isSpace c = false) ∧
    Json.unmarshal "\x7b\"a\":1\x7d" = .ok (some [("a", GoValue.float64 (F64.ofInt 1))]) ∧
    (tryFixJSON (" " ++ ("```json\n" ++ "\x7b\"a\":1\x7d" ++ "\n```") ++ "\n")
        = Json.unmarshal "\x7b\"a\":1\x7d" ∧
      tryFixJSON ("```json\n" ++ "\x7b\"a\":1\x7d" ++ "\n```")
        = Json.unmarshal "\x7b\"a\":1\x7d") ∧
    tryFixJSON "\x7bnot json"
      = .error (Json.invalid "looking for beginning of object key string") :=
  ⟨by decide, by decide, by decide, by decide, rfl,
    salvager_parses_fenced_body "\x7b\"a\":1\x7d" " " "\n" (by decide) (by decide)
      (by decide) (by decide),
    rfl⟩


/-! ## Failures in lenient mode -/

theorem encodeFloat_fin (neg : Bool) (m : Nat) (e : Int) :
    ∃ enc, Json.encodeFloat (F64.fin neg m e) = .ok enc := by
  unfold Json.encodeFloat
  simp only
  by_cases h0 : m = 0
  · rw [if_pos h0]; exact ⟨_, rfl⟩
  · rw [if_neg h0]
    by_cases h1 : F64.absLt (F64.fin neg m e) Json.small
        ∨ ¬ F64.absLt (F64.fin neg m e) Json.large
    · rw [if_pos h1]; exact ⟨_, rfl⟩
    · rw [if_neg h1]; exact ⟨_, rfl⟩

theorem encodeFloat_ok_iff (f : F64) :
    (∃ enc, Json.encodeFloat f = .ok enc) ↔ ∃ neg m e, f = F64.fin neg m e := by
  constructor
  · intro ⟨enc, h⟩
    cases f with
    | nan => simp [Json.encodeFloat] at h
    | inf neg => simp [Json.encodeFloat] at h
    | fin neg m e => exact ⟨neg, m, e, rfl⟩
  · rintro ⟨neg, m, e, rfl⟩
    exact encodeFloat_fin neg m e

theorem encodeElems_ok_iff : ∀ xs : List GoValue,
    (∃ enc, Json.encodeElems xs = .ok enc) ↔ ∀ x ∈ xs, Encodable x
  | [] => by simp [Json.encodeElems]
  | x :: xs => by
    have ih := encodeElems_ok_iff xs
    rw [Json.encodeElems]
    constructor
    · intro ⟨enc, h⟩
      cases hx : Json.encodeValue x with
      | error err => rw [hx] at h; simp at h
      | ok a =>
        rw [hx] at h
        simp only at h
        have hrest : ∃ enc1, Json.encodeElems xs = .ok enc1 := by
          cases xs with
          | nil => exact ⟨[], by rw [Json.encodeElems]⟩
          | cons y ys =>
            simp only at h
            cases hr : Json.encodeElems (y :: ys) with
            | error err => rw [hr] at h; simp at h
            | ok r => exact ⟨r, rfl⟩
        intro z hz
        rcases List.mem_cons.1 hz with hz | hz
        · subst hz; exact ⟨a, hx⟩
        · exact ih.1 hrest z hz
    · intro h
      obtain ⟨a, ha⟩ := h x (List.mem_cons_self _ _)
      obtain ⟨r, hr⟩ := ih.2 (fun z hz => h z (List.mem_cons_of_mem _ hz))
      rw [ha]
      cases xs with
      | nil => exact ⟨_, rfl⟩
      | cons y ys =>
        simp only
        rw [hr]
        exact ⟨_, rfl⟩

theorem encodeFields_ok_iff : ∀ kvs : List (String × GoValue),
    (∃ enc, Json.encodeFields kvs = .ok enc) ↔ ∀ p ∈ kvs, Encodable p.2
  | [] => by simp [Json.encodeFields]
  | (k, x) :: xs => by
    have ih := encodeFields_ok_iff xs
    rw [Json.encodeFields]
    constructor
    · intro ⟨enc, h⟩
      cases hx : Json.encodeValue x with
      | error err => rw [hx] at h; simp at h
      | ok a =>
        rw [hx] at h
        simp only at h
        have hrest : ∃ enc1, Json.encodeFields xs = .ok enc1 := by
          cases xs with
          | nil => exact ⟨[], by rw [Json.encodeFields]⟩
          | cons y ys =>
            simp only at h
            cases hr : Json.encodeFields (y :: ys) with
            | error err => rw [hr] at h; simp at h
            | ok r => exact ⟨r, rfl⟩
        intro z hz
        rcases List.mem_cons.1 hz with hz | hz
        · subst hz; exact ⟨a, hx⟩
        · exact ih.1 hrest z hz
    · intro h
      obtain ⟨a, ha⟩ := h (k, x) (List.mem_cons_self _ _)
      obtain ⟨r, hr⟩ := ih.2 (fun z hz => h z (List.mem_cons_of_mem _ hz))
      simp only at ha
      rw [ha]
      cases xs with
      | nil => exact ⟨_, rfl⟩
      | cons y ys =>
        simp only
        rw [hr]
        exact ⟨_, rfl⟩

theorem encodable_slice (xs : List GoValue) :
    Encodable (GoValue.slice xs) ↔ ∀ x ∈ xs, Encodable x := by
  rw [← encodeElems_ok_iff]
  unfold Encodable
  rw [Json.encodeValue]
  cases Json.encodeElems xs with
  | error err => simp
  | ok body => simp

theorem encodable_map (kvs : List (String × GoValue)) :
    Encodable (GoValue.map kvs) ↔ ∀ p ∈ kvs, Encodable p.2 := by
  rw [← encodeFields_ok_iff]
  unfold Encodable
  rw [Json.encodeValue]
  cases Json.encodeFields kvs with
  | error err => simp
  | ok body => simp

theorem encodable_float (f : F64) :
    Encodable (GoValue.float64 f) ↔ ∃ neg m e, f = F64.fin neg m e := by
  rw [← encodeFloat_ok_iff]
  unfold Encodable
  rw [Json.encodeValue]

theorem marshal_ok_iff (m : GoMap) :
    (∃ text, Json.marshal m = .ok text) ↔ ∀ p ∈ m.getD [], Encodable p.2 := by
  cases m with
  | none => simp [Json.marshal]
  | some kvs =>
    rw [Option.getD_some, ← encodable_map]
    unfold Encodable Json.marshal
    simp only
    cases Json.encodeValue (GoValue.map kvs) with
    | error err => simp
    | ok body => simp

theorem ofRat_fin (neg : Bool) (num den : Nat) (f : F64)
    (h : F64.ofRat neg num den = some f) : ∃ n m e, f = F64.fin n m e := by
  unfold F64.ofRat at h
  simp only at h
  by_cases h0 : num = 0
  · rw [if_pos h0] at h
    simp only [Option.some.injEq] at h
    exact ⟨_, _, _, h.symm⟩
  · rw [if_neg h0] at h
    by_cases h1 : 971 < (F64.roundPos num den).2
    · rw [if_pos h1] at h; simp at h
    · rw [if_neg h1] at h
      simp only [Option.some.injEq] at h
      exact ⟨_, _, _, h.symm⟩


theorem scanInt_shape (cs ip r : List Char) (h : Json.scanInt cs = .ok (ip, r)) :
    ∃ d t, ip = d :: t ∧ IsDigitChar d := by
  unfold Json.scanInt at h
  cases cs with
  | nil => simp at h
  | cons c rest =>
    simp only at h
    by_cases h0 : c = '0'
    · rw [if_pos h0] at h
      simp only [Except.ok.injEq, Prod.mk.injEq] at h
      exact ⟨c, [], h.1.symm, by subst h0; unfold IsDigitChar; decide⟩
    · rw [if_neg h0] at h
      by_cases hd : Json.isDigit c = true
      · rw [if_pos hd] at h
        simp only [Except.ok.injEq, Prod.mk.injEq] at h
        exact ⟨c, _, h.1.symm, by simpa [Json.isDigit, IsDigitChar] using hd⟩
      · rw [if_neg hd] at h; simp at h

theorem scanNumber_shape (cs text r : List Char) (h : Json.scanNumber cs = .ok (text, r)) :
    (∃ d t, text = d :: t ∧ IsDigitChar d) ∨
    (∃ d t, text = Char.ofNat 45 :: d :: t ∧ IsDigitChar d) := by
  unfold Json.scanNumber at h
  simp only at h
  split at h
  · simp at h
  · rename_i ip r1 hip
    obtain ⟨d, t, hdt, hd⟩ := scanInt_shape _ ip r1 hip
    split at h
    · simp at h
    · rename_i fp r2 hfp
      split at h
      · simp at h
      · rename_i ep r3 hep
        simp only [Except.ok.injEq, Prod.mk.injEq] at h
        obtain ⟨h1, _⟩ := h
        subst hdt
        cases cs with
        | nil =>
          simp only [List.nil_append] at h1
          exact Or.inl ⟨d, t ++ fp ++ ep, by rw [← h1]; simp, hd⟩
        | cons c rest =>
          simp only at h1
          by_cases hc : c = '-'
          · rw [if_pos hc] at h1
            subst hc
            exact Or.inr ⟨d, t ++ fp ++ ep, by rw [← h1]; simp, hd⟩
          · rw [if_neg hc] at h1
            exact Or.inl ⟨d, t ++ fp ++ ep, by rw [← h1]; simp, hd⟩

theorem parseFloat_body (s : String) (f : F64) (hs : Strconv.special s.data = none)
    (h : Strconv.parseFloat s = some f) :
    ∃ neg body, Strconv.parseBody neg body s.data = some f := by
  unfold Strconv.parseFloat at h
  rw [hs] at h
  simp only at h
  split at h
  · simp at h
  · split_ifs at h
    · exact ⟨_, _, h⟩
    · exact ⟨_, _, h⟩
    · exact ⟨_, _, h⟩

theorem parseFloat_number_fin (cs text r : List Char) (f : F64)
    (hs : Json.scanNumber cs = .ok (text, r)) (h : Strconv.parseFloat ⟨text⟩ = some f) :
    ∃ neg m e, f = F64.fin neg m e := by
  have hsp : Strconv.special text = none := by
    rcases scanNumber_shape cs text r hs with ⟨d, t, rfl, hd⟩ | ⟨d, t, rfl, hd⟩
    · exact special_digits d t hd
    · exact special_neg_digits d t hd
  obtain ⟨neg, body, hb⟩ := parseFloat_body ⟨text⟩ f hsp h
  obtain ⟨num, den, _, ho⟩ := parseBody_form neg body _ f hb
  exact ofRat_fin neg num den f ho

theorem convertNumber_encodable (cs text r : List Char) (saved : Option Json.JsonError)
    (hs : Json.scanNumber cs = .ok (text, r)) :
    Encodable (Json.convertNumber text saved).1 := by
  unfold Json.convertNumber
  split
  · rename_i f hf
    exact (encodable_float f).2 (parseFloat_number_fin cs text r f hs hf)
  · exact ⟨_, by rw [Json.encodeValue]⟩

theorem encodable_insert (k : String) (v : GoValue) (acc : List (String × GoValue))
    (hv : Encodable v) (hacc : ∀ p ∈ acc, Encodable p.2) :
    ∀ p ∈ GoMap.insert k v acc, Encodable p.2 := by
  intro p hp
  rcases mem_insert k v acc p hp with h | h
  · subst h; exact hv
  · exact hacc p h

theorem parseValue_encodable (fuel : Nat) (ih : DecoderEncodable fuel) :
    ∀ d cs saved v rest saved1,
      Json.parseValue (fuel + 1) d cs saved = .ok (v, rest, saved1) → Encodable v := by
  intro d cs saved v rest saved1 h
  rw [Json.parseValue] at h
  split at h
  · simp at h
  · rename_i c rest0 _
    split_ifs at h with h1 h2 h3 h4 h5 h6 h7 h8 h9
    · split at h
      · simp at h
      · rename_i c2 rest1 _
        split_ifs at h with h11
        · simp only [Except.ok.injEq, Prod.mk.injEq] at h
          rw [← h.1]
          exact (encodable_map []).2 (by simp)
        · split at h
          · rename_i kvs rest2 saved2 hm
            simp only [Except.ok.injEq, Prod.mk.injEq] at h
            rw [← h.1]
            exact (encodable_map kvs).2
              (ih.2.2 (d + 1) _ [] saved kvs rest2 saved2 (by simp) hm)
          · simp at h
    · split at h
      · simp at h
      · rename_i c2 rest1 _
        split_ifs at h with h11
        · simp only [Except.ok.injEq, Prod.mk.injEq] at h
          rw [← h.1]
          exact (encodable_slice []).2 (by simp)
        · split at h
          · rename_i xs rest2 saved2 hm
            simp only [Except.ok.injEq, Prod.mk.injEq] at h
            rw [← h.1]
            exact (encodable_slice xs).2
              (ih.2.1 (d + 1) _ [] saved xs rest2 saved2 (by simp) hm)
          · simp at h
    · split at h
      · simp only [Except.ok.injEq, Prod.mk.injEq] at h
        rw [← h.1]
        exact ⟨_, by rw [Json.encodeValue]⟩
      · simp at h
    · split at h
      · rename_i v1 rest1 hw
        simp only [Except.ok.injEq, Prod.mk.injEq] at h
        rw [← h.1, expectWord_value _ _ _ _ _ hw]
        exact ⟨_, by rw [Json.encodeValue]⟩
      · simp at h
    · split at h
      · rename_i v1 rest1 hw
        simp only [Except.ok.injEq, Prod.mk.injEq] at h
        rw [← h.1, expectWord_value _ _ _ _ _ hw]
        exact ⟨_, by rw [Json.encodeValue]⟩
      · simp at h
    · split at h
      · rename_i v1 rest1 hw
        simp only [Except.ok.injEq, Prod.mk.injEq] at h
        rw [← h.1, expectWord_value _ _ _ _ _ hw]
        exact ⟨_, by rw [Json.encodeValue]⟩
      · simp at h
    · split at h
      · rename_i text rest1 hsc
        simp only [Except.ok.injEq, Prod.mk.injEq] at h
        rw [← h.1]
        exact convertNumber_encodable _ text rest1 saved hsc
      · simp at h

theorem parseElems_encodable (fuel : Nat) (ih : DecoderEncodable fuel) :
    ∀ d cs acc saved xs rest saved1, (∀ x ∈ acc, Encodable x) →
      Json.parseElems (fuel + 1) d cs acc saved = .ok (xs, rest, saved1) →
      ∀ x ∈ xs, Encodable x := by
  intro d cs acc saved xs rest saved1 hacc h
  rw [Json.parseElems] at h
  split at h
  · simp at h
  · rename_i v rest0 saved0 hv
    have hgv := ih.1 d cs saved v rest0 saved0 hv
    have hacc1 : ∀ x ∈ v :: acc, Encodable x := by
      intro x hx
      rcases List.mem_cons.1 hx with hx | hx
      · subst hx; exact hgv
      · exact hacc x hx
    split at h
    · simp at h
    · rename_i c rest1 _
      split_ifs at h with h1 h2
      · exact ih.2.1 d rest1 (v :: acc) saved0 xs rest saved1 hacc1 h
      · simp only [Except.ok.injEq, Prod.mk.injEq] at h
        rw [← h.1]
        intro x hx
        exact hacc1 x (List.mem_reverse.1 hx)

theorem parseMembers_encodable (fuel : Nat) (ih : DecoderEncodable fuel) :
    ∀ d cs acc saved kvs rest saved1, (∀ p ∈ acc, Encodable p.2) →
      Json.parseMembers (fuel + 1) d cs acc saved = .ok (kvs, rest, saved1) →
      ∀ p ∈ kvs, Encodable p.2 := by
  intro d cs acc saved kvs rest saved1 hacc h
  rw [Json.parseMembers] at h
  split at h
  · simp at h
  · rename_i q rest0 _
    split_ifs at h with h1
    split at h
    · simp at h
    · rename_i k rest1 hk
      split at h
      · simp at h
      · rename_i c rest2 _
        split_ifs at h with h2
        split at h
        · simp at h
        · rename_i v rest3 saved3 hv
          have hgv := ih.1 d rest2 saved v rest3 saved3 hv
          have hacc1 := encodable_insert k v acc hgv hacc
          split at h
          · simp at h
          · rename_i c4 rest4 _
            split_ifs at h with h3 h4
            · exact ih.2.2 d rest4 _ saved3 kvs rest saved1 hacc1 h
            · simp only [Except.ok.injEq, Prod.mk.injEq] at h
              rw [← h.1]
              exact hacc1

theorem decoderEncodable : ∀ fuel : Nat, DecoderEncodable fuel
  | 0 => by
    refine ⟨?_, ?_, ?_⟩
    · intro d cs saved v rest saved1 h; simp [Json.parseValue] at h
    · intro d cs acc saved xs rest saved1 _ h; simp [Json.parseElems] at h
    · intro d cs acc saved kvs rest saved1 _ h; simp [Json.parseMembers] at h
  | fuel + 1 =>
    ⟨parseValue_encodable fuel (decoderEncodable fuel),
      parseElems_encodable fuel (decoderEncodable fuel),
      parseMembers_encodable fuel (decoderEncodable fuel)⟩

theorem unmarshal_encodable (s : String) (m : GoMap) (h : Json.unmarshal s = .ok m) :
    ∀ p ∈ m.getD [], Encodable p.2 := by
  unfold Json.unmarshal at h
  split at h
  · simp at h
  · rename_i v rest saved hv
    have hg := (decoderEncodable _).1 0 _ none v rest saved hv
    split at h
    · simp at h
    · split at h
      · simp only [Except.ok.injEq] at h; subst h
        exact (encodable_map _).1 hg
      · simp at h
      · simp only [Except.ok.injEq] at h; subst h; simp
      · simp at h
      · simp at h
      · simp at h
      · simp at h

theorem parseArguments_encodable (s : String) (strictMode : Bool) (args : GoMap)
    (h : parseArguments s strictMode = .ok args) : ∀ p ∈ args.getD [], Encodable p.2 := by
  unfold parseArguments at h
  split at h
  · rename_i a ha
    simp only [Except.ok.injEq] at h
    subst h
    exact unmarshal_encodable s a ha
  · split_ifs at h
    split at h
    · rename_i a ha
      simp only [Except.ok.injEq] at h
      subst h
      exact unmarshal_encodable _ a ha
    · simp at h


theorem tryConvertString_encodable (s : String) (w : GoValue)
    (h : tryConvertString s = .ok w) :
    Encodable w ∨ ∃ f, w = GoValue.float64 f ∧ (f = F64.nan ∨ ∃ neg, f = F64.inf neg) := by
  unfold tryConvertString at h
  simp only at h
  split_ifs at h
  · simp only [Except.ok.injEq] at h; subst h; exact Or.inl ⟨_, by rw [Json.encodeValue]⟩
  · simp only [Except.ok.injEq] at h; subst h; exact Or.inl ⟨_, by rw [Json.encodeValue]⟩
  · split at h
    · simp only [Except.ok.injEq] at h; subst h; exact Or.inl ⟨_, by rw [Json.encodeValue]⟩
    · split at h
      · rename_i f _
        simp only [Except.ok.injEq] at h; subst h
        cases f with
        | nan => exact Or.inr ⟨_, rfl, Or.inl rfl⟩
        | inf neg => exact Or.inr ⟨_, rfl, Or.inr ⟨neg, rfl⟩⟩
        | fin neg m e => exact Or.inl ((encodable_float _).2 ⟨neg, m, e, rfl⟩)
      · simp only [Except.ok.injEq] at h; subst h; exact Or.inl ⟨_, by rw [Json.encodeValue]⟩

theorem fixParameterType_encodable (v w : GoValue) (hv : Encodable v)
    (h : fixParameterType v = .ok w) :
    Encodable w ∨ ∃ s f, v = GoValue.str s ∧ w = GoValue.float64 f ∧
      (f = F64.nan ∨ ∃ neg, f = F64.inf neg) := by
  cases v with
  | nil => simp only [fixParameterType, Except.ok.injEq] at h; subst h; exact Or.inl hv
  | bool b => simp only [fixParameterType, Except.ok.injEq] at h; subst h; exact Or.inl hv
  | str s =>
    rcases tryConvertString_encodable s w h with h1 | ⟨f, hf, hn⟩
    · exact Or.inl h1
    · exact Or.inr ⟨s, f, rfl, hf, hn⟩
  | float64 f =>
    simp only [fixParameterType] at h
    split_ifs at h
    · simp only [Except.ok.injEq] at h; subst h; exact Or.inl ⟨_, by rw [Json.encodeValue]⟩
    · simp only [Except.ok.injEq] at h; subst h; exact Or.inl hv
  | int n => simp only [fixParameterType, Except.ok.injEq] at h; subst h; exact Or.inl hv
  | int64 n => simp only [fixParameterType, Except.ok.injEq] at h; subst h; exact Or.inl hv
  | slice xs => simp only [fixParameterType, Except.ok.injEq] at h; subst h; exact Or.inl hv
  | map kvs => simp only [fixParameterType, Except.ok.injEq] at h; subst h; exact Or.inl hv

theorem coerced_encodable : ∀ (kvs fixed : List (String × GoValue)),
    CoercedEntries kvs fixed → (∀ p ∈ kvs, Encodable p.2) →
    (∀ q ∈ fixed, Encodable q.2) ∨
    ∃ k s f, (k, GoValue.str s) ∈ kvs ∧ tryConvertString s = .ok (GoValue.float64 f) ∧
      (k, GoValue.float64 f) ∈ fixed ∧ (f = F64.nan ∨ ∃ neg, f = F64.inf neg)
  | [], _, h, _ => by cases h; exact Or.inl (by simp)
  | (k1, v1) :: kvs, _, h, henc => by
    cases h with
    | cons hpq hrest =>
      rename_i q fixed
      obtain ⟨k2, w1⟩ := q
      obtain ⟨hk, hr⟩ := hpq
      simp only at hk hr
      subst hk
      rcases coerced_encodable kvs fixed hrest
          (fun p hp => henc p (List.mem_cons_of_mem _ hp)) with ih | ⟨k, s, f, h1, h2, h3, h4⟩
      · rcases fixParameterType_encodable v1 w1 (henc _ (List.mem_cons_self _ _)) hr with
          hw | ⟨s, f, hv, hw, hn⟩
        · left
          intro q hq
          rcases List.mem_cons.1 hq with hq | hq
          · subst hq; exact hw
          · exact ih q hq
        · subst hv hw
          exact Or.inr ⟨k2, s, f, List.mem_cons_self _ _, hr, List.mem_cons_self _ _, hn⟩
      · exact Or.inr ⟨k, s, f, List.mem_cons_of_mem _ h1, h2, List.mem_cons_of_mem _ h3, h4⟩

theorem coerced_mem : ∀ (kvs fixed : List (String × GoValue)) (k : String) (v : GoValue),
    CoercedEntries kvs fixed → (k, v) ∈ kvs →
    ∃ w, fixParameterType v = .ok w ∧ (k, w) ∈ fixed
  | [], _, _, _, _, hm => by simp at hm
  | (k1, v1) :: kvs, _, k, v, h, hm => by
    cases h with
    | cons hpq hrest =>
      rename_i q fixed
      obtain ⟨k2, w1⟩ := q
      obtain ⟨hk, hr⟩ := hpq
      simp only at hk hr
      subst hk
      rcases List.mem_cons.1 hm with hm | hm
      · simp only [Prod.mk.injEq] at hm
        obtain ⟨rfl, rfl⟩ := hm
        exact ⟨w1, hr, List.mem_cons_self _ _⟩
      · obtain ⟨w, hw, hmem⟩ := coerced_mem kvs fixed k v hrest hm
        exact ⟨w, hw, List.mem_cons_of_mem _ hmem⟩

theorem validated_coerced (args : GoMap) (name : String) (fixed : List (String × GoValue))
    (h : validateAndFixParameters args name = .ok (some fixed)) :
    CoercedEntries (args.getD []) fixed := by
  obtain ⟨fixed1, hf, hm⟩ := validateAndFixParameters_ok args (some fixed) name h
  obtain ⟨fixed2, hf2, hc⟩ := fixEntries_total (args.getD [])
  rw [hf] at hf2
  simp only [Except.ok.injEq] at hf2
  simp only [Option.some.injEq] at hm
  rw [hm, hf2]
  exact hc

theorem parseArguments_empty (strictMode : Bool) (args : GoMap) :
    parseArguments "" strictMode ≠ .ok args := by
  cases strictMode <;> intro h <;> cases h

theorem processToolCall_eq (c : ToolCall) (strictMode : Bool) (args P : GoMap)
    (hp : parseArguments c.Function.Arguments strictMode = .ok args)
    (he : enhanceArguments args c.Function.Name strictMode = .ok P) :
    processToolCall c strictMode =
      match Json.marshal P with
      | .error err => (c, some (ProcessError.reencodeFailed err))
      | .ok argsJSON =>
        ({ c with Function := { c.Function with Arguments := argsJSON }, Parameters := P }, none) := by
  have hne : c.Function.Arguments ≠ "" := by
    intro h0
    rw [h0] at hp
    exact parseArguments_empty strictMode args hp
  unfold processToolCall
  rw [if_pos hne, hp]
  simp only [he]

/-- C20, amended. In lenient mode `processToolCall` returns no error, or the
arguments are not empty and both the direct decoding and the salvage attempt
fail, or the arguments decode to a map, validation succeeds, and a top-level
string of the map is one that the repair reads as a NaN or an infinity, which
then stands in the repaired map and makes the re-encoding fail. Conversely,
whenever the arguments decode, validation succeeds and such a string is among
the top-level values, the re-encoding fails. -/
theorem lenient_failure_causes (c : ToolCall) :
    ((processToolCall c false).2 = none ∨
      (c.Function.Arguments ≠ "" ∧ ∃ e1 e2,
        Json.unmarshal c.Function.Arguments = .error e1 ∧
        tryFixJSON c.Function.Arguments = .error e2 ∧
        processToolCall c false = (c, some (ProcessError.unrecoverableJSON e2))) ∨
      (c.Function.Arguments ≠ "" ∧ ∃ args fixed k s f msg,
        parseArguments c.Function.Arguments false = .ok args ∧
        validateAndFixParameters args c.Function.Name = .ok (some fixed) ∧
        (k, GoValue.str s) ∈ args.getD [] ∧
        tryConvertString s = .ok (GoValue.float64 f) ∧
        (k, GoValue.float64 f) ∈ fixed ∧
        (f = F64.nan ∨ ∃ neg, f = F64.inf neg) ∧
        Json.marshal (some fixed) = .error msg ∧
        processToolCall c false = (c, some (ProcessError.reencodeFailed msg)))) ∧
    (∀ args fixed k s f,
      parseArguments c.Function.Arguments false = .ok args →
      validateAndFixParameters args c.Function.Name = .ok (some fixed) →
      (k, GoValue.str s) ∈ args.getD [] →
      tryConvertString s = .ok (GoValue.float64 f) →
      (f = F64.nan ∨ ∃ neg, f = F64.inf neg) →
      ∃ msg, processToolCall c false = (c, some (ProcessError.reencodeFailed msg))) := by
  refine ⟨?_, ?_⟩
  · by_cases hne : c.Function.Arguments = ""
    · left
      unfold processToolCall
      rw [if_neg (by simpa using hne)]
    · cases hpa : parseArguments c.Function.Arguments false with
      | error err =>
        right; left
        refine ⟨hne, ?_⟩
        have hpc : processToolCall c false = (c, some err) := by
          unfold processToolCall
          rw [if_pos hne, hpa]
        unfold parseArguments at hpa
        cases hu : Json.unmarshal c.Function.Arguments with
        | ok a => rw [hu] at hpa; simp at hpa
        | error e1 =>
          rw [hu] at hpa
          simp only [Bool.false_eq_true, if_false] at hpa
          cases ht : tryFixJSON c.Function.Arguments with
          | ok a => rw [ht] at hpa; simp at hpa
          | error e2 =>
            rw [ht] at hpa
            simp only [Except.error.injEq] at hpa
            exact ⟨e1, e2, rfl, rfl, by rw [hpc, hpa]⟩
      | ok args =>
        have henc := parseArguments_encodable _ _ args hpa
        cases hv : validateAndFixParameters args c.Function.Name with
        | error e =>
          left
          have he : enhanceArguments args c.Function.Name false = .ok args := by
            unfold enhanceArguments
            rw [hv]
            simp
          obtain ⟨text, ht⟩ := (marshal_ok_iff args).2 henc
          rw [processToolCall_eq c false args args hpa he, ht]
        | ok P =>
          have he : enhanceArguments args c.Function.Name false = .ok P := by
            unfold enhanceArguments
            rw [hv]
          obtain ⟨fixed, _, hP⟩ := validateAndFixParameters_ok args P _ hv
          subst hP
          have hco := validated_coerced args _ fixed hv
          cases hm : Json.marshal (some fixed) with
          | ok text =>
            left
            rw [processToolCall_eq c false args _ hpa he, hm]
          | error msg =>
            right; right
            refine ⟨hne, ?_⟩
            rcases coerced_encodable _ fixed hco henc with hall | ⟨k, s, f, h1, h2, h3, h4⟩
            · obtain ⟨text, ht⟩ := (marshal_ok_iff (some fixed)).2 hall
              rw [ht] at hm
              cases hm
            · exact ⟨args, fixed, k, s, f, msg, rfl, hv, h1, h2, h3, h4, hm,
                by rw [processToolCall_eq c false args _ hpa he, hm]⟩
  · intro args fixed k s f hpa hv hmem hconv hnf
    have he : enhanceArguments args c.Function.Name false = .ok (some fixed) := by
      unfold enhanceArguments
      rw [hv]
    have hco := validated_coerced args _ fixed hv
    obtain ⟨w, hw, hwmem⟩ := coerced_mem _ fixed k _ hco hmem
    have hwf : w = GoValue.float64 f := by
      simp only [fixParameterType] at hw
      rw [hconv] at hw
      simp only [Except.ok.injEq] at hw
      exact hw.symm
    subst hwf
    cases hm : Json.marshal (some fixed) with
    | ok text =>
      have hall := (marshal_ok_iff (some fixed)).1 ⟨text, hm⟩
      obtain ⟨neg, m, e, hfin⟩ := (encodable_float f).1 (hall _ hwmem)
      subst hfin
      rcases hnf with h | ⟨n, h⟩ <;> cases h
    | error msg =>
      exact ⟨msg, by rw [processToolCall_eq c false args _ hpa he, hm]⟩

/-- C20, amended, at the lenient call `lookup` with the arguments `a: "Inf"`:
the arguments decode, validation succeeds with the positive infinity under `a`,
and the re-encoding fails; with `a: "1e3"` the same call succeeds. -/
theorem lenient_failure_causes_witness :
    parseArguments (mkCall "lookup" "\x7b\"a\":\"Inf\"\x7d").Function.Arguments false
      = .ok (some [("a", GoValue.str "Inf")]) ∧
    validateAndFixParameters (some [("a", GoValue.str "Inf")])
        (mkCall "lookup" "\x7b\"a\":\"Inf\"\x7d").Function.Name
      = .ok (some [("a", GoValue.float64 (F64.inf false))]) ∧
    tryConvertString "Inf" = .ok (GoValue.float64 (F64.inf false)) ∧
    (∃ msg, processToolCall (mkCall "lookup" "\x7b\"a\":\"Inf\"\x7d") false
      = (mkCall "lookup" "\x7b\"a\":\"Inf\"\x7d", some (ProcessError.reencodeFailed msg))) ∧
    (processToolCall (mkCall "lookup" "\x7b\"a\":\"1e3\"\x7d") false).2 = none :=
  ⟨rfl, rfl, rfl,
    (lenient_failure_causes (mkCall "lookup" "\x7b\"a\":\"Inf\"\x7d")).2
      (some [("a", GoValue.str "Inf")]) [("a", GoValue.float64 (F64.inf false))] "a" "Inf"
      (F64.inf false) rfl rfl (List.mem_cons_self _ _) rfl (Or.inr ⟨false, rfl⟩),
    rfl⟩

/-- C20 as stated fails. In lenient mode the call `lookup` with the arguments
`a: "NaN"` decodes directly, its string is repaired into the NaN that the float
parse reads, and the re-encoding fails: an error is returned although the
arguments parse to a mapping. The same happens with `"Inf"`, and with the
calculator call `add "NaN" 2`, which passes validation. -/
theorem lenient_failure_counterexample :
    Json.unmarshal "\x7b\"a\":\"NaN\"\x7d" = .ok (some [("a", GoValue.str "NaN")]) ∧
    tryConvertString "NaN" = .ok (GoValue.float64 F64.nan) ∧
    processToolCall (mkCall "lookup" "\x7b\"a\":\"NaN\"\x7d") false
      = (mkCall "lookup" "\x7b\"a\":\"NaN\"\x7d",
          some (ProcessError.reencodeFailed "json: unsupported value: NaN")) ∧
    processToolCall (mkCall "lookup" "\x7b\"a\":\"Inf\"\x7d") false
      = (mkCall "lookup" "\x7b\"a\":\"Inf\"\x7d",
          some (ProcessError.reencodeFailed "json: unsupported value: +Inf")) ∧
    validateAndFixParameters
        (some [("operation", GoValue.str "add"), ("x", GoValue.str "NaN"),
          ("y", GoValue.float64 (F64.ofInt 2))]) "calculator"
      = .ok (some [("operation", GoValue.str "add"), ("x", GoValue.float64 F64.nan),
          ("y", GoValue.int 2)]) ∧
    processToolCall
        (mkCall "calculator" "\x7b\"operation\":\"add\",\"x\":\"NaN\",\"y\":2\x7d") false
      = (mkCall "calculator" "\x7b\"operation\":\"add\",\"x\":\"NaN\",\"y\":2\x7d",
          some (ProcessError.reencodeFailed "json: unsupported value: NaN")) ∧
    (runLoop false [mkCall "lookup" "\x7b\"a\":\"NaN\"\x7d"]).2
      = ["工具调用[0]处理失败: " ++
          (ProcessError.reencodeFailed "json: unsupported value: NaN").message] :=
  ⟨rfl, rfl, rfl, rfl, rfl, rfl, rfl⟩


/-! ## Decoding failures -/

theorem parseArguments_salvaged (s : String) (e : Json.JsonError) (args : GoMap)
    (hparse : Json.unmarshal s = .error e) (hfix : tryFixJSON s = .ok args) :
    parseArguments s false = .ok args := by
  unfold parseArguments
  rw [hparse]
  simp only [Bool.false_eq_true, if_false]
  rw [hfix]

theorem lenient_after_decoding (c : ToolCall) (args : GoMap)
    (hpa : parseArguments c.Function.Arguments false = .ok args) :
    (processToolCall c false).2 = none ∨
    ∃ fixed k s f msg,
      validateAndFixParameters args c.Function.Name = .ok (some fixed) ∧
      (k, GoValue.str s) ∈ args.getD [] ∧
      tryConvertString s = .ok (GoValue.float64 f) ∧
      (k, GoValue.float64 f) ∈ fixed ∧
      (f = F64.nan ∨ ∃ neg, f = F64.inf neg) ∧
      Json.marshal (some fixed) = .error msg ∧
      processToolCall c false = (c, some (ProcessError.reencodeFailed msg)) := by
  have henc := parseArguments_encodable _ _ args hpa
  cases hv : validateAndFixParameters args c.Function.Name with
  | error e =>
    left
    have he : enhanceArguments args c.Function.Name false = .ok args := by
      unfold enhanceArguments
      rw [hv]
      simp
    obtain ⟨text, ht⟩ := (marshal_ok_iff args).2 henc
    rw [processToolCall_eq c false args args hpa he, ht]
  | ok P =>
    have he : enhanceArguments args c.Function.Name false = .ok P := by
      unfold enhanceArguments
      rw [hv]
    obtain ⟨fixed, _, hP⟩ := validateAndFixParameters_ok args P _ hv
    subst hP
    have hco := validated_coerced args _ fixed hv
    cases hm : Json.marshal (some fixed) with
    | ok text =>
      left
      rw [processToolCall_eq c false args _ hpa he, hm]
    | error msg =>
      right
      rcases coerced_encodable _ fixed hco henc with hall | ⟨k, s, f, h1, h2, h3, h4⟩
      · obtain ⟨text, ht⟩ := (marshal_ok_iff (some fixed)).2 hall
        rw [ht] at hm
        cases hm
      · exact ⟨fixed, k, s, f, msg, rfl, h1, h2, h3, h4, hm,
          by rw [processToolCall_eq c false args _ hpa he, hm]⟩

theorem lenient_nonfinite_fails (c : ToolCall) (args : GoMap) (fixed : List (String × GoValue))
    (k s : String) (f : F64)
    (hpa : parseArguments c.Function.Arguments false = .ok args)
    (hv : validateAndFixParameters args c.Function.Name = .ok (some fixed))
    (hmem : (k, GoValue.str s) ∈ args.getD [])
    (hconv : tryConvertString s = .ok (GoValue.float64 f))
    (hnf : f = F64.nan ∨ ∃ neg, f = F64.inf neg) :
    ∃ msg, processToolCall c false = (c, some (ProcessError.reencodeFailed msg)) := by
  have he : enhanceArguments args c.Function.Name false = .ok (some fixed) := by
    unfold enhanceArguments
    rw [hv]
  have hco := validated_coerced args _ fixed hv
  obtain ⟨w, hw, hwmem⟩ := coerced_mem _ fixed k _ hco hmem
  have hwf : w = GoValue.float64 f := by
    simp only [fixParameterType] at hw
    rw [hconv] at hw
    simp only [Except.ok.injEq] at hw
    exact hw.symm
  subst hwf
  cases hm : Json.marshal (some fixed) with
  | ok text =>
    have hall := (marshal_ok_iff (some fixed)).1 ⟨text, hm⟩
    obtain ⟨neg, m, e, hfin⟩ := (encodable_float f).1 (hall _ hwmem)
    subst hfin
    rcases hnf with h | ⟨n, h⟩ <;> cases h
  | error msg =>
    exact ⟨msg, by rw [processToolCall_eq c false args _ hpa he, hm]⟩

/-- C6, amended. For a call whose non-empty arguments are not a JSON object, strict
mode fails with the malformed-JSON error of the decoder, whatever the repair
attempt would give, and returns the call as it was; lenient mode fails with the
unrecoverable-JSON error exactly when the repair attempt fails too, and then with
the error of that attempt. When the repair attempt succeeds, lenient mode
returns no error, or validation of the salvaged map succeeds, a top-level string
of it is one that the repair reads as a NaN or an infinity, and the call fails
with the re-encoding error; whenever validation succeeds and such a string is
among the salvaged values, the call does fail so. -/
theorem strict_decoding_failure_skips_repair (c : ToolCall) (e : Json.JsonError)
    (hne : c.Function.Arguments ≠ "")
    (hparse : Json.unmarshal c.Function.Arguments = .error e) :
    processToolCall c true = (c, some (ProcessError.malformedJSON e)) ∧
    (∀ e1, (processToolCall c false).2 = some (ProcessError.unrecoverableJSON e1)
      ↔ tryFixJSON c.Function.Arguments = .error e1) ∧
    (∀ e1, tryFixJSON c.Function.Arguments = .error e1 →
      processToolCall c false = (c, some (ProcessError.unrecoverableJSON e1))) ∧
    (∀ args, tryFixJSON c.Function.Arguments = .ok args →
      (processToolCall c false).2 = none ∨
      ∃ fixed k s f msg,
        validateAndFixParameters args c.Function.Name = .ok (some fixed) ∧
        (k, GoValue.str s) ∈ args.getD [] ∧
        tryConvertString s = .ok (GoValue.float64 f) ∧
        (k, GoValue.float64 f) ∈ fixed ∧
        (f = F64.nan ∨ ∃ neg, f = F64.inf neg) ∧
        Json.marshal (some fixed) = .error msg ∧
        processToolCall c false = (c, some (ProcessError.reencodeFailed msg))) ∧
    (∀ args fixed k s f, tryFixJSON c.Function.Arguments = .ok args →
      validateAndFixParameters args c.Function.Name = .ok (some fixed) →
      (k, GoValue.str s) ∈ args.getD [] →
      tryConvertString s = .ok (GoValue.float64 f) →
      (f = F64.nan ∨ ∃ neg, f = F64.inf neg) →
      ∃ msg, processToolCall c false = (c, some (ProcessError.reencodeFailed msg))) := by
  refine ⟨?_, ?_, ?_, ?_, ?_⟩
  · simp [processToolCall, parseArguments, hne, hparse]
  · intro e1
    simp only [processToolCall, parseArguments, hne, hparse, ne_eq, not_false_eq_true,
      if_true, Bool.false_eq_true, if_false]
    cases hfix : tryFixJSON c.Function.Arguments with
    | error e2 => simp
    | ok args =>
      simp only [enhanceArguments]
      cases validateAndFixParameters args c.Function.Name with
      | error err =>
        simp only [Bool.false_eq_true, if_false]
        split <;> simp
      | ok m =>
        simp only
        split <;> simp
  · intro e1 hfix
    simp [processToolCall, parseArguments, hne, hparse, hfix]
  · intro args hfix
    exact lenient_after_decoding c args (parseArguments_salvaged _ e args hparse hfix)
  · intro args fixed k s f hfix hv hmem hconv hnf
    exact lenient_nonfinite_fails c args fixed k s f
      (parseArguments_salvaged _ e args hparse hfix) hv hmem hconv hnf

/-- C6, amended, at a JSON object inside a code fence: strict mode fails although
the repair attempt succeeds, and lenient mode succeeds; with the string `Inf` in
the object, validation succeeds and lenient mode fails with the re-encoding
error. -/
theorem strict_decoding_failure_skips_repair_witness :
    (mkCall "lookup" "```json\n\x7b\"a\":1\x7d\n```").Function.Arguments ≠ "" ∧
    Json.unmarshal (mkCall "lookup" "```json\n\x7b\"a\":1\x7d\n```").Function.Arguments
      = .error (Json.invalid "looking for beginning of value") ∧
    tryFixJSON "```json\n\x7b\"a\":1\x7d\n```"
      = .ok (some [("a", GoValue.float64 (F64.ofInt 1))]) ∧
    (processToolCall (mkCall "lookup" "```json\n\x7b\"a\":1\x7d\n```") false).2 = none ∧
    processToolCall (mkCall "lookup" "```json\n\x7b\"a\":1\x7d\n```") true
      = (mkCall "lookup" "```json\n\x7b\"a\":1\x7d\n```",
          some (ProcessError.malformedJSON (Json.invalid "looking for beginning of value"))) ∧
    (∀ e1, (processToolCall (mkCall "lookup" "```json\n\x7b\"a\":1\x7d\n```") false).2
        = some (ProcessError.unrecoverableJSON e1)
      ↔ tryFixJSON (mkCall "lookup" "```json\n\x7b\"a\":1\x7d\n```").Function.Arguments
        = .error e1) ∧
    (∀ e1, tryFixJSON (mkCall "lookup" "```json\n\x7b\"a\":1\x7d\n```").Function.Arguments
        = .error e1 →
      processToolCall (mkCall "lookup" "```json\n\x7b\"a\":1\x7d\n```") false
        = (mkCall "lookup" "```json\n\x7b\"a\":1\x7d\n```",
            some (ProcessError.unrecoverableJSON e1))) ∧
    (mkCall "lookup" "```json\n\x7b\"a\":\"Inf\"\x7d\n```").Function.Arguments ≠ "" ∧
    Json.unmarshal (mkCall "lookup" "```json\n\x7b\"a\":\"Inf\"\x7d\n```").Function.Arguments
      = .error (Json.invalid "looking for beginning of value") ∧
    tryFixJSON (mkCall "lookup" "```json\n\x7b\"a\":\"Inf\"\x7d\n```").Function.Arguments
      = .ok (some [("a", GoValue.str "Inf")]) ∧
    (∃ msg, processToolCall (mkCall "lookup" "```json\n\x7b\"a\":\"Inf\"\x7d\n```") false
      = (mkCall "lookup" "```json\n\x7b\"a\":\"Inf\"\x7d\n```",
          some (ProcessError.reencodeFailed msg))) :=
  ⟨by decide, rfl, rfl, rfl,
    (strict_decoding_failure_skips_repair (mkCall "lookup" "```json\n\x7b\"a\":1\x7d\n```")
      (Json.invalid "looking for beginning of value") (by decide) rfl).1,
    (strict_decoding_failure_skips_repair (mkCall "lookup" "```json\n\x7b\"a\":1\x7d\n```")
      (Json.invalid "looking for beginning of value") (by decide) rfl).2.1,
    (strict_decoding_failure_skips_repair (mkCall "lookup" "```json\n\x7b\"a\":1\x7d\n```")
      (Json.invalid "looking for beginning of value") (by decide) rfl).2.2.1,
    by decide, rfl, rfl,
    (strict_decoding_failure_skips_repair
      (mkCall "lookup" "```json\n\x7b\"a\":\"Inf\"\x7d\n```")
      (Json.invalid "looking for beginning of value") (by decide) rfl).2.2.2.2
      (some [("a", GoValue.str "Inf")]) [("a", GoValue.float64 (F64.inf false))] "a" "Inf"
      (F64.inf false) rfl rfl (List.mem_cons_self _ _) rfl (Or.inr ⟨false, rfl⟩)⟩

/-- C6 as stated fails. The arguments `a: "NaN"` inside a code fence are not a
JSON object, the repair attempt succeeds on them, and lenient mode still fails:
the string is repaired into a NaN and the re-encoding fails. The call fails in
lenient mode although the salvage did not. -/
theorem lenient_salvaged_call_fails_counterexample :
    (mkCall "lookup" "```json\n\x7b\"a\":\"NaN\"\x7d\n```").Function.Arguments ≠ "" ∧
    Json.unmarshal "```json\n\x7b\"a\":\"NaN\"\x7d\n```"
      = .error (Json.invalid "looking for beginning of value") ∧
    tryFixJSON "```json\n\x7b\"a\":\"NaN\"\x7d\n```" = .ok (some [("a", GoValue.str "NaN")]) ∧
    validateAndFixParameters (some [("a", GoValue.str "NaN")]) "lookup"
      = .ok (some [("a", GoValue.float64 F64.nan)]) ∧
    Json.marshal (some [("a", GoValue.float64 F64.nan)])
      = .error "json: unsupported value: NaN" ∧
    processToolCall (mkCall "lookup" "```json\n\x7b\"a\":\"NaN\"\x7d\n```") false
      = (mkCall "lookup" "```json\n\x7b\"a\":\"NaN\"\x7d\n```",
          some (ProcessError.reencodeFailed "json: unsupported value: NaN")) ∧
    processToolCall (mkCall "lookup" "```json\n\x7b\"a\":\"NaN\"\x7d\n```") true
      = (mkCall "lookup" "```json\n\x7b\"a\":\"NaN\"\x7d\n```",
          some (ProcessError.malformedJSON (Json.invalid "looking for beginning of value"))) :=
  ⟨by decide, rfl, rfl, rfl, rfl, rfl, rfl⟩


end EnhanceTool
